import Mathlib

/-!
Verification of the litua document-compiler front-end: a shallow embedding of
the streaming lexer (`src/lexer.rs`), the recursive-descent parser
(`src/parser.rs`) and the Unicode line splitter (`src/lines_with_indices.rs`),
together with proofs of the specified properties.

Modelling conventions:
* a source document is a `List Char` (the sequence of Unicode scalars);
  byte offsets are computed with the UTF-8 width of each scalar,
* Rust `usize` values are `Nat`; the two sentinel values `usize::MAX` and
  `usize::MAX - 1` are the explicit constants `2^64 - 1` and `2^64 - 2`,
* the mutable `LexingIterator` is a record threaded through state-passing
  functions; the `panic!` branch of `pop_scope` sets a ghost `panicked` flag,
* recursion that Rust expresses with loops is expressed with fuel so that all
  definitions compute by kernel reduction; lemmas show the fuel is irrelevant
  once it dominates an explicit termination measure.
-/

namespace Litua

/-! ## UTF-8 widths, byte offsets and slices of the source -/

/-- Number of bytes of the UTF-8 encoding of a scalar (Rust `char::len_utf8`). -/
def utf8Width (c : Char) : Nat :=
  if c.toNat < 0x80 then 1
  else if c.toNat < 0x800 then 2
  else if c.toNat < 0x10000 then 3
  else 4

/-- Total UTF-8 byte length of a scalar list (Rust `str::len`). -/
def byteLen (s : List Char) : Nat := (s.map utf8Width).sum

/-- Byte offset of the `i`-th scalar of `src` (UTF-8 boundary number `i`). -/
def bl (src : List Char) (i : Nat) : Nat := byteLen (src.take i)

/-- The Unicode-scalar iterator of Rust: `(byte offset, scalar)` pairs,
starting at byte offset `off` (`str::char_indices`). -/
def charIndicesFrom (off : Nat) : List Char → List (Nat × Char)
  | [] => []
  | c :: r => (off, c) :: charIndicesFrom (off + utf8Width c) r

def charIndices (s : List Char) : List (Nat × Char) := charIndicesFrom 0 s

/-- The scalars of `src` whose byte offset lies in `[a, b)`: the source slice
denoted by a byte range of a token. -/
def sliceB (src : List Char) (a b : Nat) : List Char :=
  ((charIndices src).filter (fun p => a ≤ p.1 ∧ p.1 < b)).map (·.2)

/-! ## Tokens and errors (`lexer.rs`, `errors.rs`) -/

deriving instance DecidableEq for Except

/-- A half-open byte range `[start, stop)` into the source (`ops::Range<usize>`). -/
structure ByteRange where
  start : Nat
  stop : Nat
  deriving DecidableEq, Repr

/-- Tokens produced by the lexer (`lexer.rs`, `enum Token`). -/
inductive Token where
  | BeginFunction (offset : Nat)
  | Call (range : ByteRange)
  | Whitespace (offset : Nat) (scalar : Char)
  | BeginArgs (offset : Nat)
  | ArgKey (range : ByteRange)
  | BeginArgValue (offset : Nat)
  | EndArgValue (offset : Nat)
  | EndArgs (offset : Nat)
  | BeginContent (offset : Nat)
  | EndContent (offset : Nat)
  | EndFunction (offset : Nat)
  | BeginRaw (range : ByteRange)
  | EndRaw (range : ByteRange)
  | Text (range : ByteRange)
  | EndOfFile (offset : Nat)
  deriving DecidableEq, Repr

/-- Errors surfaced by the core (`errors.rs`, `enum Error`; the two
presentational variants are produced only by the diagnostic formatter). -/
inductive Error where
  | UnbalancedParentheses (msg : String) (offset : Nat)
  | InvalidSyntax (msg : String) (offset : Nat)
  | UnexpectedToken (got : Token) (expected : String)
  | UnexpectedEOF (msg : String)
  deriving DecidableEq, Repr

/-! ## The lexer state machine (`lexer.rs`) -/

/-- `enum LexingScope`. -/
inductive LexingScope where
  | ArgumentValue
  | Content
  | Function
  | RawString
  deriving DecidableEq, Repr

/-- `enum LexingState`. -/
inductive LexingState where
  | ReadingContent
  | ReadingContentText
  | ReadingArgumentValue
  | ReadingArgumentValueText
  | FoundCallOpening
  | StartRaw
  | ReadingRaw
  | EndRaw
  | ReadingCallName
  | FoundArgumentOpening
  | FoundArgumentClosing
  | Terminated
  deriving DecidableEq, Repr

/-- `struct LexingIterator`.  The scope `stack` has its top at the head.
`panicked` is a ghost flag recording that the `panic!` branch of
`pop_scope` was taken. -/
structure LexingIterator where
  state : LexingState
  source_byte_length : Nat
  token_start : Nat
  token_function_start : Nat
  token_rawcontent_start : Nat
  raw_delimiter_length : Nat
  raw_delimiter_read : Nat
  chars : List (Nat × Char)
  stack : List LexingScope
  next_tokens : List Token
  occured_error : Option Error
  panicked : Bool
  deriving DecidableEq, Repr

namespace LexingIterator

/-- `usize::MAX`: the sentinel `START_TOKEN_AT_NEXT_BYTEOFFSET`. -/
def S1 : Nat := 2 ^ 64 - 1

/-- `usize::MAX - 1`: the sentinel `START_AND_EMIT_TOKEN_AT_NEXT_BYTEOFFSET`. -/
def S2 : Nat := 2 ^ 64 - 2

/-- `LexingIterator::new`. -/
def init (src : List Char) : LexingIterator where
  state := .ReadingContent
  source_byte_length := byteLen src
  token_start := 0
  token_function_start := 0
  token_rawcontent_start := 0
  raw_delimiter_length := 0
  raw_delimiter_read := 0
  chars := charIndices src
  stack := [.Content]
  next_tokens := []
  occured_error := none
  panicked := false

/-- `LexingIterator::push_scope`. -/
def pushScope (it : LexingIterator) (sc : LexingScope) (byteOffset : Nat) : LexingIterator :=
  { it with token_start := byteOffset, stack := sc :: it.stack }

def scopeName : LexingScope → String
  | .ArgumentValue => "ArgumentValue"
  | .Content => "Content"
  | .Function => "Function"
  | .RawString => "RawString"

/-- `LexingIterator::pop_scope`, with explicit fuel for the recursive
`(Content, Function)` case.  The catch-all `panic!` branch sets the ghost
`panicked` flag (and halts the machine). -/
def popScopeF : Nat → LexingIterator → Nat → LexingIterator
  | 0, it, _ => it
  | fuel + 1, it, byteOffset =>
    match it.stack with
    | [] =>
      { it with state := .Terminated,
                occured_error := some (.UnbalancedParentheses
                  ("scope ended at byte " ++ toString byteOffset ++ " but it never started")
                  byteOffset) }
    | oldTop :: rest =>
      match rest with
      | [] =>
        { it with stack := rest, state := .Terminated,
                  occured_error := some (.UnbalancedParentheses
                    ("scope " ++ scopeName oldTop ++ " ended at byte " ++ toString byteOffset ++
                      " but it never started") byteOffset) }
      | newTop :: _ =>
        match oldTop, newTop with
        | .ArgumentValue, .Function =>
          { it with stack := rest, state := .FoundArgumentClosing, token_start := byteOffset }
        | .Content, .Function =>
          let it' := popScopeF fuel
            { it with stack := rest, next_tokens := it.next_tokens ++ [.EndFunction byteOffset] }
            byteOffset
          { it' with token_start := S1 }
        | .Function, .ArgumentValue =>
          { it with stack := rest, state := .ReadingArgumentValue, token_start := S1 }
        | .Function, .Content =>
          { it with stack := rest, state := .ReadingContent }
        | .RawString, .Content =>
          { it with stack := rest, state := .ReadingContent }
        | .RawString, .ArgumentValue =>
          { it with stack := rest, state := .ReadingArgumentValue, token_start := S1 }
        | _, _ =>
          { it with stack := rest, state := .Terminated, panicked := true }

def popScope (it : LexingIterator) (byteOffset : Nat) : LexingIterator :=
  popScopeF (it.stack.length + 1) it byteOffset

end LexingIterator

/-- Rust `char::is_whitespace`: the Unicode `White_Space` property. -/
def rustIsWhitespace (c : Char) : Bool :=
  [0x09, 0x0A, 0x0B, 0x0C, 0x0D, 0x20, 0x85, 0xA0, 0x1680,
   0x2000, 0x2001, 0x2002, 0x2003, 0x2004, 0x2005, 0x2006, 0x2007,
   0x2008, 0x2009, 0x200A, 0x2028, 0x2029, 0x202F, 0x205F, 0x3000].contains c.toNat

namespace LexingIterator

/-- One character of `LexingIterator::progress`: the big `match self.state`
after the next scalar `(byteOffset, chr)` has been pulled.  The caller has
already removed the scalar from `chars`; the queue drain and the EOF handling
stay in `progress`. -/
def stepChar (it : LexingIterator) (byteOffset : Nat) (chr : Char) : LexingIterator :=
  match it.state with
  | .ReadingContent =>
    let it :=
      if it.token_start = S2 then
        { it with next_tokens := it.next_tokens ++ [.BeginContent byteOffset],
                  raw_delimiter_read := 0, token_start := byteOffset }
      else if it.token_start = S1 then
        { it with raw_delimiter_read := 0, token_start := byteOffset }
      else it
    if chr = '{' then
      { it with token_start := byteOffset, token_function_start := byteOffset,
                state := .FoundCallOpening }
    else if chr = '}' then
      popScope { it with next_tokens := it.next_tokens ++ [.EndContent byteOffset],
                         token_start := byteOffset, token_function_start := S1 } byteOffset
    else
      { it with state := .ReadingContentText }
  | .ReadingContentText =>
    if chr = '{' then
      { it with next_tokens := it.next_tokens ++ [.Text ⟨it.token_start, byteOffset⟩],
                token_start := byteOffset, token_function_start := byteOffset,
                state := .FoundCallOpening }
    else if chr = '}' then
      popScope { it with
        next_tokens := it.next_tokens ++ [.Text ⟨it.token_start, byteOffset⟩,
                                          .EndContent byteOffset],
        token_start := byteOffset, token_function_start := S1 } byteOffset
    else it
  | .ReadingArgumentValue =>
    let it :=
      if it.token_start = S2 then
        { it with next_tokens := it.next_tokens ++ [.BeginArgValue byteOffset],
                  token_start := byteOffset }
      else if it.token_start = S1 then
        { it with token_start := byteOffset }
      else it
    if chr = '{' then
      { it with token_start := byteOffset, token_function_start := byteOffset,
                state := .FoundCallOpening }
    else if chr = ']' then
      popScope { it with next_tokens := it.next_tokens ++ [.EndArgValue byteOffset],
                         token_start := byteOffset } byteOffset
    else
      { it with state := .ReadingArgumentValueText }
  | .ReadingArgumentValueText =>
    if chr = '{' then
      let it :=
        if it.token_start ≠ S1 ∧ it.token_start ≠ byteOffset then
          { it with next_tokens := it.next_tokens ++ [.Text ⟨it.token_start, byteOffset⟩] }
        else it
      { it with token_start := byteOffset, token_function_start := byteOffset,
                state := .FoundCallOpening }
    else if chr = ']' then
      let it :=
        if it.token_start ≠ S1 ∧ it.token_start ≠ byteOffset then
          { it with next_tokens := it.next_tokens ++ [.Text ⟨it.token_start, byteOffset⟩] }
        else it
      popScope { it with next_tokens := it.next_tokens ++ [.EndArgValue byteOffset],
                         token_start := byteOffset } byteOffset
    else
      if it.token_start = S1 then { it with token_start := byteOffset } else it
  | .FoundCallOpening =>
    if chr = '}' then
      { it with next_tokens := it.next_tokens ++ [.BeginFunction it.token_start],
                occured_error := some (.InvalidSyntax
                  "call '\x7b' was immediately closed by '\x7d', but empty calls are not allowed"
                  byteOffset),
                state := .Terminated }
    else if chr = '<' then
      { it with token_start := byteOffset, raw_delimiter_length := 1, state := .StartRaw }
    else
      let it := pushScope it .Function it.token_start
      { it with next_tokens := it.next_tokens ++ [.BeginFunction it.token_start],
                token_start := byteOffset, state := .ReadingCallName }
  | .StartRaw =>
    if chr = '<' then
      let it := { it with raw_delimiter_length := it.raw_delimiter_length + 1 }
      if it.raw_delimiter_length = 127 then
        { it with occured_error := some (.InvalidSyntax
                    "raw string delimiter must not exceed length 126" byteOffset),
                  state := .Terminated }
      else it
    else if rustIsWhitespace chr then
      let it := { it with
                  raw_delimiter_read := 0,
                  next_tokens := it.next_tokens ++
                    [.BeginRaw ⟨it.token_function_start + 1, byteOffset⟩,
                     .Whitespace byteOffset chr] }
      let it := pushScope it .RawString byteOffset
      { it with token_start := S1, token_rawcontent_start := S1, state := .ReadingRaw }
    else
      { it with occured_error := some (.InvalidSyntax
                  ("unexpected character '" ++ String.mk [chr] ++
                    "' while reading raw string start") byteOffset),
                state := .Terminated }
  | .ReadingRaw =>
    let it :=
      if it.token_start = S1 then
        { it with token_rawcontent_start := byteOffset, token_start := byteOffset }
      else it
    if chr = '>' then
      let it := { it with raw_delimiter_read := it.raw_delimiter_read + 1 }
      let it := if it.raw_delimiter_read = 1 then { it with token_start := byteOffset } else it
      if it.raw_delimiter_read = it.raw_delimiter_length then
        { it with state := .EndRaw }
      else it
    else
      { it with raw_delimiter_read := 0 }
  | .EndRaw =>
    if chr = '}' then
      popScope { it with
        next_tokens := it.next_tokens ++
          [.Text ⟨it.token_rawcontent_start, it.token_start⟩,
           .EndRaw ⟨it.token_start, byteOffset⟩],
        token_start := S1, token_function_start := S1, token_rawcontent_start := S1 } byteOffset
    else
      { it with occured_error := some (.InvalidSyntax
                  ("unexpected character '" ++ String.mk [chr] ++
                    "' - only '\x7d' after a '>' sequence terminates a raw string") byteOffset),
                state := .Terminated }
  | .ReadingCallName =>
    if chr = '}' then
      popScope { it with
        next_tokens := it.next_tokens ++ [.Call ⟨it.token_start, byteOffset⟩,
                                          .EndFunction byteOffset],
        token_start := S1, token_function_start := S1 } byteOffset
    else if rustIsWhitespace chr then
      let it := { it with
        next_tokens := it.next_tokens ++ [.Call ⟨it.token_start, byteOffset⟩,
                                          .Whitespace byteOffset chr] }
      let it := pushScope it .Content byteOffset
      { it with token_start := S2, state := .ReadingContent }
    else if chr = '[' then
      { it with
        next_tokens := it.next_tokens ++ [.Call ⟨it.token_start, byteOffset⟩,
                                          .BeginArgs byteOffset],
        token_start := S1, state := .FoundArgumentOpening }
    else it
  | .FoundArgumentOpening =>
    if chr = '=' then
      if it.token_start = S1 then
        { it with occured_error := some (.InvalidSyntax
                    "argument key must not be an empty string" byteOffset),
                  state := .Terminated }
      else
        let it := { it with
          next_tokens := it.next_tokens ++ [.ArgKey ⟨it.token_start, byteOffset⟩] }
        let it := pushScope it .ArgumentValue byteOffset
        { it with token_start := S2, state := .ReadingArgumentValue }
    else
      if it.token_start = S1 then { it with token_start := byteOffset } else it
  | .FoundArgumentClosing =>
    if chr = '[' then
      { it with token_start := S1, state := .FoundArgumentOpening }
    else if chr = '}' then
      let it := popScope { it with
        next_tokens := it.next_tokens ++ [.EndArgs it.token_start] } byteOffset
      { it with token_start := S1, token_function_start := S1,
                next_tokens := it.next_tokens ++ [.EndFunction byteOffset] }
    else if rustIsWhitespace chr then
      let it := { it with
        next_tokens := it.next_tokens ++ [.EndArgs it.token_start, .Whitespace byteOffset chr] }
      let it := pushScope it .Content byteOffset
      { it with token_start := S2, token_rawcontent_start := S1, state := .ReadingContent }
    else
      { it with state := .Terminated,
                occured_error := some (.InvalidSyntax
                  "after ending arguments with ']', I require a whitespace character to continue with content"
                  byteOffset) }
  | .Terminated => it

/-- `LexingIterator::progress`: drain the queue, otherwise consume one scalar
(or handle end of input). -/
def progress (it : LexingIterator) : Option Token × LexingIterator :=
  match it.next_tokens with
  | t :: rest => (some t, { it with next_tokens := rest })
  | [] =>
    if it.state = .Terminated then (none, it)
    else
      match it.chars with
      | [] =>
        if it.token_start ≠ it.source_byte_length ∧ it.token_start ≠ S1 ∧ it.token_start ≠ S2 then
          (none, { it with
            next_tokens := [.Text ⟨it.token_start, it.source_byte_length⟩],
            token_start := it.source_byte_length })
        else
          (some (.EndOfFile it.source_byte_length), { it with state := .Terminated })
      | (byteOffset, chr) :: rest =>
        let it1 := stepChar { it with chars := rest } byteOffset chr
        match it1.next_tokens with
        | t :: q => (some t, { it1 with next_tokens := q })
        | [] => (none, it1)

/-- Termination measure for the `loop` in `Iterator::next`. -/
def flushPending (it : LexingIterator) : Bool :=
  it.chars = [] ∧ it.token_start ≠ it.source_byte_length ∧
    it.token_start ≠ S1 ∧ it.token_start ≠ S2

def measure (it : LexingIterator) : Nat :=
  6 * it.chars.length + it.next_tokens.length +
    (if it.state = .Terminated then 0 else 1) +
    (if flushPending it then 2 else 0)

/-- `Iterator::next` for `LexingIterator`, with fuel standing for the `loop`. -/
def lexNextF : Nat → LexingIterator → Option (Except Error Token) × LexingIterator
  | 0, it => (none, it)
  | fuel + 1, it =>
    match progress it with
    | (some tok, it') => (some (.ok tok), it')
    | (none, it') =>
      if it'.state = .Terminated then
        match it'.occured_error with
        | some e => (some (.error e), { it' with occured_error := none })
        | none => (none, it')
      else lexNextF fuel it'

/-- `Iterator::next`: the fuel `measure it + 1` always suffices
(`lexNextF_eq_of_lt`). -/
def lexNext (it : LexingIterator) : Option (Except Error Token) × LexingIterator :=
  lexNextF (measure it + 1) it

/-- All tokens and the final error of a lexer run (fueled). -/
def runLexF : Nat → LexingIterator → List Token × Option Error
  | 0, _ => ([], none)
  | fuel + 1, it =>
    match lexNext it with
    | (some (.ok t), it') =>
      let r := runLexF fuel it'
      (t :: r.1, r.2)
    | (some (.error e), _) => ([], some e)
    | (none, _) => ([], none)

/-- The whole token sequence emitted by the lexer together with the error that
terminates the failure scenario (`none` on success). -/
def runLex (it : LexingIterator) : List Token × Option Error :=
  runLexF (measure it + 1) it

/-- The iterator state after `n` calls of `Iterator::next`. -/
def iterState (it : LexingIterator) : Nat → LexingIterator
  | 0 => it
  | n + 1 => (lexNext (iterState it n)).2

/-- The result of the `n`-th (0-based) call of `Iterator::next` on the lexing
iterator started at `it`. -/
def outAt (it : LexingIterator) (n : Nat) : Option (Except Error Token) :=
  (lexNext (iterState it n)).1

/-- The results of the first `n` calls of `Iterator::next`. -/
def outsUpTo (it : LexingIterator) (n : Nat) : List (Option (Except Error Token)) :=
  (List.range n).map (outAt it)

/-- The exhausted iterator: `next` has nothing left to do. -/
def IsDead (it : LexingIterator) : Prop :=
  it.state = .Terminated ∧ it.next_tokens = [] ∧ it.occured_error = none

instance (it : LexingIterator) : Decidable (IsDead it) := by
  unfold IsDead; infer_instance

/-! ### The scope stack discipline and the machine invariant -/

/-- The scope pairings `(upper, lower)` that `pop_scope` handles explicitly:
exactly the adjacencies the state machine ever builds. -/
def scopePairOK : LexingScope → LexingScope → Bool
  | .Function, .Content => true
  | .Function, .ArgumentValue => true
  | .Content, .Function => true
  | .ArgumentValue, .Function => true
  | .RawString, .Content => true
  | .RawString, .ArgumentValue => true
  | _, _ => false

/-- Every adjacent pair of the scope stack (top at the head) is one that
`pop_scope` handles. -/
def stackOK : List LexingScope → Bool
  | [] => true
  | [_] => true
  | a :: b :: r => scopePairOK a b && stackOK (b :: r)

/-- Which scope is on top of the stack in each lexer state. -/
def stateTopOK : LexingState → List LexingScope → Bool
  | .ReadingContent, stk => stk.head? = some .Content
  | .ReadingContentText, stk => stk.head? = some .Content
  | .ReadingArgumentValue, stk => stk.head? = some .ArgumentValue
  | .ReadingArgumentValueText, stk => stk.head? = some .ArgumentValue
  | .FoundCallOpening, stk =>
      stk.head? = some .Content || stk.head? = some .ArgumentValue
  | .StartRaw, stk =>
      stk.head? = some .Content || stk.head? = some .ArgumentValue
  | .ReadingCallName, stk => stk.head? = some .Function
  | .FoundArgumentOpening, stk => stk.head? = some .Function
  | .FoundArgumentClosing, stk => stk.head? = some .Function
  | .ReadingRaw, stk => stk.head? = some .RawString
  | .EndRaw, stk => stk.head? = some .RawString
  | .Terminated, _ => true

/-- No `EndOfFile` token ever sits in the pending queue. -/
def noEOF (q : List Token) : Bool :=
  q.all (fun t => match t with | .EndOfFile _ => false | _ => true)

/-- The state invariant of the lexing machine, preserved by every call of
`next` from `LexingIterator::new`. -/
structure InvA (it : LexingIterator) : Prop where
  eof_free : noEOF it.next_tokens = true
  err_term : it.occured_error ≠ none → it.state = .Terminated
  term_ok : it.state = .Terminated → it.occured_error ≠ none ∨ it.next_tokens = []
  no_panic : it.panicked = false
  stack_ok : stackOK it.stack = true
  top_ok : stateTopOK it.state it.stack = true

/-! ### Equations for `pop_scope` on each stack shape the machine builds -/

/-! ### Shapes a well-formed stack can have below each possible top -/

end LexingIterator

/-! ## The line index (`lines_with_indices.rs`) -/

namespace Lines

/-- `usize::MAX`, the sentinel of `LinesWithByteIndices`. -/
def MAX : Nat := 2 ^ 64 - 1

/-- `usize::saturating_add`. -/
def satAdd (a b : Nat) : Nat := min (a + b) MAX

/-- Rust byte slicing `s[n..]` on a scalar list (total; runs only slice at
scalar boundaries, where Rust would not panic either). -/
def byteDrop : Nat → List Char → List Char
  | _, [] => []
  | n, c :: r => if n = 0 then c :: r else byteDrop (n - utf8Width c) r

/-- Rust byte slicing `s[..n]` on a scalar list. -/
def byteTake : Nat → List Char → List Char
  | _, [] => []
  | n, c :: r => if n = 0 then [] else c :: byteTake (n - utf8Width c) r

/-- The loop of `find_next_line_terminator`, with the byte offset of the
current scalar accumulated. -/
def findTermAux : Nat → List Char → Nat × Nat
  | _, [] => (MAX, MAX)
  | bo, c :: rest =>
    if c = '\u000C' ∨ c = '\u000B' ∨ c = '\u2028' ∨ c = '\u2029' ∨
       c = '\u000A' ∨ c = '\u0085' then
      (bo, bo + utf8Width c)
    else if c = '\u000D' then
      match rest with
      | c2 :: _ => if c2 = '\u000A' then (bo, (bo + utf8Width c) + 1) else (bo, bo + 1)
      | [] => (bo, bo + 1)
    else findTermAux (bo + utf8Width c) rest

/-- `find_next_line_terminator`: byte index of the next line terminator and of
the next line start inside `substr`, or `(usize::MAX, usize::MAX)`. -/
def findNextLineTerminator (substr : List Char) : Nat × Nat :=
  if substr = [] then (MAX, MAX) else findTermAux 0 substr

/-- The iterator `LinesWithByteIndices` resumed at byte index `start` of `s`,
unrolled into the list of all remaining items (fueled). -/
def linesFromF : Nat → List Char → Nat → List (Nat × List Char)
  | 0, _, _ => []
  | fuel + 1, s, start =>
    if start = MAX then []
    else
      let substr := byteDrop start s
      let r := findNextLineTerminator substr
      if r.1 = MAX ∧ r.2 = MAX then [(start, substr)]
      else (start, byteTake r.1 substr) :: linesFromF fuel s (satAdd r.2 start)

/-- `str::lines_indices()` collected into a list: the
`(byte index of line start, line slice)` pairs of a string. -/
def linesIndices (s : List Char) : List (Nat × List Char) :=
  linesFromF (s.length + 1) s 0

/-- The hard-break scalars of Unicode TR#14 rules LB4/LB5, as recognized by
`find_next_line_terminator`. -/
def hardBreaks : List Char :=
  ['\u000A', '\u000B', '\u000C', '\u000D', '\u0085', '\u2028', '\u2029']

end Lines

/-! ## The document tree and the parser (`tree.rs`, `parser.rs`) -/

/-- `DocumentElement` / `DocumentFunction` / `DocumentNode` of `tree.rs`:
a function node carries its name, its argument mapping (modelled as an
association list, insertion-ordered with `HashMap::insert` replacement
semantics) and its content children. -/
inductive DocumentElement where
  | Function (name : String) (args : List (String × List DocumentElement))
      (content : List DocumentElement)
  | Text (s : String)
  deriving Repr

/-- `HashMap::insert`: replace the value under an existing key, otherwise add
the binding. -/
def insertArg (args : List (String × List DocumentElement)) (k : String)
    (v : List DocumentElement) : List (String × List DocumentElement) :=
  if args.any (fun p => p.1 = k) then
    args.map (fun p => if p.1 = k then (k, v) else p)
  else
    args ++ [(k, v)]

/-- Look a key up in an argument mapping. -/
def lookupArg (args : List (String × List DocumentElement)) (k : String) :
    Option (List DocumentElement) :=
  (args.find? (fun p => p.1 = k)).map (·.2)

/-- The owned string copied out of the source for a token's byte range
(`&self.source_code[range]`). -/
def sliceStr (src : List Char) (r : ByteRange) : String :=
  String.mk (sliceB src r.start r.stop)

namespace Parser

/-- The item stream the parser consumes: what the peekable `LexingIterator`
yields until exhaustion. -/
abbrev Stream := List (Except Error Token)

/-- The stream the lexer produces for a source document. -/
def streamOf (src : List Char) : Stream :=
  let r := LexingIterator.runLex (LexingIterator.init src)
  r.1.map Except.ok ++ (match r.2 with | some e => [Except.error e] | none => [])

def unexpectedToken (tok : Token) (expected : String) : Error :=
  .UnexpectedToken tok expected

def unexpectedEOF : Error :=
  .UnexpectedEOF "unexpected end of lexer tokens iterator"

/-- `Parser::parse_raw`. -/
def parseRaw (src : List Char) (s : Stream) : Except Error (DocumentElement × Stream) :=
  -- (1) consume BeginRaw
  match s with
  | [] => .error unexpectedEOF
  | .error e :: _ => .error e
  | .ok tok1 :: s1 =>
    match tok1 with
    | .BeginRaw range =>
      let name := sliceStr src range
      -- (2) consume Whitespace
      match s1 with
      | [] => .error unexpectedEOF
      | .error e :: _ => .error e
      | .ok tok2 :: s2 =>
        match tok2 with
        | .Whitespace _ ws =>
          -- (3) consume Text
          match s2 with
          | [] => .error unexpectedEOF
          | .error e :: _ => .error e
          | .ok tok3 :: s3 =>
            match tok3 with
            | .Text range3 =>
              let text := sliceStr src range3
              -- (4) consume EndRaw
              match s3 with
              | [] => .error unexpectedEOF
              | .error e :: _ => .error e
              | .ok tok4 :: s4 =>
                match tok4 with
                | .EndRaw _ =>
                  .ok (.Function name [("=whitespace", [.Text (String.mk [ws])])]
                        [.Text text], s4)
                | .EndOfFile _ => .error unexpectedEOF
                | _ => .error (unexpectedToken tok4 "end of raw string")
            | .EndOfFile _ => .error unexpectedEOF
            | _ => .error (unexpectedToken tok3 "text string")
        | .EndOfFile _ => .error unexpectedEOF
        | _ => .error (unexpectedToken tok2 "some whitespace")
    | .EndOfFile _ => .error unexpectedEOF
    | _ => .error (unexpectedToken tok1 "start of raw string")

mutual

/-- `Parser::parse_function` (fueled; `BeginArgs`/`EndArgs` are matched with
their offset payloads, which `parser.rs` still writes as unit variants of an
older lexer). -/
def parseFunction (src : List Char) :
    Nat → Stream → Except Error (DocumentElement × Stream)
  | 0, _ => .error unexpectedEOF
  | fuel + 1, s =>
    -- (01) consume BeginFunction
    match s with
    | [] => .error unexpectedEOF
    | .error e :: _ => .error e
    | .ok tok1 :: s1 =>
      match tok1 with
      | .BeginFunction _ =>
        -- (02) consume Call
        match s1 with
        | [] => .error unexpectedEOF
        | .error e :: _ => .error e
        | .ok tok2 :: s2 =>
          match tok2 with
          | .Call range =>
            let name := sliceStr src range
            -- (03) optionally consume Whitespace
            let wsStep : Except Error (List (String × List DocumentElement) × Stream) :=
              match s2 with
              | .ok (.Whitespace _ w) :: s3 =>
                .ok ([("=whitespace", [DocumentElement.Text (String.mk [w])])], s3)
              | _ => .ok ([], s2)
            match wsStep with
            | .error e => .error e
            | .ok (args0, s3) =>
              -- (04) if BeginArgs
              match s3 with
              | .ok (.BeginArgs _) :: s4 =>
                -- (06) loop while ArgKey
                match parseArgsLoop src fuel args0 s4 with
                | .error e => .error e
                | .ok (args1, s5) =>
                  -- (09) consume EndArgs
                  match s5 with
                  | [] => .error unexpectedEOF
                  | .error e :: _ => .error e
                  | .ok tok6 :: s6 =>
                    match tok6 with
                    | .EndArgs _ =>
                      -- (10) optionally consume Whitespace
                      let args2s7 : List (String × List DocumentElement) × Stream :=
                        match s6 with
                        | .ok (.Whitespace _ w) :: s7 =>
                          (insertArg args1 "=whitespace"
                            [DocumentElement.Text (String.mk [w])], s7)
                        | _ => (args1, s6)
                      parseFunctionTail src fuel name args2s7.1 args2s7.2
                    | .EndOfFile _ => .error unexpectedEOF
                    | _ => .error (unexpectedToken tok6 "end of arguments")
              | _ => parseFunctionTail src fuel name args0 s3
          | .EndOfFile _ => .error unexpectedEOF
          | _ => .error (unexpectedToken tok2 "call name")
      | .EndOfFile _ => .error unexpectedEOF
      | _ => .error (unexpectedToken tok1 "start of function")

/-- Steps (11)-(13) of `parse_function`: the optional content block and the
closing `EndFunction`. -/
def parseFunctionTail (src : List Char) :
    Nat → String → List (String × List DocumentElement) → Stream →
      Except Error (DocumentElement × Stream)
  | 0, _, _, _ => .error unexpectedEOF
  | fuel + 1, name, args, s =>
    let contentStep : Except Error (List DocumentElement × Stream) :=
      match s with
      | .ok (.BeginContent _) :: _ =>
        parseContent src fuel s
      | _ => .ok ([], s)
    match contentStep with
    | .error e => .error e
    | .ok (content, s1) =>
      -- (13) consume EndFunction
      match s1 with
      | [] => .error unexpectedEOF
      | .error e :: _ => .error e
      | .ok tok :: s2 =>
        match tok with
        | .EndFunction _ => .ok (.Function name args content, s2)
        | .EndOfFile _ => .error unexpectedEOF
        | _ => .error (unexpectedToken tok "end of function")

/-- Steps (06)-(08) of `parse_function`: the `ArgKey`/value pairs, with
last-write-wins insertion. -/
def parseArgsLoop (src : List Char) :
    Nat → List (String × List DocumentElement) → Stream →
      Except Error (List (String × List DocumentElement) × Stream)
  | 0, _, _ => .error unexpectedEOF
  | fuel + 1, args, s =>
    match s with
    | .ok (.ArgKey _) :: _ =>
      -- (07) consume ArgKey
      match s with
      | [] => .error unexpectedEOF
      | .error e :: _ => .error e
      | .ok tok :: s1 =>
        match tok with
        | .EndArgs _ => .ok (args, s1)
        | .ArgKey range =>
          let argName := sliceStr src range
          -- (08) parse_argument_value
          match parseArgumentValue src fuel s1 with
          | .error e => .error e
          | .ok (v, s2) => parseArgsLoop src fuel (insertArg args argName v) s2
        | .EndOfFile _ => .error unexpectedEOF
        | _ => .error (unexpectedToken tok "end of arguments or the next argument key")
    | _ => .ok (args, s)

/-- `Parser::parse_argument_value`. -/
def parseArgumentValue (src : List Char) :
    Nat → Stream → Except Error (List DocumentElement × Stream)
  | 0, _ => .error unexpectedEOF
  | fuel + 1, s =>
    -- (1) consume BeginArgValue
    match s with
    | [] => .error unexpectedEOF
    | .error e :: _ => .error e
    | .ok tok :: s1 =>
      match tok with
      | .BeginArgValue _ =>
        match parseAVLoop src fuel [] s1 with
        | .error e => .error e
        | .ok (elems, s2) =>
          -- (8) consume EndArgValue
          match s2 with
          | [] => .error unexpectedEOF
          | .error e :: _ => .error e
          | .ok tok2 :: s3 =>
            match tok2 with
            | .EndArgValue _ => .ok (elems, s3)
            | .EndOfFile _ => .error unexpectedEOF
            | _ => .error (unexpectedToken tok2 "end of argument value")
      | .EndOfFile _ => .error unexpectedEOF
      | _ => .error (unexpectedToken tok "start of argument value")

/-- The `loop` of `parse_argument_value`. -/
def parseAVLoop (src : List Char) :
    Nat → List DocumentElement → Stream →
      Except Error (List DocumentElement × Stream)
  | 0, _, _ => .error unexpectedEOF
  | fuel + 1, acc, s =>
    match s with
    | .ok (.BeginFunction _) :: _ =>
      match parseFunction src fuel s with
      | .error e => .error e
      | .ok (func, s1) => parseAVLoop src fuel (acc ++ [func]) s1
    | .ok (.BeginRaw _) :: _ =>
      match parseRaw src s with
      | .error e => .error e
      | .ok (el, s1) => parseAVLoop src fuel (acc ++ [el]) s1
    | .ok (.Text _) :: _ =>
      match s with
      | .ok (.Text range) :: s1 =>
        parseAVLoop src fuel (acc ++ [.Text (sliceStr src range)]) s1
      | _ => .error unexpectedEOF
    | .ok (.EndArgValue _) :: _ => .ok (acc, s)
    | .ok tok :: _ =>
      .error (unexpectedToken tok "start of function/raw string or some text or end of argument value")
    | .error e :: _ => .error e
    | [] => .error unexpectedEOF

/-- `Parser::parse_content`. -/
def parseContent (src : List Char) :
    Nat → Stream → Except Error (List DocumentElement × Stream)
  | 0, _ => .error unexpectedEOF
  | fuel + 1, s =>
    -- (1) consume BeginContent
    match s with
    | [] => .error unexpectedEOF
    | .error e :: _ => .error e
    | .ok tok :: s1 =>
      match tok with
      | .BeginContent _ =>
        match parseContentLoop src fuel [] s1 with
        | .error e => .error e
        | .ok (elems, s2) =>
          -- (8) consume EndContent
          match s2 with
          | [] => .error unexpectedEOF
          | .error e :: _ => .error e
          | .ok tok2 :: s3 =>
            match tok2 with
            | .EndContent _ => .ok (elems, s3)
            | .EndOfFile _ => .error unexpectedEOF
            | _ => .error (unexpectedToken tok2 "end of content")
      | .EndOfFile _ => .error unexpectedEOF
      | _ => .error (unexpectedToken tok "start of content")

/-- The `loop` of `parse_content`. -/
def parseContentLoop (src : List Char) :
    Nat → List DocumentElement → Stream →
      Except Error (List DocumentElement × Stream)
  | 0, _, _ => .error unexpectedEOF
  | fuel + 1, acc, s =>
    match s with
    | .ok (.BeginFunction _) :: _ =>
      match parseFunction src fuel s with
      | .error e => .error e
      | .ok (func, s1) => parseContentLoop src fuel (acc ++ [func]) s1
    | .ok (.BeginRaw _) :: _ =>
      match parseRaw src s with
      | .error e => .error e
      | .ok (el, s1) => parseContentLoop src fuel (acc ++ [el]) s1
    | .ok (.Text _) :: _ =>
      match s with
      | .ok (.Text range) :: s1 =>
        parseContentLoop src fuel (acc ++ [.Text (sliceStr src range)]) s1
      | _ => .error unexpectedEOF
    | .ok (.EndContent _) :: _ => .ok (acc, s)
    | .ok tok :: _ =>
      .error (unexpectedToken tok "start of function/raw string or some text or end of content")
    | .error e :: _ => .error e
    | [] => .error unexpectedEOF

end

/-- The top-level loop of `Parser::consume_iter`. -/
def consumeLoop (src : List Char) :
    Nat → List DocumentElement → Stream → Except Error (List DocumentElement)
  | 0, _, _ => .error unexpectedEOF
  | fuel + 1, acc, s =>
    match s with
    | .ok (.BeginFunction _) :: _ =>
      match parseFunction src (s.length + 2) s with
      | .error e => .error e
      | .ok (func, s1) => consumeLoop src fuel (acc ++ [func]) s1
    | .ok (.BeginRaw _) :: _ =>
      match parseRaw src s with
      | .error e => .error e
      | .ok (el, s1) => consumeLoop src fuel (acc ++ [el]) s1
    | .ok (.Text _) :: _ =>
      match s with
      | .ok (.Text range) :: s1 =>
        consumeLoop src fuel (acc ++ [.Text (sliceStr src range)]) s1
      | _ => .error unexpectedEOF
    | .ok (.EndOfFile _) :: _ => .ok acc
    | .ok tok :: _ =>
      .error (unexpectedToken tok "start of function/raw string or some text or end of file")
    | .error e :: _ => .error e
    | [] => .error (unexpectedToken (.EndOfFile 0) "unexpected end of lexer tokens iterator")

/-- `Parser::consume_iter` driven by the lexer of `src`: the top-level content
sequence of the document (the `tree` field of the parser; `Parser::tree()`
wraps it in the root `document` function). -/
def parseDocument (src : List Char) : Except Error (List DocumentElement) :=
  consumeLoop src ((streamOf src).length + 1) [] (streamOf src)

end Parser

/-! ## Test inputs used by the concrete claims -/

/-- The source `" {<<< text >>>} "` of scenario 5. -/
def rawScenarioSrc : List Char := " {<<< text >>>} ".toList

/-- A well-formed raw string whose opening delimiter has exactly 126 `<`
scalars (the maximum the lexer accepts). -/
def rawLen126Src : List Char :=
  '{' :: (List.replicate 126 '<' ++ " hello ".toList ++ List.replicate 126 '>' ++ ['}'])

/-- A raw-string opening whose run of `<` scalars reaches 127. -/
def rawLen127Src : List Char :=
  '{' :: (List.replicate 127 '<' ++ " hi".toList)

/-! ## Claim theorems -/

namespace LexingIterator

/-- The run invariant from `LexingIterator::new`: the machine invariant plus
the guarantee that `Terminated` is only entered with a stored error. -/
def Ready (it : LexingIterator) : Prop :=
  InvA it ∧ (it.state = .Terminated → it.occured_error ≠ none)

end LexingIterator

/-- `b` is a UTF-8 scalar boundary of `src` (`|src|` itself counts). -/
def IsBoundary (src : List Char) (b : Nat) : Prop :=
  ∃ i, i ≤ src.length ∧ b = bl src i

/-- Both ends of the byte range are scalar boundaries of the source, in
order. -/
def rangeOK (src : List Char) (r : ByteRange) : Prop :=
  ∃ i j, i ≤ j ∧ j ≤ src.length ∧ r.start = bl src i ∧ r.stop = bl src j

/-- Every offset a token carries is a scalar boundary of the source; a range
is ordered and ends within the source. -/
def tokOK (src : List Char) : Token → Prop
  | .BeginFunction o => IsBoundary src o
  | .Call r => rangeOK src r
  | .Whitespace o _ => IsBoundary src o
  | .BeginArgs o => IsBoundary src o
  | .ArgKey r => rangeOK src r
  | .BeginArgValue o => IsBoundary src o
  | .EndArgValue o => IsBoundary src o
  | .EndArgs o => IsBoundary src o
  | .BeginContent o => IsBoundary src o
  | .EndContent o => IsBoundary src o
  | .EndFunction o => IsBoundary src o
  | .BeginRaw r => rangeOK src r
  | .EndRaw r => rangeOK src r
  | .Text r => rangeOK src r
  | .EndOfFile o => IsBoundary src o

/-- `Call` and `BeginRaw` tokens carry a non-empty byte range. -/
def tokStrict : Token → Prop
  | .Call r => r.start < r.stop
  | .BeginRaw r => r.start < r.stop
  | _ => True

namespace LexingIterator

/-- State-dependent constraints on the offset registers of the iterator,
read just before the scalar with index `i` is consumed. -/
def stateP (src : List Char) (st : LexingState) (ts tfs trc i : Nat) : Prop :=
  match st with
  | .ReadingContent => True
  | .ReadingContentText => ∃ j, j ≤ i ∧ ts = bl src j
  | .ReadingArgumentValue => True
  | .ReadingArgumentValueText =>
      ts = S1 ∨ ∃ j, j ≤ i ∧ ts = bl src j
  | .FoundCallOpening =>
      (∃ j, j ≤ i ∧ ts = bl src j) ∧
      (∃ j, j + 1 ≤ i ∧ tfs = bl src j ∧ bl src (j + 1) = tfs + 1)
  | .StartRaw =>
      ∃ j, j + 1 < i ∧ tfs = bl src j ∧ bl src (j + 1) = tfs + 1
  | .ReadingRaw =>
      ts = S1 ∨
      ∃ j1 j2, j1 ≤ j2 ∧ j2 ≤ i ∧ trc = bl src j1 ∧ ts = bl src j2
  | .EndRaw =>
      ∃ j1 j2, j1 ≤ j2 ∧ j2 ≤ i ∧ trc = bl src j1 ∧ ts = bl src j2
  | .ReadingCallName => ∃ j, j < i ∧ ts = bl src j
  | .FoundArgumentOpening => ts = S1 ∨ ∃ j, j ≤ i ∧ ts = bl src j
  | .FoundArgumentClosing => ∃ j, j ≤ i ∧ ts = bl src j
  | .Terminated => True

/-- The positions invariant of the lexing machine at scalar index `i`: the
remaining input is the suffix of the source from `i`, every queued token
carries boundary offsets, and the offset registers hold boundaries (or the
sentinels) consistent with the state. -/
structure InvP (src : List Char) (it : LexingIterator) (i : Nat) : Prop where
  hi : i ≤ src.length
  sbl : it.source_byte_length = byteLen src
  chars_eq : it.chars = charIndicesFrom (bl src i) (List.drop i src)
  queue_ok : ∀ t ∈ it.next_tokens, tokOK src t ∧ tokStrict t
  ts_ok : it.token_start = S1 ∨ it.token_start = S2 ∨
    ∃ j, j ≤ i ∧ it.token_start = bl src j
  st_ok : stateP src it.state it.token_start it.token_function_start it.token_rawcontent_start i

end LexingIterator

/-- Which byte range a token carries. -/
def tokenRange : Token → Option ByteRange
  | .Call r => some r
  | .ArgKey r => some r
  | .BeginRaw r => some r
  | .EndRaw r => some r
  | .Text r => some r
  | _ => none

/-- Which single byte offset a token carries. -/
def tokenOffset : Token → Option Nat
  | .BeginFunction o => some o
  | .Whitespace o _ => some o
  | .BeginArgs o => some o
  | .BeginArgValue o => some o
  | .EndArgValue o => some o
  | .EndArgs o => some o
  | .BeginContent o => some o
  | .EndContent o => some o
  | .EndFunction o => some o
  | .EndOfFile o => some o
  | _ => none

namespace LexingIterator

/-- After the input is exhausted (the flush of the final `Text` token), the
queue is still sound and the `token_start` register is spent. -/
def PostP (src : List Char) (it : LexingIterator) : Prop :=
  it.source_byte_length = byteLen src ∧ it.chars = [] ∧
  (∀ t ∈ it.next_tokens, tokOK src t ∧ tokStrict t) ∧
  (it.token_start = it.source_byte_length ∨ it.token_start = S1 ∨ it.token_start = S2)

/-- The positions invariant, in either its running or its exhausted form. -/
def GoodP (src : List Char) (it : LexingIterator) : Prop :=
  (∃ i, InvP src it i) ∨ PostP src it

end LexingIterator

/-- Every function node of the element tree (recursively) has a non-empty
name. -/
inductive NamesOK : DocumentElement → Prop where
  | text (s : String) : NamesOK (.Text s)
  | fn (name : String) (args : List (String × List DocumentElement))
      (content : List DocumentElement) :
      name ≠ "" →
      (∀ p ∈ args, ∀ e ∈ p.2, NamesOK e) →
      (∀ e ∈ content, NamesOK e) →
      NamesOK (.Function name args content)

namespace Parser

/-- Every `Call` or `BeginRaw` token of the stream denotes a non-empty
name. -/
def streamNamesOK (src : List Char) (s : Stream) : Prop :=
  ∀ r, (Except.ok (Token.Call r) ∈ s ∨ Except.ok (Token.BeginRaw r) ∈ s) →
    sliceStr src r ≠ ""

end Parser

namespace LexingIterator

/-- The byte contribution of one token under the specification's round-trip
reading: range tokens contribute their source slice, `Whitespace` its scalar,
and the structural characters are attributed to the token that announces
them. -/
def tokContribution (src : List Char) : Token → List Char
  | .BeginFunction _ => ['{']
  | .Call r => sliceB src r.start r.stop
  | .Whitespace _ c => [c]
  | .BeginArgs _ => []
  | .ArgKey r => '[' :: (sliceB src r.start r.stop ++ ['='])
  | .BeginArgValue _ => []
  | .EndArgValue _ => [']']
  | .EndArgs _ => []
  | .BeginContent _ => []
  | .EndContent _ => []
  | .EndFunction _ => ['}']
  | .BeginRaw r => '{' :: sliceB src r.start r.stop
  | .EndRaw r => sliceB src r.start r.stop ++ ['}']
  | .Text r => sliceB src r.start r.stop
  | .EndOfFile _ => []

/-- Concatenated contributions of a token sequence, in emission order. -/
def joinR (src : List Char) (q : List Token) : List Char :=
  (q.map (tokContribution src)).join

/-- The specification's reconstruction of a source from its lexer run. -/
def specReconstruct (src : List Char) : List Char :=
  joinR src (runLex (init src)).1

/-- The portion of the consumed input (up to scalar index `i`) that is not
yet represented in any emitted token, as a function of the state and the
offset registers. -/
def pendingOfS (src : List Char) (st : LexingState) (ts tfs trc i : Nat) : List Char :=
  match st with
  | .ReadingContent =>
      if ts = S1 ∨ ts = S2 then []
      else sliceB src ts (bl src i)
  | .ReadingContentText => sliceB src ts (bl src i)
  | .ReadingArgumentValue =>
      if ts = S1 ∨ ts = S2 then []
      else sliceB src ts (bl src i)
  | .ReadingArgumentValueText =>
      if ts = S1 then [] else sliceB src ts (bl src i)
  | .FoundCallOpening => ['{']
  | .StartRaw => sliceB src tfs (bl src i)
  | .ReadingRaw =>
      if ts = S1 then []
      else sliceB src trc (bl src i)
  | .EndRaw => sliceB src trc (bl src i)
  | .ReadingCallName => sliceB src ts (bl src i)
  | .FoundArgumentOpening =>
      '[' :: (if ts = S1 then [] else sliceB src ts (bl src i))
  | .FoundArgumentClosing => []
  | .Terminated => []

/-- The portion of the consumed input (up to scalar index `i`) that is not
yet represented in any emitted token. -/
def pendingOf (src : List Char) (it : LexingIterator) (i : Nat) : List Char :=
  pendingOfS src it.state it.token_start it.token_function_start it.token_rawcontent_start i

/-- Pure consumption of the remaining scalars, with no queue draining. -/
def consumeF : Nat → LexingIterator → LexingIterator
  | 0, it => it
  | f + 1, it =>
    if it.state = .Terminated then it
    else
      match it.chars with
      | [] => it
      | (bo, c) :: rest => consumeF f (stepChar { it with chars := rest } bo c)

/-- The machine configuration after the whole input has been consumed. -/
def finalIter (src : List Char) : LexingIterator :=
  consumeF (src.length + 1) (init src)

/-- Forget the pending-token queue. -/
def eraseQ (it : LexingIterator) : LexingIterator :=
  { it with next_tokens := [] }

/-- The run ends cleanly: what is pending when the input is exhausted is
exactly what the final flush emits. -/
def cleanEOF (src : List Char) : Prop :=
  pendingOf src (finalIter src) src.length =
    (if (finalIter src).token_start ≠ (finalIter src).source_byte_length ∧
        (finalIter src).token_start ≠ S1 ∧ (finalIter src).token_start ≠ S2 then
      sliceB src (finalIter src).token_start (byteLen src)
    else [])

/-- What the reconstruction argument needs to know about the offset
registers in each state right before the scalar with index `i` is consumed:
uncovered stretches start at boundaries, and the `\x7b` recorded by
`token_function_start` really is a `\x7b` of the source (it is
re-materialised literally by `BeginRaw`). -/
def regFactS (src : List Char) (st : LexingState) (ts tfs trc i : Nat) : Prop :=
  match st with
  | .ReadingContent => ts = S1 ∨ ts = S2 ∨ ts = bl src i
  | .ReadingContentText => ∃ j, j ≤ i ∧ ts = bl src j
  | .ReadingArgumentValue => ts = S1 ∨ ts = S2 ∨ ts = bl src i
  | .ReadingArgumentValueText => ts = S1 ∨ ∃ j, j ≤ i ∧ ts = bl src j
  | .FoundCallOpening =>
      ∃ j, ∃ hj : j < src.length, j + 1 = i ∧
        tfs = bl src j ∧ src.get ⟨j, hj⟩ = '{'
  | .StartRaw =>
      ∃ j, ∃ hj : j < src.length, j + 1 < i ∧
        tfs = bl src j ∧ src.get ⟨j, hj⟩ = '{'
  | .ReadingRaw =>
      ts = S1 ∨ ∃ j1 j2, j1 ≤ j2 ∧ j2 ≤ i ∧ trc = bl src j1 ∧ ts = bl src j2
  | .EndRaw => ∃ j1 j2, j1 ≤ j2 ∧ j2 ≤ i ∧ trc = bl src j1 ∧ ts = bl src j2
  | .ReadingCallName => ∃ j, j < i ∧ ts = bl src j
  | .FoundArgumentOpening => ts = S1 ∨ ∃ j, j ≤ i ∧ ts = bl src j
  | .FoundArgumentClosing => True
  | .Terminated => True

/-- `regFactS` read off an iterator. -/
def regFact (src : List Char) (it : LexingIterator) (i : Nat) : Prop :=
  regFactS src it.state it.token_start it.token_function_start it.token_rawcontent_start i

/-- The run still reaches the same final core configuration. -/
def tracksFinal (src : List Char) (it : LexingIterator) : Prop :=
  eraseQ (consumeF (it.chars.length + 1) it) = eraseQ (finalIter src)

end LexingIterator

end Litua

/-! ## Theorems -/

namespace Litua

theorem utf8Width_pos (c : Char) : 0 < utf8Width c := by
  unfold utf8Width; split <;> [exact Nat.one_pos; split <;> [exact Nat.zero_lt_two; split <;> simp]]

theorem byteLen_nil : byteLen [] = 0 := rfl

theorem byteLen_cons (c : Char) (s : List Char) :
    byteLen (c :: s) = utf8Width c + byteLen s := rfl

theorem byteLen_append (a b : List Char) :
    byteLen (a ++ b) = byteLen a + byteLen b := by
  induction a with
  | nil => simp [byteLen]
  | cons c a ih => simp [byteLen_cons, ih, byteLen, Nat.add_assoc]

theorem bl_zero (src : List Char) : bl src 0 = 0 := rfl

theorem bl_le_len (src : List Char) (i : Nat) : bl src i ≤ byteLen src := by
  unfold bl
  conv_rhs => rw [← List.take_append_drop i src]
  rw [byteLen_append]
  exact Nat.le_add_right _ _

theorem bl_mono (src : List Char) {i j : Nat} (h : i ≤ j) : bl src i ≤ bl src j := by
  unfold bl
  rw [← List.take_append_drop i (src.take j), List.take_take, Nat.min_eq_left h, byteLen_append]
  exact Nat.le_add_right _ _

namespace LexingIterator

theorem popScopeF_chars (fuel : Nat) (it : LexingIterator) (bo : Nat) :
    (popScopeF fuel it bo).chars = it.chars := by
  induction fuel generalizing it with
  | zero => rfl
  | succ fuel ih =>
    unfold popScopeF
    rcases it.stack with _ | ⟨oldTop, _ | ⟨newTop, rest⟩⟩ <;> try rfl
    cases oldTop <;> cases newTop <;> simp [ih]

theorem popScope_chars (it : LexingIterator) (bo : Nat) :
    (popScope it bo).chars = it.chars := popScopeF_chars _ _ _

theorem popScopeF_queue_len_fun (fuel : Nat) (it : LexingIterator) (bo : Nat)
    (h : it.stack.head? = some .Function) :
    (popScopeF fuel it bo).next_tokens.length ≤ it.next_tokens.length := by
  cases fuel with
  | zero => exact Nat.le_refl _
  | succ fuel =>
    unfold popScopeF
    rcases hstk : it.stack with _ | ⟨oldTop, _ | ⟨newTop, rest⟩⟩
    · exact Nat.le_refl _
    · exact Nat.le_refl _
    · rw [hstk] at h
      simp only [List.head?_cons, Option.some.injEq] at h
      subst h
      cases newTop <;> exact Nat.le_refl _

theorem popScopeF_queue_len (fuel : Nat) (it : LexingIterator) (bo : Nat) :
    (popScopeF fuel it bo).next_tokens.length ≤ it.next_tokens.length + 1 := by
  cases fuel with
  | zero => exact Nat.le_succ_of_le (Nat.le_refl _)
  | succ fuel =>
    unfold popScopeF
    rcases hstk : it.stack with _ | ⟨oldTop, _ | ⟨newTop, rest⟩⟩
    · simp
    · simp
    · cases oldTop <;> cases newTop <;> try simp
      have h := popScopeF_queue_len_fun fuel
        { it with stack := LexingScope.Function :: rest,
                  next_tokens := it.next_tokens ++ [.EndFunction bo] } bo (by simp)
      simp at h
      simpa using h

theorem popScope_queue_len (it : LexingIterator) (bo : Nat) :
    (popScope it bo).next_tokens.length ≤ it.next_tokens.length + 1 :=
  popScopeF_queue_len _ _ _

theorem stepChar_chars (it : LexingIterator) (bo : Nat) (c : Char) :
    (stepChar it bo c).chars = it.chars := by
  unfold stepChar
  cases it.state <;> simp only <;> split_ifs <;> simp [popScope_chars, pushScope]

theorem stepChar_queue_len (it : LexingIterator) (bo : Nat) (c : Char) :
    (stepChar it bo c).next_tokens.length ≤ it.next_tokens.length + 3 := by
  unfold stepChar
  cases hst : it.state <;> simp only <;> (try split_ifs) <;>
    first
    | omega
    | (simp [pushScope]; done)
    | (simp [pushScope]; omega)
    | (refine Nat.le_trans (popScope_queue_len _ _) ?_
       simp [pushScope]
       try omega)
    | (simp only [pushScope]
       refine Nat.le_trans (popScope_queue_len _ _) ?_
       simp
       try omega)
    | (simp only [pushScope]
       refine Nat.le_trans (Nat.add_le_add_right (popScope_queue_len _ _) 1) ?_
       simp
       try omega)
    | (have hb := popScope_queue_len
         { it with next_tokens := it.next_tokens ++ [Token.EndArgs it.token_start] } bo
       rw [hst] at hb
       simp at hb ⊢
       omega)

/-- The `continue` branch of the `loop` in `Iterator::next` strictly decreases
the measure. -/
theorem progress_none_measure {it it' : LexingIterator}
    (h : progress it = (none, it')) (hterm : it'.state ≠ .Terminated) :
    measure it' < measure it := by
  unfold progress at h
  rcases hq : it.next_tokens with _ | ⟨t, rest⟩
  · rw [hq] at h
    simp only at h
    by_cases hst : it.state = .Terminated
    · rw [if_pos hst] at h
      simp only [Prod.mk.injEq] at h
      rw [← h.2] at hterm
      exact absurd hst hterm
    · rw [if_neg hst] at h
      rcases hc : it.chars with _ | ⟨⟨bo, c⟩, rest'⟩
      · rw [hc] at h
        simp only at h
        by_cases hfl : it.token_start ≠ it.source_byte_length ∧ it.token_start ≠ S1 ∧
            it.token_start ≠ S2
        · rw [if_pos hfl] at h
          simp only [Prod.mk.injEq] at h
          rw [← h.2]
          have hfp : flushPending it = true := by
            simp [flushPending, hc, hfl.1, hfl.2.1, hfl.2.2]
          have hfp' : flushPending { it with
                        chars := [],
                        next_tokens := [Token.Text ⟨it.token_start, it.source_byte_length⟩],
                        token_start := it.source_byte_length } = false := by
            simp [flushPending]
          simp [measure, hq, hc, hfp, hfp', hst]
        · rw [if_neg hfl] at h
          simp only [Prod.mk.injEq] at h
          simp at h
      · rw [hc] at h
        simp only at h
        rcases hq1 : (stepChar { it with chars := rest', next_tokens := ([] : List Token) } bo c).next_tokens with _ | ⟨t1, q1⟩ <;>
          rw [hq1] at h <;> simp only [Prod.mk.injEq] at h
        · rw [← h.2]
          have hch : (stepChar { it with chars := rest', next_tokens := ([] : List Token) } bo c).chars = rest' := by
            rw [stepChar_chars]
          have hfl : flushPending it = false := by simp [flushPending, hc]
          simp only [measure, hq, hc, hq1, hch, hfl]
          have h1 : (if (stepChar { it with chars := rest', next_tokens := ([] : List Token) } bo c).state = LexingState.Terminated
              then 0 else 1) ≤ 1 := by split <;> omega
          have h2 : (if flushPending (stepChar { it with chars := rest', next_tokens := ([] : List Token) } bo c) then 2 else 0)
              ≤ 2 := by split <;> omega
          simp only [List.length_cons, List.length_nil, if_neg hst]
          omega
        · simp at h
  · rw [hq] at h
    simp only [Prod.mk.injEq] at h
    simp at h

/-- The measure strictly decreases whenever `Iterator::next` yields a value. -/
theorem progress_some_measure {it it' : LexingIterator} {tok : Token}
    (h : progress it = (some tok, it')) : measure it' < measure it := by
  unfold progress at h
  rcases hq : it.next_tokens with _ | ⟨t, rest⟩
  · rw [hq] at h
    simp only at h
    by_cases hst : it.state = .Terminated
    · rw [if_pos hst] at h
      simp only [Prod.mk.injEq] at h
      simp at h
    · rw [if_neg hst] at h
      rcases hc : it.chars with _ | ⟨⟨bo, c⟩, rest'⟩
      · rw [hc] at h
        simp only at h
        by_cases hfl : it.token_start ≠ it.source_byte_length ∧ it.token_start ≠ S1 ∧
            it.token_start ≠ S2
        · rw [if_pos hfl] at h
          simp only [Prod.mk.injEq] at h
          simp at h
        · rw [if_neg hfl] at h
          simp only [Prod.mk.injEq] at h
          rw [← h.2]
          have hfp : flushPending it = false := by
            simp [flushPending, hc]
            tauto
          have hfp' : flushPending { it with
                        state := LexingState.Terminated, chars := [],
                        next_tokens := ([] : List Token) } = false := by
            simp [flushPending]
            tauto
          simp [measure, hq, hc, hfp, hfp', hst]
      · rw [hc] at h
        simp only at h
        rcases hq1 : (stepChar { it with chars := rest', next_tokens := ([] : List Token) } bo c).next_tokens with _ | ⟨t1, q1⟩ <;>
          rw [hq1] at h <;> simp only [Prod.mk.injEq] at h
        · simp at h
        · rw [← h.2]
          have hch : (stepChar { it with chars := rest', next_tokens := ([] : List Token) } bo c).chars = rest' := by
            rw [stepChar_chars]
          have hfl : flushPending it = false := by simp [flushPending, hc]
          have hlen : q1.length + 1 ≤ 3 := by
            have := stepChar_queue_len
              { it with chars := rest', next_tokens := ([] : List Token) } bo c
            rw [hq1] at this
            simpa using this
          simp only [measure, hq, hc, hch, hfl]
          simp only [List.length_cons, List.length_nil, if_neg hst]
          split_ifs <;> omega
  · rw [hq] at h
    simp only [Prod.mk.injEq] at h
    rw [← h.2]
    have hfl : flushPending { it with next_tokens := rest } = flushPending it := by
      simp [flushPending]
    simp [measure, hq, hfl]

theorem lexNextF_congr :
    ∀ (n f g : Nat) (it : LexingIterator), measure it ≤ n → measure it < f →
      measure it < g → lexNextF f it = lexNextF g it := by
  intro n
  induction n with
  | zero =>
    intro f g it hn hf hg
    match f, hf, g, hg with
    | f + 1, _, g + 1, _ =>
      unfold lexNextF
      rcases hp : progress it with ⟨_ | tok, it'⟩
      · simp only
        by_cases hterm : it'.state = .Terminated
        · simp only [if_pos hterm]
        · exact absurd (progress_none_measure hp hterm) (by omega)
      · simp only
  | succ n ih =>
    intro f g it hn hf hg
    match f, hf, g, hg with
    | f + 1, hf, g + 1, hg =>
      unfold lexNextF
      rcases hp : progress it with ⟨_ | tok, it'⟩
      · simp only
        by_cases hterm : it'.state = .Terminated
        · simp only [if_pos hterm]
        · simp only [if_neg hterm]
          have hm : measure it' < measure it := progress_none_measure hp hterm
          exact ih f g it' (by omega) (by omega) (by omega)
      · simp only

theorem lexNextF_eq_of_lt (fuel : Nat) (it : LexingIterator) (h : measure it < fuel) :
    lexNextF fuel it = lexNext it :=
  lexNextF_congr (measure it) fuel (measure it + 1) it (Nat.le_refl _) h (Nat.lt_succ_self _)

/-- Unfolding equation for `lexNext`. -/
theorem lexNext_eq (it : LexingIterator) :
    lexNext it =
      match progress it with
      | (some tok, it') => (some (.ok tok), it')
      | (none, it') =>
        if it'.state = .Terminated then
          match it'.occured_error with
          | some e => (some (.error e), { it' with occured_error := none })
          | none => (none, it')
        else lexNext it' := by
  show lexNextF (measure it + 1) it = _
  unfold lexNextF
  rcases hp : progress it with ⟨_ | tok, it'⟩
  · simp only
    by_cases hterm : it'.state = .Terminated
    · simp only [if_pos hterm]
    · simp only [if_neg hterm]
      rw [lexNextF_eq_of_lt _ _ (progress_none_measure hp hterm)]
  · simp only

theorem lexNext_ok_measure_aux :
    ∀ (n : Nat) (it it' : LexingIterator) (t : Token), measure it ≤ n →
      lexNext it = (some (.ok t), it') → measure it' < measure it := by
  intro n
  induction n with
  | zero =>
    intro it it' t hn h
    rw [lexNext_eq] at h
    rcases hp : progress it with ⟨_ | tok, it1⟩ <;> rw [hp] at h
    · simp only at h
      by_cases hterm : it1.state = .Terminated
      · simp only [if_pos hterm] at h
        rcases he : it1.occured_error with _ | e <;> rw [he] at h <;> simp at h
      · rw [if_neg hterm] at h
        exact absurd (progress_none_measure hp hterm) (by omega)
    · simp only [Prod.mk.injEq] at h
      rw [← h.2]
      exact progress_some_measure hp
  | succ n ih =>
    intro it it' t hn h
    rw [lexNext_eq] at h
    rcases hp : progress it with ⟨_ | tok, it1⟩ <;> rw [hp] at h
    · simp only at h
      by_cases hterm : it1.state = .Terminated
      · simp only [if_pos hterm] at h
        rcases he : it1.occured_error with _ | e <;> rw [he] at h <;> simp at h
      · rw [if_neg hterm] at h
        have h1 : measure it1 < measure it := progress_none_measure hp hterm
        exact Nat.lt_trans (ih it1 it' t (by omega) h) h1
    · simp only [Prod.mk.injEq] at h
      rw [← h.2]
      exact progress_some_measure hp

theorem lexNext_ok_measure {it it' : LexingIterator} {t : Token}
    (h : lexNext it = (some (.ok t), it')) : measure it' < measure it :=
  lexNext_ok_measure_aux (measure it) it it' t (Nat.le_refl _) h

theorem runLexF_congr :
    ∀ (n f g : Nat) (it : LexingIterator), measure it ≤ n → measure it < f →
      measure it < g → runLexF f it = runLexF g it := by
  intro n
  induction n with
  | zero =>
    intro f g it hn hf hg
    match f, hf, g, hg with
    | f + 1, _, g + 1, _ =>
      unfold runLexF
      rcases hp : lexNext it with ⟨_ | (e | t), it'⟩
      · simp only
      · simp only
      · exact absurd (lexNext_ok_measure hp) (by omega)
  | succ n ih =>
    intro f g it hn hf hg
    match f, hf, g, hg with
    | f + 1, hf, g + 1, hg =>
      unfold runLexF
      rcases hp : lexNext it with ⟨_ | (e | t), it'⟩
      · simp only
      · simp only
      · simp only
        have hm : measure it' < measure it := lexNext_ok_measure hp
        rw [ih f g it' (by omega) (by omega) (by omega)]

theorem runLexF_eq_of_lt (fuel : Nat) (it : LexingIterator) (h : measure it < fuel) :
    runLexF fuel it = runLex it :=
  runLexF_congr (measure it) fuel (measure it + 1) it (Nat.le_refl _) h (Nat.lt_succ_self _)

/-- Unfolding equation for `runLex`. -/
theorem runLex_eq (it : LexingIterator) :
    runLex it =
      match lexNext it with
      | (some (.ok t), it') => ((t :: (runLex it').1, (runLex it').2))
      | (some (.error e), _) => ([], some e)
      | (none, _) => ([], none) := by
  show runLexF (measure it + 1) it = _
  unfold runLexF
  rcases hp : lexNext it with ⟨_ | (e | t), it'⟩
  · simp only
  · simp only
  · simp only
    rw [runLexF_eq_of_lt _ _ (lexNext_ok_measure hp)]

theorem dead_lexNext {it : LexingIterator} (h : IsDead it) : lexNext it = (none, it) := by
  obtain ⟨hst, hq, he⟩ := h
  rw [lexNext_eq]
  unfold progress
  rw [hq]
  simp only [if_pos hst, he, if_pos hst]

/-- When `progress` yields nothing and the state has latched `Terminated`,
the pending-token queue is empty. -/
theorem progress_none_term_queue {it it1 : LexingIterator}
    (hp : progress it = (none, it1)) (hterm : it1.state = .Terminated) :
    it1.next_tokens = [] := by
  unfold progress at hp
  rcases hq : it.next_tokens with _ | ⟨t, q⟩ <;> rw [hq] at hp
  · simp only at hp
    by_cases hst : it.state = .Terminated
    · rw [if_pos hst] at hp
      simp only [Prod.mk.injEq] at hp
      rw [← hp.2]
      exact hq
    · rw [if_neg hst] at hp
      rcases hc : it.chars with _ | ⟨⟨bo, c⟩, rest'⟩ <;> rw [hc] at hp
      · simp only at hp
        split_ifs at hp with hfl
        · simp only [Prod.mk.injEq] at hp
          rw [← hp.2] at hterm
          exact absurd hterm hst
        · simp at hp
      · simp only at hp
        rcases hq1 : (stepChar { it with
            chars := rest', next_tokens := ([] : List Token) } bo c).next_tokens
            with _ | ⟨t1, q1⟩ <;> rw [hq1] at hp
        · simp only [Prod.mk.injEq] at hp
          rw [← hp.2]
          exact hq1
        · simp at hp
  · simp at hp

/-- Whenever `next` signals exhaustion, the iterator it leaves behind is dead:
the state is latched `Terminated`, the queue is drained and no error is left. -/
theorem lexNext_none_dead_aux :
    ∀ (n : Nat) (it it' : LexingIterator), measure it ≤ n →
      lexNext it = (none, it') → IsDead it' := by
  intro n
  induction n with
  | zero =>
    intro it it' hn h
    rw [lexNext_eq] at h
    rcases hp : progress it with ⟨_ | tok, it1⟩ <;> rw [hp] at h
    · simp only at h
      by_cases hterm : it1.state = .Terminated
      · simp only [if_pos hterm] at h
        rcases he : it1.occured_error with _ | e <;> rw [he] at h
        · simp only [Prod.mk.injEq] at h
          rw [← h.2]
          exact ⟨hterm, progress_none_term_queue hp hterm, he⟩
        · simp only [Prod.mk.injEq] at h
          simp at h
      · rw [if_neg hterm] at h
        exact absurd (progress_none_measure hp hterm) (by omega)
    · simp only [Prod.mk.injEq] at h
      simp at h
  | succ n ih =>
    intro it it' hn h
    rw [lexNext_eq] at h
    rcases hp : progress it with ⟨_ | tok, it1⟩ <;> rw [hp] at h
    · simp only at h
      by_cases hterm : it1.state = .Terminated
      · simp only [if_pos hterm] at h
        rcases he : it1.occured_error with _ | e <;> rw [he] at h
        · simp only [Prod.mk.injEq] at h
          rw [← h.2]
          exact ⟨hterm, progress_none_term_queue hp hterm, he⟩
        · simp only [Prod.mk.injEq] at h
          simp at h
      · rw [if_neg hterm] at h
        exact ih it1 it' (by have := progress_none_measure hp hterm; omega) h
    · simp only [Prod.mk.injEq] at h
      simp at h

theorem lexNext_none_dead {it it' : LexingIterator}
    (h : lexNext it = (none, it')) : IsDead it' :=
  lexNext_none_dead_aux (measure it) it it' (Nat.le_refl _) h

/-- The error case of `next` is surfaced only with an empty queue, and takes
the error out of its slot, leaving a dead iterator. -/
theorem lexNext_error_spec_aux :
    ∀ (n : Nat) (it it' : LexingIterator) (e : Error), measure it ≤ n →
      lexNext it = (some (.error e), it') → it.next_tokens = [] ∧ IsDead it' := by
  intro n
  induction n with
  | zero =>
    intro it it' e hn h
    rw [lexNext_eq] at h
    rcases hp : progress it with ⟨_ | tok, it1⟩ <;> rw [hp] at h
    · simp only at h
      by_cases hterm : it1.state = .Terminated
      · simp only [if_pos hterm] at h
        rcases he : it1.occured_error with _ | e1 <;> rw [he] at h
        · simp at h
        · simp only [Prod.mk.injEq] at h
          have hqe : it.next_tokens = [] := by
            unfold progress at hp
            rcases hq : it.next_tokens with _ | ⟨t, q⟩
            · rfl
            · rw [hq] at hp
              simp at hp
          refine ⟨hqe, ?_⟩
          rw [← h.2]
          refine ⟨hterm, ?_, rfl⟩
          show it1.next_tokens = []
          exact progress_none_term_queue hp hterm
      · rw [if_neg hterm] at h
        exact absurd (progress_none_measure hp hterm) (by omega)
    · simp only [Prod.mk.injEq] at h
      simp at h
  | succ n ih =>
    intro it it' e hn h
    rw [lexNext_eq] at h
    rcases hp : progress it with ⟨_ | tok, it1⟩ <;> rw [hp] at h
    · simp only at h
      by_cases hterm : it1.state = .Terminated
      · simp only [if_pos hterm] at h
        rcases he : it1.occured_error with _ | e1 <;> rw [he] at h
        · simp at h
        · simp only [Prod.mk.injEq] at h
          have hqe : it.next_tokens = [] := by
            unfold progress at hp
            rcases hq : it.next_tokens with _ | ⟨t, q⟩
            · rfl
            · rw [hq] at hp
              simp at hp
          refine ⟨hqe, ?_⟩
          rw [← h.2]
          refine ⟨hterm, ?_, rfl⟩
          show it1.next_tokens = []
          exact progress_none_term_queue hp hterm
      · rw [if_neg hterm] at h
        refine ⟨?_, (ih it1 it' e (by have := progress_none_measure hp hterm; omega) h).2⟩
        unfold progress at hp
        rcases hq : it.next_tokens with _ | ⟨t, q⟩
        · rfl
        · rw [hq] at hp
          simp at hp
    · simp only [Prod.mk.injEq] at h
      simp at h

theorem lexNext_error_spec {it it' : LexingIterator} {e : Error}
    (h : lexNext it = (some (.error e), it')) : it.next_tokens = [] ∧ IsDead it' :=
  lexNext_error_spec_aux (measure it) it it' e (Nat.le_refl _) h

/-- Dead iterators stay dead: from step `k` on every call returns `none`. -/
theorem iterState_dead {it : LexingIterator} {k : Nat} (h : IsDead (iterState it k)) :
    ∀ m, k ≤ m → iterState it m = iterState it k ∧ outAt it m = none := by
  intro m hm
  induction m with
  | zero =>
    have hk : k = 0 := Nat.le_zero.mp hm
    subst hk
    exact ⟨rfl, by unfold outAt; rw [dead_lexNext h]⟩
  | succ m ih =>
    by_cases hm' : k ≤ m
    · obtain ⟨heq, _⟩ := ih hm'
      have hstep : iterState it (m + 1) = iterState it k := by
        show (lexNext (iterState it m)).2 = _
        rw [heq, dead_lexNext h]
      exact ⟨hstep, by unfold outAt; rw [hstep, dead_lexNext h]⟩
    · have hk : k = m + 1 := by omega
      subst hk
      exact ⟨rfl, by unfold outAt; rw [dead_lexNext h]⟩

theorem popScope_nil (it : LexingIterator) (bo : Nat) (h : it.stack = []) :
    popScope it bo =
      { it with state := .Terminated,
                occured_error := some (.UnbalancedParentheses
                  ("scope ended at byte " ++ toString bo ++ " but it never started") bo) } := by
  obtain ⟨st, sbl, ts, tfs, trc, rdl, rdr, ch, stk, q, err, pk⟩ := it
  simp only at h
  subst h
  rfl

theorem popScope_single (it : LexingIterator) (bo : Nat) (s : LexingScope)
    (h : it.stack = [s]) :
    popScope it bo =
      { it with stack := [], state := .Terminated,
                occured_error := some (.UnbalancedParentheses
                  ("scope " ++ scopeName s ++ " ended at byte " ++ toString bo ++
                    " but it never started") bo) } := by
  obtain ⟨st, sbl, ts, tfs, trc, rdl, rdr, ch, stk, q, err, pk⟩ := it
  simp only at h
  subst h
  rfl

theorem popScope_av_fun (it : LexingIterator) (bo : Nat) (r : List LexingScope)
    (h : it.stack = .ArgumentValue :: .Function :: r) :
    popScope it bo =
      { it with stack := .Function :: r, state := .FoundArgumentClosing,
                token_start := bo } := by
  obtain ⟨st, sbl, ts, tfs, trc, rdl, rdr, ch, stk, q, err, pk⟩ := it
  simp only at h
  subst h
  rfl

theorem popScope_fun_content (it : LexingIterator) (bo : Nat) (r : List LexingScope)
    (h : it.stack = .Function :: .Content :: r) :
    popScope it bo =
      { it with stack := .Content :: r, state := .ReadingContent } := by
  obtain ⟨st, sbl, ts, tfs, trc, rdl, rdr, ch, stk, q, err, pk⟩ := it
  simp only at h
  subst h
  rfl

theorem popScope_fun_av (it : LexingIterator) (bo : Nat) (r : List LexingScope)
    (h : it.stack = .Function :: .ArgumentValue :: r) :
    popScope it bo =
      { it with stack := .ArgumentValue :: r, state := .ReadingArgumentValue,
                token_start := S1 } := by
  obtain ⟨st, sbl, ts, tfs, trc, rdl, rdr, ch, stk, q, err, pk⟩ := it
  simp only at h
  subst h
  rfl

theorem popScope_raw_content (it : LexingIterator) (bo : Nat) (r : List LexingScope)
    (h : it.stack = .RawString :: .Content :: r) :
    popScope it bo =
      { it with stack := .Content :: r, state := .ReadingContent } := by
  obtain ⟨st, sbl, ts, tfs, trc, rdl, rdr, ch, stk, q, err, pk⟩ := it
  simp only at h
  subst h
  rfl

theorem popScope_raw_av (it : LexingIterator) (bo : Nat) (r : List LexingScope)
    (h : it.stack = .RawString :: .ArgumentValue :: r) :
    popScope it bo =
      { it with stack := .ArgumentValue :: r, state := .ReadingArgumentValue,
                token_start := S1 } := by
  obtain ⟨st, sbl, ts, tfs, trc, rdl, rdr, ch, stk, q, err, pk⟩ := it
  simp only at h
  subst h
  rfl

theorem popScope_content_fun_nil (it : LexingIterator) (bo : Nat)
    (h : it.stack = [.Content, .Function]) :
    popScope it bo =
      { it with stack := [], state := .Terminated,
                next_tokens := it.next_tokens ++ [.EndFunction bo],
                token_start := S1,
                occured_error := some (.UnbalancedParentheses
                  ("scope " ++ scopeName .Function ++ " ended at byte " ++ toString bo ++
                    " but it never started") bo) } := by
  obtain ⟨st, sbl, ts, tfs, trc, rdl, rdr, ch, stk, q, err, pk⟩ := it
  simp only at h
  subst h
  rfl

theorem popScope_content_fun_content (it : LexingIterator) (bo : Nat)
    (r : List LexingScope) (h : it.stack = .Content :: .Function :: .Content :: r) :
    popScope it bo =
      { it with stack := .Content :: r, state := .ReadingContent,
                next_tokens := it.next_tokens ++ [.EndFunction bo],
                token_start := S1 } := by
  obtain ⟨st, sbl, ts, tfs, trc, rdl, rdr, ch, stk, q, err, pk⟩ := it
  simp only at h
  subst h
  rfl

theorem popScope_content_fun_av (it : LexingIterator) (bo : Nat)
    (r : List LexingScope) (h : it.stack = .Content :: .Function :: .ArgumentValue :: r) :
    popScope it bo =
      { it with stack := .ArgumentValue :: r, state := .ReadingArgumentValue,
                next_tokens := it.next_tokens ++ [.EndFunction bo],
                token_start := S1 } := by
  obtain ⟨st, sbl, ts, tfs, trc, rdl, rdr, ch, stk, q, err, pk⟩ := it
  simp only at h
  subst h
  rfl

theorem stack_shape_content {stk : List LexingScope} (h1 : stackOK stk = true)
    (h2 : stk.head? = some .Content) :
    stk = [.Content] ∨ stk = [.Content, .Function] ∨
    (∃ r, stk = .Content :: .Function :: .Content :: r) ∨
    (∃ r, stk = .Content :: .Function :: .ArgumentValue :: r) := by
  rcases stk with _ | ⟨a, rest⟩
  · simp at h2
  · simp only [List.head?_cons, Option.some.injEq] at h2
    subst h2
    rcases rest with _ | ⟨b, rest2⟩
    · exact Or.inl rfl
    · have hb : scopePairOK .Content b = true := by
        simp only [stackOK, Bool.and_eq_true] at h1
        exact h1.1
      cases b <;> simp [scopePairOK] at hb
      rcases rest2 with _ | ⟨d, r⟩
      · exact Or.inr (Or.inl rfl)
      · have hd : scopePairOK .Function d = true := by
          simp only [stackOK, Bool.and_eq_true] at h1
          exact h1.2.1
        cases d <;> simp [scopePairOK] at hd
        · exact Or.inr (Or.inr (Or.inr ⟨r, rfl⟩))
        · exact Or.inr (Or.inr (Or.inl ⟨r, rfl⟩))

theorem stack_shape_av {stk : List LexingScope} (h1 : stackOK stk = true)
    (h2 : stk.head? = some .ArgumentValue) :
    stk = [.ArgumentValue] ∨ ∃ r, stk = .ArgumentValue :: .Function :: r := by
  rcases stk with _ | ⟨a, rest⟩
  · simp at h2
  · simp only [List.head?_cons, Option.some.injEq] at h2
    subst h2
    rcases rest with _ | ⟨b, rest2⟩
    · exact Or.inl rfl
    · have hb : scopePairOK .ArgumentValue b = true := by
        simp only [stackOK, Bool.and_eq_true] at h1
        exact h1.1
      cases b <;> simp [scopePairOK] at hb
      exact Or.inr ⟨rest2, rfl⟩

theorem stack_shape_fun {stk : List LexingScope} (h1 : stackOK stk = true)
    (h2 : stk.head? = some .Function) :
    stk = [.Function] ∨ (∃ r, stk = .Function :: .Content :: r) ∨
    (∃ r, stk = .Function :: .ArgumentValue :: r) := by
  rcases stk with _ | ⟨a, rest⟩
  · simp at h2
  · simp only [List.head?_cons, Option.some.injEq] at h2
    subst h2
    rcases rest with _ | ⟨b, rest2⟩
    · exact Or.inl rfl
    · have hb : scopePairOK .Function b = true := by
        simp only [stackOK, Bool.and_eq_true] at h1
        exact h1.1
      cases b <;> simp [scopePairOK] at hb
      · exact Or.inr (Or.inr ⟨rest2, rfl⟩)
      · exact Or.inr (Or.inl ⟨rest2, rfl⟩)

theorem stack_shape_raw {stk : List LexingScope} (h1 : stackOK stk = true)
    (h2 : stk.head? = some .RawString) :
    stk = [.RawString] ∨ (∃ r, stk = .RawString :: .Content :: r) ∨
    (∃ r, stk = .RawString :: .ArgumentValue :: r) := by
  rcases stk with _ | ⟨a, rest⟩
  · simp at h2
  · simp only [List.head?_cons, Option.some.injEq] at h2
    subst h2
    rcases rest with _ | ⟨b, rest2⟩
    · exact Or.inl rfl
    · have hb : scopePairOK .RawString b = true := by
        simp only [stackOK, Bool.and_eq_true] at h1
        exact h1.1
      cases b <;> simp [scopePairOK] at hb
      · exact Or.inr (Or.inr ⟨rest2, rfl⟩)
      · exact Or.inr (Or.inl ⟨rest2, rfl⟩)

/-- Every property of the machine invariant survives `pop_scope` (on a
well-formed stack the `panic!` branch is never reached). -/
theorem popScope_invA (it : LexingIterator) (bo : Nat)
    (heof : noEOF it.next_tokens = true) (herrn : it.occured_error = none)
    (hstk : stackOK it.stack = true) :
    noEOF (popScope it bo).next_tokens = true ∧
    (popScope it bo).panicked = it.panicked ∧
    stackOK (popScope it bo).stack = true ∧
    ((popScope it bo).occured_error ≠ none → (popScope it bo).state = .Terminated) ∧
    ((popScope it bo).state = .Terminated → (popScope it bo).occured_error ≠ none) ∧
    stateTopOK (popScope it bo).state (popScope it bo).stack = true := by
  rcases hs : it.stack with _ | ⟨a, _ | ⟨b, r⟩⟩
  · rw [popScope_nil it bo hs]
    simp_all [stateTopOK]
  · rw [popScope_single it bo a hs]
    simp_all [stateTopOK, stackOK]
  · have hpair : scopePairOK a b = true := by
      rw [hs] at hstk
      simp [stackOK] at hstk
      exact hstk.1
    have hrest : stackOK (b :: r) = true := by
      rw [hs] at hstk
      simp [stackOK] at hstk
      exact hstk.2
    cases a <;> cases b <;> simp [scopePairOK] at hpair
    · -- ArgumentValue / Function
      rw [popScope_av_fun it bo r hs]
      simp_all [stateTopOK]
    · -- Content / Function: the recursive pop
      rcases stack_shape_fun hrest (by simp) with h2 | ⟨r2, h2⟩ | ⟨r2, h2⟩
      · have : r = [] := by simpa using h2
        subst this
        rw [popScope_content_fun_nil it bo (by rw [hs])]
        simp_all [stateTopOK, stackOK, noEOF]
      · have : r = .Content :: r2 := by simpa using h2
        subst this
        rw [popScope_content_fun_content it bo r2 (by rw [hs])]
        have : stackOK (LexingScope.Content :: r2) = true := by
          rcases r2 with _ | ⟨x, r3⟩ <;> simp_all [stackOK]
        simp_all [stateTopOK, noEOF]
      · have : r = .ArgumentValue :: r2 := by simpa using h2
        subst this
        rw [popScope_content_fun_av it bo r2 (by rw [hs])]
        have : stackOK (LexingScope.ArgumentValue :: r2) = true := by
          rcases r2 with _ | ⟨x, r3⟩ <;> simp_all [stackOK]
        simp_all [stateTopOK, noEOF]
    · -- Function / ArgumentValue
      rw [popScope_fun_av it bo r hs]
      have : stackOK (LexingScope.ArgumentValue :: r) = true := by
        rcases r with _ | ⟨x, r3⟩ <;> simp_all [stackOK]
      simp_all [stateTopOK]
    · -- Function / Content
      rw [popScope_fun_content it bo r hs]
      have : stackOK (LexingScope.Content :: r) = true := by
        rcases r with _ | ⟨x, r3⟩ <;> simp_all [stackOK]
      simp_all [stateTopOK]
    · -- RawString / ArgumentValue
      rw [popScope_raw_av it bo r hs]
      have : stackOK (LexingScope.ArgumentValue :: r) = true := by
        rcases r with _ | ⟨x, r3⟩ <;> simp_all [stackOK]
      simp_all [stateTopOK]
    · -- RawString / Content
      rw [popScope_raw_content it bo r hs]
      have : stackOK (LexingScope.Content :: r) = true := by
        rcases r with _ | ⟨x, r3⟩ <;> simp_all [stackOK]
      simp_all [stateTopOK]

theorem noEOF_append (a b : List Token) : noEOF (a ++ b) = (noEOF a && noEOF b) :=
  List.all_append

theorem stackOK_cons {s h : LexingScope} {stk : List LexingScope}
    (h1 : stackOK stk = true) (h2 : stk.head? = some h) (h3 : scopePairOK s h = true) :
    stackOK (s :: stk) = true := by
  rcases stk with _ | ⟨a, r⟩
  · simp at h2
  · simp only [List.head?_cons, Option.some.injEq] at h2
    subst h2
    simp [stackOK, h1, h3]

/-- `pop_scope` preserves the machine invariant whole. -/
theorem invA_of_popScope (X : LexingIterator) (bo : Nat)
    (heof : noEOF X.next_tokens = true) (herr : X.occured_error = none)
    (hstk : stackOK X.stack = true) (hpan : X.panicked = false) :
    InvA (popScope X bo) := by
  obtain ⟨p1, p2, p3, p4, p5, p6⟩ := popScope_invA X bo heof herr hstk
  exact ⟨p1, p4, fun h => Or.inl (p5 h), p2.trans hpan, p3, p6⟩

/-- Once `next` has returned `none`, every later call returns `none`. -/
theorem outAt_none_stable {it : LexingIterator} {n : Nat} (h : outAt it n = none) :
    ∀ m, n < m → outAt it m = none := by
  intro m hm
  have hdead : IsDead (iterState it (n + 1)) := by
    unfold outAt at h
    rcases hp : lexNext (iterState it n) with ⟨r, it'⟩
    rw [hp] at h
    simp only at h
    subst h
    have : iterState it (n + 1) = it' := by
      show (lexNext (iterState it n)).2 = it'
      rw [hp]
    rw [this]
    exact lexNext_none_dead hp
  exact (iterState_dead hdead m (by omega)).2

end LexingIterator

open LexingIterator in
/-- C6: lexing `"{call[=val]}"` emits exactly `BeginFunction`, `Call` (the
range of `call`), `BeginArgs`, then the error
`InvalidSyntax "argument key must not be an empty string"`, and every later
call of `next` returns the exhaustion signal. -/
theorem C6_empty_argument_key :
    outsUpTo (init "{call[=val]}".toList) 4 =
      [some (.ok (.BeginFunction 0)),
       some (.ok (.Call ⟨1, 5⟩)),
       some (.ok (.BeginArgs 5)),
       some (.error (.InvalidSyntax "argument key must not be an empty string" 6))] ∧
    ∀ m, 4 ≤ m → outAt (init "{call[=val]}".toList) m = none := by
  refine ⟨by decide, ?_⟩
  intro m hm
  rcases Nat.eq_or_lt_of_le hm with h | h
  · rw [← h]
    decide
  · exact outAt_none_stable (n := 4) (by decide) m h

open LexingIterator in
/-- Witness for C6 at `m = 7`. -/
theorem C6_empty_argument_key_witness :
    outAt (init "{call[=val]}".toList) 7 = none :=
  C6_empty_argument_key.2 7 (by omega)

open Lines in
/-- C8: the line index splits at each TR#14 hard-break scalar, treats
`U+000D U+000A` as one terminator, yields a final empty line after a trailing
terminator, and the five concrete inputs of the specification each yield
exactly two lines. -/
theorem C8_unicode_hard_line_breaks :
    (∀ c ∈ hardBreaks,
        linesIndices ['A', c, 'B'] = [(0, ['A']), (1 + utf8Width c, ['B'])]) ∧
    linesIndices "A\r\nB".toList = [(0, ['A']), (3, ['B'])] ∧
    linesIndices "A\n".toList = [(0, ['A']), (2, [])] ∧
    linesIndices "A\nB".toList = [(0, ['A']), (2, ['B'])] ∧
    linesIndices "A\rB".toList = [(0, ['A']), (2, ['B'])] ∧
    linesIndices "A\u0085B".toList = [(0, ['A']), (3, ['B'])] ∧
    linesIndices "A\u2028B".toList = [(0, ['A']), (4, ['B'])] := by
  refine ⟨by decide, by decide, by decide, by decide, by decide, by decide, by decide⟩

open Lines in
/-- Witness for C8 at the scalar `U+000A`. -/
theorem C8_unicode_hard_line_breaks_witness :
    linesIndices ['A', '\n', 'B'] = [(0, ['A']), (1 + utf8Width '\n', ['B'])] :=
  C8_unicode_hard_line_breaks.1 '\n' (by decide)

set_option maxRecDepth 100000 in
open LexingIterator in
/-- C5: a raw-string opening of exactly 126 `<` scalars lexes successfully
(concrete run), an opening whose run reaches 127 terminates the run with the
`InvalidSyntax` length error, and in general: from any iterator state that is
scanning a raw-string opening whose count has reached 126, one more `<`
terminates the machine with that error at the scalar's offset. -/
theorem C5_raw_delimiter_length_boundary :
    runLex (init rawLen126Src) =
      ([.BeginRaw ⟨1, 127⟩, .Whitespace 127 ' ', .Text ⟨128, 134⟩,
        .EndRaw ⟨134, 260⟩, .EndOfFile 261], none) ∧
    runLex (init rawLen127Src) =
      ([], some (.InvalidSyntax "raw string delimiter must not exceed length 126" 127)) ∧
    ∀ (it : LexingIterator) (bo : Nat), it.state = .StartRaw →
      it.raw_delimiter_length = 126 →
      (stepChar it bo '<').state = .Terminated ∧
      (stepChar it bo '<').occured_error =
        some (.InvalidSyntax "raw string delimiter must not exceed length 126" bo) := by
  refine ⟨by decide, by decide, ?_⟩
  intro it bo hst hlen
  unfold stepChar
  rw [hst]
  simp [hlen]

open LexingIterator in
/-- Witness for C5: the universal part applied to a concrete iterator state. -/
theorem C5_raw_delimiter_length_boundary_witness :
    (stepChar
      { state := .StartRaw, source_byte_length := 130, token_start := 1,
        token_function_start := 0, token_rawcontent_start := 0,
        raw_delimiter_length := 126, raw_delimiter_read := 0, chars := [],
        stack := [.Content], next_tokens := [], occured_error := none,
        panicked := false } 127 '<').occured_error =
      some (.InvalidSyntax "raw string delimiter must not exceed length 126" 127) :=
  (C5_raw_delimiter_length_boundary.2.2 _ 127 rfl rfl).2

open Parser in
/-- C3 (counterexample): parsing `" {<<< text >>>} "` does succeed with a
three-element content sequence whose middle element is a function named
`"<<<"`, but its argument mapping carries no `"=whitespace-after"` binding at
all, and its content element is `Text "text "` — the inner text keeps the
whitespace before the closing delimiter — not `Text "text"` as claimed. -/
theorem C3_raw_string_scenario_counterexample :
    parseDocument rawScenarioSrc =
      .ok [.Text " ",
           .Function "<<<" [("=whitespace", [.Text " "])] [.Text "text "],
           .Text " "] ∧
    (match parseDocument rawScenarioSrc with
     | .ok [_, .Function name args content, _] =>
        name = "<<<" ∧ lookupArg args "=whitespace-after" = none ∧
        lookupArg args "=whitespace" = some [.Text " "] ∧ content = [.Text "text "]
     | _ => False) :=
  ⟨rfl, rfl, rfl, rfl, rfl⟩

open Parser in
/-- C3 (amended): parsing `" {<<< text >>>} "` succeeds and yields exactly
`[Text " ", Function "<<<" with args binding only "=whitespace" to
[Text " "] and content [Text "text "], Text " "]`. -/
theorem C3_raw_string_scenario :
    parseDocument rawScenarioSrc =
      .ok [.Text " ",
           .Function "<<<" [("=whitespace", [.Text " "])] [.Text "text "],
           .Text " "] :=
  rfl

namespace LexingIterator

theorem noEOF_append_ok {q l : List Token} (h : noEOF q = true) (h2 : noEOF l = true) :
    noEOF (q ++ l) = true := by
  simp [noEOF_append, h, h2]

theorem popScope_inv_pair (X : LexingIterator) (bo : Nat)
    (heof : noEOF X.next_tokens = true) (herr : X.occured_error = none)
    (hstk : stackOK X.stack = true) (hpan : X.panicked = false) :
    InvA (popScope X bo) ∧
      ((popScope X bo).state = .Terminated → (popScope X bo).occured_error ≠ none) := by
  obtain ⟨p1, p2, p3, p4, p5, p6⟩ := popScope_invA X bo heof herr hstk
  exact ⟨⟨p1, p4, fun h => Or.inl (p5 h), p2.trans hpan, p3, p6⟩, p5⟩

/-- One consumed scalar preserves the machine invariant, and can only latch
`Terminated` together with a stored error (on a well-formed stack the
`panic!` branch is unreachable). -/
theorem stepChar_inv (it : LexingIterator) (bo : Nat) (c : Char)
    (h : InvA it) (hst : it.state ≠ .Terminated) :
    InvA (stepChar it bo c) ∧
      ((stepChar it bo c).state = .Terminated →
        (stepChar it bo c).occured_error ≠ none) := by
  obtain ⟨heof, herr, hterm, hpan, hstk, htop⟩ := h
  have herrn : it.occured_error = none := by
    rcases he : it.occured_error with _ | e
    · rfl
    · exact absurd (herr (by simp [he])) hst
  unfold stepChar
  cases hstate : it.state
  case ReadingContent =>
    rw [hstate] at htop
    simp only [stateTopOK, decide_eq_true_eq] at htop
    simp only []
    split_ifs <;>
      first
      | exact popScope_inv_pair _ _ (noEOF_append_ok heof rfl) herrn hstk hpan
      | exact popScope_inv_pair _ _ (noEOF_append_ok (noEOF_append_ok heof rfl) rfl)
          herrn hstk hpan
      | (refine ⟨⟨?_, ?_, ?_, ?_, ?_, ?_⟩, ?_⟩ <;>
          first
          | exact heof
          | exact noEOF_append_ok heof rfl
          | exact noEOF_append_ok (noEOF_append_ok heof rfl) rfl
          | simp_all [stateTopOK])
  case ReadingContentText =>
    rw [hstate] at htop
    simp only [stateTopOK, decide_eq_true_eq] at htop
    simp only []
    split_ifs <;>
      first
      | exact popScope_inv_pair _ _ (noEOF_append_ok heof rfl) herrn hstk hpan
      | exact popScope_inv_pair _ _ (noEOF_append_ok (noEOF_append_ok heof rfl) rfl)
          herrn hstk hpan
      | (refine ⟨⟨?_, ?_, ?_, ?_, ?_, ?_⟩, ?_⟩ <;>
          first
          | exact heof
          | exact noEOF_append_ok heof rfl
          | exact noEOF_append_ok (noEOF_append_ok heof rfl) rfl
          | simp_all [stateTopOK])
  case ReadingArgumentValue =>
    rw [hstate] at htop
    simp only [stateTopOK, decide_eq_true_eq] at htop
    simp only []
    split_ifs <;>
      first
      | exact popScope_inv_pair _ _ (noEOF_append_ok heof rfl) herrn hstk hpan
      | exact popScope_inv_pair _ _ (noEOF_append_ok (noEOF_append_ok heof rfl) rfl)
          herrn hstk hpan
      | (refine ⟨⟨?_, ?_, ?_, ?_, ?_, ?_⟩, ?_⟩ <;>
          first
          | exact heof
          | exact noEOF_append_ok heof rfl
          | exact noEOF_append_ok (noEOF_append_ok heof rfl) rfl
          | simp_all [stateTopOK])
  case ReadingArgumentValueText =>
    rw [hstate] at htop
    simp only [stateTopOK, decide_eq_true_eq] at htop
    simp only []
    split_ifs <;>
      first
      | exact popScope_inv_pair _ _ (noEOF_append_ok heof rfl) herrn hstk hpan
      | exact popScope_inv_pair _ _ (noEOF_append_ok (noEOF_append_ok heof rfl) rfl)
          herrn hstk hpan
      | (refine ⟨⟨?_, ?_, ?_, ?_, ?_, ?_⟩, ?_⟩ <;>
          first
          | exact heof
          | exact noEOF_append_ok heof rfl
          | exact noEOF_append_ok (noEOF_append_ok heof rfl) rfl
          | simp_all [stateTopOK])
  case FoundCallOpening =>
    rw [hstate] at htop
    simp only [stateTopOK, Bool.or_eq_true, decide_eq_true_eq] at htop
    have hpushF : stackOK (.Function :: it.stack) = true := by
      rcases htop with h2 | h2
      · exact stackOK_cons hstk h2 rfl
      · exact stackOK_cons hstk h2 rfl
    simp only []
    split_ifs <;>
      (refine ⟨⟨?_, ?_, ?_, ?_, ?_, ?_⟩, ?_⟩ <;>
        first
        | exact heof
        | exact noEOF_append_ok heof rfl
        | exact hpushF
        | exact hpan
        | simp_all [stateTopOK, pushScope])
  case StartRaw =>
    rw [hstate] at htop
    simp only [stateTopOK, Bool.or_eq_true, decide_eq_true_eq] at htop
    have hpushR : stackOK (.RawString :: it.stack) = true := by
      rcases htop with h2 | h2
      · exact stackOK_cons hstk h2 rfl
      · exact stackOK_cons hstk h2 rfl
    simp only []
    split_ifs <;>
      (refine ⟨⟨?_, ?_, ?_, ?_, ?_, ?_⟩, ?_⟩ <;>
        first
        | exact heof
        | exact noEOF_append_ok heof rfl
        | exact hpushR
        | exact hpan
        | simp_all [stateTopOK, pushScope])
  case ReadingRaw =>
    rw [hstate] at htop
    simp only [stateTopOK, decide_eq_true_eq] at htop
    simp only []
    split_ifs <;>
      (refine ⟨⟨?_, ?_, ?_, ?_, ?_, ?_⟩, ?_⟩ <;>
        first
        | exact heof
        | exact hpan
        | exact hstk
        | simp_all [stateTopOK])
  case EndRaw =>
    rw [hstate] at htop
    simp only [stateTopOK, decide_eq_true_eq] at htop
    simp only []
    split_ifs <;>
      first
      | exact popScope_inv_pair _ _ (noEOF_append_ok heof rfl) herrn hstk hpan
      | (refine ⟨⟨?_, ?_, ?_, ?_, ?_, ?_⟩, ?_⟩ <;>
          first
          | exact heof
          | exact hpan
          | exact hstk
          | simp_all [stateTopOK])
  case ReadingCallName =>
    rw [hstate] at htop
    simp only [stateTopOK, decide_eq_true_eq] at htop
    have hpushC : stackOK (.Content :: it.stack) = true := stackOK_cons hstk htop rfl
    simp only []
    split_ifs <;>
      first
      | exact popScope_inv_pair _ _ (noEOF_append_ok heof rfl) herrn hstk hpan
      | (refine ⟨⟨?_, ?_, ?_, ?_, ?_, ?_⟩, ?_⟩ <;>
          first
          | exact heof
          | exact noEOF_append_ok heof rfl
          | exact hpushC
          | exact hpan
          | exact hstk
          | simp_all [stateTopOK, pushScope])
  case FoundArgumentOpening =>
    rw [hstate] at htop
    simp only [stateTopOK, decide_eq_true_eq] at htop
    have hpushA : stackOK (.ArgumentValue :: it.stack) = true := stackOK_cons hstk htop rfl
    simp only []
    split_ifs <;>
      (refine ⟨⟨?_, ?_, ?_, ?_, ?_, ?_⟩, ?_⟩ <;>
        first
        | exact heof
        | exact noEOF_append_ok heof rfl
        | exact hpushA
        | exact hpan
        | exact hstk
        | simp_all [stateTopOK, pushScope])
  case FoundArgumentClosing =>
    rw [hstate] at htop
    simp only [stateTopOK, decide_eq_true_eq] at htop
    have hpushC2 : stackOK (.Content :: it.stack) = true := stackOK_cons hstk htop rfl
    simp only []
    split_ifs with h1 h2 h3
    · refine ⟨⟨heof, ?_, ?_, hpan, hstk, ?_⟩, ?_⟩ <;> simp_all [stateTopOK]
    · obtain ⟨p1, p2, p3, p4, p5, p6⟩ := popScope_invA
        { it with state := LexingState.FoundArgumentClosing,
                  next_tokens := it.next_tokens ++ [Token.EndArgs it.token_start] } bo
        (noEOF_append_ok heof rfl) herrn hstk
      exact ⟨⟨noEOF_append_ok p1 rfl, p4, fun h => Or.inl (p5 h), p2.trans hpan, p3, p6⟩, p5⟩
    · refine ⟨⟨noEOF_append_ok heof rfl, ?_, ?_, hpan, hpushC2, ?_⟩, ?_⟩ <;>
        simp_all [stateTopOK, pushScope]
    · refine ⟨⟨heof, ?_, ?_, hpan, hstk, ?_⟩, ?_⟩ <;> simp_all [stateTopOK]
  case Terminated => exact absurd hstate hst

/-- Dequeuing the head of the pending queue preserves the invariant. -/
theorem dequeue_inv {it : LexingIterator} {t : Token} {q : List Token}
    (h : InvA it) (hq : it.next_tokens = t :: q) :
    InvA { it with next_tokens := q } := by
  obtain ⟨heof, herr, hterm, hpan, hstk, htop⟩ := h
  refine ⟨?_, herr, ?_, hpan, hstk, htop⟩
  · rw [hq] at heof
    simp only [noEOF, List.all_cons, Bool.and_eq_true] at heof
    exact heof.2
  · intro hT
    rcases hterm hT with he | hqe
    · exact Or.inl he
    · rw [hq] at hqe
      simp at hqe

theorem progress_some_inv {it it1 : LexingIterator} {tok : Token}
    (h : Ready it) (hp : progress it = (some tok, it1)) :
    ((∀ p, tok ≠ Token.EndOfFile p) ∧ Ready it1) ∨
      ((∃ p, tok = Token.EndOfFile p) ∧ IsDead it1) := by
  obtain ⟨hA, hTE⟩ := h
  obtain ⟨heof, herr, hterm, hpan, hstk, htop⟩ := hA
  unfold progress at hp
  rcases hq : it.next_tokens with _ | ⟨t, rest⟩ <;> rw [hq] at hp
  · simp only at hp
    by_cases hst : it.state = .Terminated
    · rw [if_pos hst] at hp
      simp at hp
    · rw [if_neg hst] at hp
      rcases hc : it.chars with _ | ⟨⟨bo, c⟩, rest'⟩ <;> rw [hc] at hp
      · simp only at hp
        split_ifs at hp with hfl
        · simp at hp
        · simp only [Prod.mk.injEq, Option.some.injEq] at hp
          refine Or.inr ⟨⟨it.source_byte_length, hp.1.symm⟩, ?_⟩
          rw [← hp.2]
          have herrn : it.occured_error = none := by
            rcases he : it.occured_error with _ | e
            · rfl
            · exact absurd (herr (by simp [he])) hst
          exact ⟨rfl, rfl, herrn⟩
      · simp only at hp
        have h2 := stepChar_inv { it with chars := rest', next_tokens := ([] : List Token) } bo c ⟨rfl, herr, fun _ => Or.inr rfl, hpan, hstk, htop⟩ hst
        rcases hq1 : (stepChar { it with chars := rest', next_tokens := ([] : List Token) } bo c).next_tokens with _ | ⟨t1, q1⟩ <;> rw [hq1] at hp
        · simp at hp
        · simp only [Prod.mk.injEq, Option.some.injEq] at hp
          have hne : ∀ p, t1 ≠ Token.EndOfFile p := by
            intro p hcontra
            have he2 := h2.1.eof_free
            rw [hq1, hcontra] at he2
            simp [noEOF] at he2
          refine Or.inl ⟨hp.1 ▸ hne, ?_⟩
          rw [← hp.2]
          exact ⟨dequeue_inv h2.1 hq1, h2.2⟩
  · simp only [Prod.mk.injEq, Option.some.injEq] at hp
    have hne : ∀ p, t ≠ Token.EndOfFile p := by
      intro p hcontra
      rw [hq, hcontra] at heof
      simp [noEOF] at heof
    refine Or.inl ⟨hp.1 ▸ hne, ?_⟩
    rw [← hp.2]
    exact ⟨dequeue_inv ⟨heof, herr, hterm, hpan, hstk, htop⟩ hq, fun hT => hTE hT⟩

theorem progress_none_ready {it it1 : LexingIterator}
    (h : Ready it) (hp : progress it = (none, it1)) : Ready it1 := by
  obtain ⟨hA, hTE⟩ := h
  obtain ⟨heof, herr, hterm, hpan, hstk, htop⟩ := hA
  unfold progress at hp
  rcases hq : it.next_tokens with _ | ⟨t, rest⟩ <;> rw [hq] at hp
  · simp only at hp
    by_cases hst : it.state = .Terminated
    · rw [if_pos hst] at hp
      simp only [Prod.mk.injEq] at hp
      rw [← hp.2]
      exact ⟨⟨heof, herr, hterm, hpan, hstk, htop⟩, hTE⟩
    · rw [if_neg hst] at hp
      rcases hc : it.chars with _ | ⟨⟨bo, c⟩, rest'⟩ <;> rw [hc] at hp
      · simp only at hp
        split_ifs at hp with hfl
        · simp only [Prod.mk.injEq] at hp
          rw [← hp.2]
          refine ⟨⟨rfl, herr, ?_, hpan, hstk, htop⟩, ?_⟩
          · intro hT
            exact absurd hT hst
          · intro hT
            exact absurd hT hst
        · simp at hp
      · simp only at hp
        have h2 := stepChar_inv { it with chars := rest', next_tokens := ([] : List Token) } bo c ⟨rfl, herr, fun _ => Or.inr rfl, hpan, hstk, htop⟩ hst
        rcases hq1 : (stepChar { it with chars := rest', next_tokens := ([] : List Token) } bo c).next_tokens with _ | ⟨t1, q1⟩ <;> rw [hq1] at hp
        · simp only [Prod.mk.injEq] at hp
          rw [← hp.2]
          exact ⟨h2.1, h2.2⟩
        · simp at hp
  · simp at hp

theorem lexNext_classify_aux :
    ∀ (n : Nat) (it : LexingIterator) (r : Option (Except Error Token))
      (it' : LexingIterator), measure it ≤ n → Ready it → lexNext it = (r, it') →
      (∃ t, r = some (Except.ok t) ∧ (∀ p, t ≠ Token.EndOfFile p) ∧ Ready it' ∧
        measure it' < measure it) ∨
      (∃ p, r = some (Except.ok (Token.EndOfFile p)) ∧ IsDead it') ∨
      (∃ e, r = some (Except.error e) ∧ IsDead it') := by
  intro n
  induction n with
  | zero =>
    intro it r it' hn hR h
    rw [lexNext_eq] at h
    rcases hp : progress it with ⟨_ | tok, it1⟩ <;> rw [hp] at h
    · simp only at h
      by_cases hterm : it1.state = .Terminated
      · simp only [if_pos hterm] at h
        rcases he : it1.occured_error with _ | e <;> rw [he] at h
        · exact absurd he ((progress_none_ready hR hp).2 hterm)
        · simp only [Prod.mk.injEq] at h
          refine Or.inr (Or.inr ⟨e, h.1.symm, ?_⟩)
          rw [← h.2]
          refine ⟨hterm, ?_, rfl⟩
          show it1.next_tokens = []
          exact progress_none_term_queue hp hterm
      · rw [if_neg hterm] at h
        exact absurd (progress_none_measure hp hterm) (by omega)
    · simp only [Prod.mk.injEq] at h
      rcases progress_some_inv hR hp with ⟨hne, hR1⟩ | ⟨⟨p, hpe⟩, hD1⟩
      · refine Or.inl ⟨tok, h.1.symm, hne, ?_, ?_⟩
        · rw [← h.2]
          exact hR1
        · rw [← h.2]
          exact progress_some_measure hp
      · subst hpe
        refine Or.inr (Or.inl ⟨p, h.1.symm, ?_⟩)
        rw [← h.2]
        exact hD1
  | succ n ih =>
    intro it r it' hn hR h
    rw [lexNext_eq] at h
    rcases hp : progress it with ⟨_ | tok, it1⟩ <;> rw [hp] at h
    · simp only at h
      by_cases hterm : it1.state = .Terminated
      · simp only [if_pos hterm] at h
        rcases he : it1.occured_error with _ | e <;> rw [he] at h
        · exact absurd he ((progress_none_ready hR hp).2 hterm)
        · simp only [Prod.mk.injEq] at h
          refine Or.inr (Or.inr ⟨e, h.1.symm, ?_⟩)
          rw [← h.2]
          refine ⟨hterm, ?_, rfl⟩
          show it1.next_tokens = []
          exact progress_none_term_queue hp hterm
      · rw [if_neg hterm] at h
        have hm := progress_none_measure hp hterm
        have hR1 := progress_none_ready hR hp
        rcases ih it1 r it' (by omega) hR1 h with ⟨t, h1, h2, h3, h4⟩ | hrest
        · exact Or.inl ⟨t, h1, h2, h3, by omega⟩
        · exact Or.inr hrest
    · simp only [Prod.mk.injEq] at h
      rcases progress_some_inv hR hp with ⟨hne, hR1⟩ | ⟨⟨p, hpe⟩, hD1⟩
      · refine Or.inl ⟨tok, h.1.symm, hne, ?_, ?_⟩
        · rw [← h.2]
          exact hR1
        · rw [← h.2]
          exact progress_some_measure hp
      · subst hpe
        refine Or.inr (Or.inl ⟨p, h.1.symm, ?_⟩)
        rw [← h.2]
        exact hD1

theorem lexNext_classify {it it' : LexingIterator} {r : Option (Except Error Token)}
    (hR : Ready it) (h : lexNext it = (r, it')) :
    (∃ t, r = some (Except.ok t) ∧ (∀ p, t ≠ Token.EndOfFile p) ∧ Ready it' ∧
      measure it' < measure it) ∨
    (∃ p, r = some (Except.ok (Token.EndOfFile p)) ∧ IsDead it') ∨
    (∃ e, r = some (Except.error e) ∧ IsDead it') :=
  lexNext_classify_aux (measure it) it r it' (Nat.le_refl _) hR h

theorem iterState_shift {it it' : LexingIterator} (h : (lexNext it).2 = it') :
    ∀ k, iterState it (k + 1) = iterState it' k := by
  intro k
  induction k with
  | zero =>
    show (lexNext (iterState it 0)).2 = it'
    exact h
  | succ k ih =>
    show (lexNext (iterState it (k + 1))).2 = (lexNext (iterState it' k)).2
    rw [ih]

theorem outAt_shift {it it' : LexingIterator} (h : (lexNext it).2 = it') (k : Nat) :
    outAt it (k + 1) = outAt it' k := by
  unfold outAt
  rw [iterState_shift h k]

/-- One call of `progress` preserves the machine invariant. -/
theorem progress_invA {it : LexingIterator} (h : InvA it) : InvA (progress it).2 := by
  obtain ⟨heof, herr, hterm, hpan, hstk, htop⟩ := h
  unfold progress
  rcases hq : it.next_tokens with _ | ⟨t, rest⟩
  · simp only
    by_cases hst : it.state = .Terminated
    · rw [if_pos hst]
      exact ⟨heof, herr, hterm, hpan, hstk, htop⟩
    · rw [if_neg hst]
      rcases hc : it.chars with _ | ⟨⟨bo, c⟩, rest'⟩
      · simp only
        split_ifs with hfl
        · exact ⟨rfl, herr, fun hT => absurd hT hst, hpan, hstk, htop⟩
        · exact ⟨rfl, fun _ => rfl, fun _ => Or.inr rfl, hpan, hstk, rfl⟩
      · simp only
        have h2 := stepChar_inv { it with chars := rest', next_tokens := ([] : List Token) } bo c ⟨rfl, herr, fun _ => Or.inr rfl, hpan, hstk, htop⟩ hst
        rcases hq1 : (stepChar { it with chars := rest', next_tokens := ([] : List Token) } bo c).next_tokens with _ | ⟨t1, q1⟩
        · simp only
          exact h2.1
        · simp only
          exact dequeue_inv h2.1 hq1
  · simp only
    exact dequeue_inv ⟨heof, herr, hterm, hpan, hstk, htop⟩ hq

/-- `Iterator::next` preserves the machine invariant for any fuel. -/
theorem lexNextF_invA : ∀ (fuel : Nat) (it : LexingIterator), InvA it →
    InvA (lexNextF fuel it).2 := by
  intro fuel
  induction fuel with
  | zero =>
    intro it h
    exact h
  | succ fuel ih =>
    intro it h
    unfold lexNextF
    rcases hp : progress it with ⟨r, it1⟩
    have h1 : InvA it1 := by
      have h0 := progress_invA h
      rw [hp] at h0
      exact h0
    rcases r with _ | tok
    · simp only
      by_cases hterm : it1.state = .Terminated
      · simp only [if_pos hterm]
        rcases he : it1.occured_error with _ | e
        · simp only
          exact h1
        · simp only
          obtain ⟨heof, herr2, hterm2, hpan, hstk, htop⟩ := h1
          refine ⟨heof, fun hx => absurd rfl hx, fun _ => Or.inr ?_, hpan, hstk, htop⟩
          show it1.next_tokens = []
          exact progress_none_term_queue hp hterm
      · rw [if_neg hterm]
        exact ih it1 h1
    · simp only
      exact h1

theorem lexNext_invA {it : LexingIterator} (h : InvA it) : InvA (lexNext it).2 :=
  lexNextF_invA _ it h

theorem iterState_invA (it : LexingIterator) (h : InvA it) (n : Nat) :
    InvA (iterState it n) := by
  induction n with
  | zero => exact h
  | succ n ihn =>
    show InvA (lexNext (iterState it n)).2
    exact lexNext_invA ihn

/-- The freshly created iterator satisfies the machine invariant. -/
theorem init_invA (src : List Char) : InvA (init src) := by
  refine ⟨rfl, ?_, ?_, rfl, rfl, rfl⟩
  · intro hx
    exact absurd rfl hx
  · intro hT
    simp [init] at hT

theorem init_ready (src : List Char) : Ready (init src) := by
  refine ⟨init_invA src, ?_⟩
  intro hT
  simp [init] at hT

/-- The protocol of a whole run: non-`EndOfFile` tokens, then one terminal
result (an `EndOfFile` token or an error), then `none` forever. -/
theorem run_scenario_aux :
    ∀ (n : Nat) (it : LexingIterator), measure it ≤ n → Ready it →
      ∃ N,
        (∀ k, k < N → ∃ t, outAt it k = some (Except.ok t) ∧
          ∀ p, t ≠ Token.EndOfFile p) ∧
        ((∃ p, outAt it N = some (Except.ok (Token.EndOfFile p))) ∨
          (∃ e, outAt it N = some (Except.error e))) ∧
        (∀ m, N < m → outAt it m = none) := by
  intro n
  induction n with
  | zero =>
    intro it hn hR
    rcases hp : lexNext it with ⟨r, it'⟩
    have h0 : outAt it 0 = r := by
      show (lexNext it).1 = r
      rw [hp]
    have hs1 : iterState it 1 = it' := by
      show (lexNext it).2 = it'
      rw [hp]
    rcases lexNext_classify hR hp with ⟨t, h1, h2, h3, h4⟩ | ⟨p, h1, hD⟩ | ⟨e, h1, hD⟩
    · exact absurd h4 (by omega)
    · refine ⟨0, fun k hk => absurd hk (by omega), Or.inl ⟨p, h0.trans h1⟩, ?_⟩
      intro m hm
      exact (iterState_dead (k := 1) (hs1 ▸ hD) m (by omega)).2
    · refine ⟨0, fun k hk => absurd hk (by omega), Or.inr ⟨e, h0.trans h1⟩, ?_⟩
      intro m hm
      exact (iterState_dead (k := 1) (hs1 ▸ hD) m (by omega)).2
  | succ n ih =>
    intro it hn hR
    rcases hp : lexNext it with ⟨r, it'⟩
    have h0 : outAt it 0 = r := by
      show (lexNext it).1 = r
      rw [hp]
    have hs1 : iterState it 1 = it' := by
      show (lexNext it).2 = it'
      rw [hp]
    have hsh : ∀ k, outAt it (k + 1) = outAt it' k :=
      outAt_shift (by rw [hp])
    rcases lexNext_classify hR hp with ⟨t, h1, h2, h3, h4⟩ | ⟨p, h1, hD⟩ | ⟨e, h1, hD⟩
    · obtain ⟨N, hpre, hterm', hpost⟩ := ih it' (by omega) h3
      refine ⟨N + 1, ?_, ?_, ?_⟩
      · intro k hk
        cases k with
        | zero => exact ⟨t, h0.trans h1, h2⟩
        | succ k =>
          rw [hsh k]
          exact hpre k (by omega)
      · rw [hsh N]
        exact hterm'
      · intro m hm
        cases m with
        | zero => omega
        | succ m =>
          rw [hsh m]
          exact hpost m (by omega)
    · refine ⟨0, fun k hk => absurd hk (by omega), Or.inl ⟨p, h0.trans h1⟩, ?_⟩
      intro m hm
      exact (iterState_dead (k := 1) (hs1 ▸ hD) m (by omega)).2
    · refine ⟨0, fun k hk => absurd hk (by omega), Or.inr ⟨e, h0.trans h1⟩, ?_⟩
      intro m hm
      exact (iterState_dead (k := 1) (hs1 ▸ hD) m (by omega)).2

theorem run_scenario (it : LexingIterator) (hR : Ready it) :
    ∃ N,
      (∀ k, k < N → ∃ t, outAt it k = some (Except.ok t) ∧
        ∀ p, t ≠ Token.EndOfFile p) ∧
      ((∃ p, outAt it N = some (Except.ok (Token.EndOfFile p))) ∨
        (∃ e, outAt it N = some (Except.error e))) ∧
      (∀ m, N < m → outAt it m = none) :=
  run_scenario_aux (measure it) it (Nat.le_refl _) hR

open LexingIterator in
/-- C1: for every source, the run of `Iterator::next` follows one of exactly
two scenarios: zero or more non-`EndOfFile` tokens, then either exactly one
`EndOfFile` token (success) or exactly one error (failure), then only `none`
forever; moreover once `next` has returned `none` it never yields anything
again. -/
theorem C1_iteration_scenarios (src : List Char) :
    (∃ N,
      (∀ k, k < N → ∃ t, outAt (init src) k = some (Except.ok t) ∧
        ∀ p, t ≠ Token.EndOfFile p) ∧
      ((∃ p, outAt (init src) N = some (Except.ok (Token.EndOfFile p))) ∨
        (∃ e, outAt (init src) N = some (Except.error e))) ∧
      (∀ m, N < m → outAt (init src) m = none)) ∧
    (∀ n, outAt (init src) n = none → ∀ m, n < m → outAt (init src) m = none) :=
  ⟨run_scenario (init src) (init_ready src),
   fun _ hn m hm => outAt_none_stable hn m hm⟩

open LexingIterator in
/-- Witness for C1 on the empty source. -/
theorem C1_iteration_scenarios_witness :
    (∃ N,
      (∀ k, k < N → ∃ t, outAt (init ([] : List Char)) k = some (Except.ok t) ∧
        ∀ p, t ≠ Token.EndOfFile p) ∧
      ((∃ p, outAt (init ([] : List Char)) N = some (Except.ok (Token.EndOfFile p))) ∨
        (∃ e, outAt (init ([] : List Char)) N = some (Except.error e))) ∧
      (∀ m, N < m → outAt (init ([] : List Char)) m = none)) ∧
    (∀ n, outAt (init ([] : List Char)) n = none →
      ∀ m, n < m → outAt (init ([] : List Char)) m = none) :=
  C1_iteration_scenarios []

open LexingIterator in
/-- C4: an error result is surfaced only once the pending-token queue is
empty, and after it the iterator yields nothing ever again (so it is surfaced
at most once, and never interleaved before a buffered token). -/
theorem C4_error_deferral (src : List Char) (n : Nat) (e : Error)
    (h : outAt (init src) n = some (Except.error e)) :
    (iterState (init src) n).next_tokens = [] ∧
    ∀ m, n < m → outAt (init src) m = none := by
  rcases hp : lexNext (iterState (init src) n) with ⟨r, it'⟩
  have hr : r = some (Except.error e) := by
    unfold outAt at h
    rw [hp] at h
    exact h
  subst hr
  obtain ⟨hq, hD⟩ := lexNext_error_spec hp
  refine ⟨hq, ?_⟩
  have hs : iterState (init src) (n + 1) = it' := by
    show (lexNext (iterState (init src) n)).2 = it'
    rw [hp]
  intro m hm
  exact (iterState_dead (k := n + 1) (hs ▸ hD) m (by omega)).2

open LexingIterator in
/-- Witness for C4 on `"{call[=val]}"`, whose error surfaces at step 3. -/
theorem C4_error_deferral_witness :
    (iterState (init "{call[=val]}".toList) 3).next_tokens = [] ∧
    ∀ m, 3 < m → outAt (init "{call[=val]}".toList) m = none :=
  C4_error_deferral "{call[=val]}".toList 3
    (Error.InvalidSyntax "argument key must not be an empty string" 6) (by decide)

open LexingIterator in
/-- C10: the lexer never panics: on every input and after any number of
`next` calls the `panic!` branch of `pop_scope` has not been taken, because
the scope stack only ever holds the six pairings `pop_scope` handles. -/
theorem C10_no_panic (src : List Char) (n : Nat) :
    (iterState (init src) n).panicked = false :=
  (iterState_invA (init src) (init_invA src) n).no_panic

end LexingIterator

theorem bl_succ (src : List Char) {i : Nat} (h : i < src.length) :
    bl src (i + 1) = bl src i + utf8Width (src.get ⟨i, h⟩) := by
  unfold bl
  rw [List.take_succ, byteLen_append]
  congr 1
  rw [List.getElem?_eq_getElem h]
  rfl

theorem bl_lt (src : List Char) {i j : Nat} (hij : i < j) (hj : j ≤ src.length) :
    bl src i < bl src j := by
  have hi : i < src.length := Nat.lt_of_lt_of_le hij hj
  have h1 : bl src i < bl src (i + 1) := by
    rw [bl_succ src hi]
    have := utf8Width_pos (src.get ⟨i, hi⟩)
    omega
  exact Nat.lt_of_lt_of_le h1 (bl_mono src hij)

theorem chars_cons (src : List Char) {i : Nat} (h : i < src.length) :
    charIndicesFrom (bl src i) (List.drop i src) =
      (bl src i, src.get ⟨i, h⟩) ::
        charIndicesFrom (bl src (i + 1)) (List.drop (i + 1) src) := by
  rw [List.drop_eq_getElem_cons h]
  rw [charIndicesFrom]
  rw [bl_succ src h]
  rfl

theorem drop_len_le {α : Type _} {l : List α} {i : Nat}
    (h : List.drop i l = []) : l.length ≤ i := by
  have := congrArg List.length h
  simp at this
  omega

namespace LexingIterator

/-- `pop_scope` keeps the positions invariant when called at a boundary
offset. -/
theorem popScope_invP (src : List Char) (X : LexingIterator) {i k : Nat}
    (hk : k ≤ i) (hi : i ≤ src.length)
    (hsbl : X.source_byte_length = byteLen src)
    (hch : X.chars = charIndicesFrom (bl src i) (List.drop i src))
    (hq : ∀ t ∈ X.next_tokens, tokOK src t ∧ tokStrict t)
    (hts : X.token_start = S1 ∨ X.token_start = S2 ∨
      ∃ j, j ≤ i ∧ X.token_start = bl src j)
    (hstk : stackOK X.stack = true) :
    InvP src (popScope X (bl src k)) i := by
  have hq1 : ∀ t ∈ X.next_tokens ++ [Token.EndFunction (bl src k)],
      tokOK src t ∧ tokStrict t := by
    intro t ht
    rcases List.mem_append.mp ht with h1 | h1
    · exact hq t h1
    · simp at h1
      subst h1
      exact ⟨⟨k, Nat.le_trans hk hi, rfl⟩, trivial⟩
  rcases hs : X.stack with _ | ⟨a, _ | ⟨b, r⟩⟩
  · rw [popScope_nil X _ hs]
    exact ⟨hi, hsbl, hch, hq, hts, trivial⟩
  · rw [popScope_single X _ a hs]
    exact ⟨hi, hsbl, hch, hq, hts, trivial⟩
  · have hpair : scopePairOK a b = true := by
      rw [hs] at hstk
      simp [stackOK] at hstk
      exact hstk.1
    cases a <;> cases b <;> simp [scopePairOK] at hpair
    · -- ArgumentValue / Function
      rw [popScope_av_fun X _ r hs]
      exact ⟨hi, hsbl, hch, hq, Or.inr (Or.inr ⟨k, hk, rfl⟩), ⟨k, hk, rfl⟩⟩
    · -- Content / Function
      rcases r with _ | ⟨c0, r2⟩
      · rw [popScope_content_fun_nil X _ (by rw [hs])]
        exact ⟨hi, hsbl, hch, hq1, Or.inl rfl, trivial⟩
      · have hpair2 : scopePairOK .Function c0 = true := by
          rw [hs] at hstk
          simp [stackOK] at hstk
          exact hstk.2.1
        cases c0 <;> simp [scopePairOK] at hpair2
        · -- below: ArgumentValue
          rw [popScope_content_fun_av X _ r2 (by rw [hs])]
          exact ⟨hi, hsbl, hch, hq1, Or.inl rfl, trivial⟩
        · -- below: Content
          rw [popScope_content_fun_content X _ r2 (by rw [hs])]
          exact ⟨hi, hsbl, hch, hq1, Or.inl rfl, trivial⟩
    · -- Function / ArgumentValue
      rw [popScope_fun_av X _ r hs]
      exact ⟨hi, hsbl, hch, hq, Or.inl rfl, trivial⟩
    · -- Function / Content
      rw [popScope_fun_content X _ r hs]
      exact ⟨hi, hsbl, hch, hq, hts, trivial⟩
    · -- RawString / ArgumentValue
      rw [popScope_raw_av X _ r hs]
      exact ⟨hi, hsbl, hch, hq, Or.inl rfl, trivial⟩
    · -- RawString / Content
      rw [popScope_raw_content X _ r hs]
      exact ⟨hi, hsbl, hch, hq, hts, trivial⟩

end LexingIterator

theorem tokOK_append1 {src : List Char} {l : List Token}
    (hl : ∀ t ∈ l, tokOK src t ∧ tokStrict t) (tk : Token)
    (h1 : tokOK src tk) (h2 : tokStrict tk) :
    ∀ t ∈ l ++ [tk], tokOK src t ∧ tokStrict t := by
  intro t ht
  rcases List.mem_append.mp ht with h3 | h3
  · exact hl t h3
  · simp at h3
    subst h3
    exact ⟨h1, h2⟩

theorem tokOK_append2 {src : List Char} {l : List Token}
    (hl : ∀ t ∈ l, tokOK src t ∧ tokStrict t) (t1 t2 : Token)
    (ha : tokOK src t1) (hb : tokStrict t1) (hc : tokOK src t2) (hd : tokStrict t2) :
    ∀ t ∈ l ++ [t1, t2], tokOK src t ∧ tokStrict t := by
  intro t ht
  rcases List.mem_append.mp ht with h3 | h3
  · exact hl t h3
  · simp at h3
    rcases h3 with h3 | h3
    · subst h3
      exact ⟨ha, hb⟩
    · subst h3
      exact ⟨hc, hd⟩

namespace LexingIterator

theorem stepChar_invP (src : List Char) (it : LexingIterator) (i : Nat)
    (hi : i < src.length)
    (hsbl : it.source_byte_length = byteLen src)
    (hch : it.chars = charIndicesFrom (bl src (i + 1)) (List.drop (i + 1) src))
    (hq : ∀ t ∈ it.next_tokens, tokOK src t ∧ tokStrict t)
    (hts : it.token_start = S1 ∨ it.token_start = S2 ∨
      ∃ j, j ≤ i ∧ it.token_start = bl src j)
    (hstP : stateP src it.state it.token_start it.token_function_start it.token_rawcontent_start i)
    (hstk : stackOK it.stack = true)
    (htop : stateTopOK it.state it.stack = true) :
    InvP src (stepChar it (bl src i) (src.get ⟨i, hi⟩)) (i + 1) := by
  have hi1 : i + 1 ≤ src.length := hi
  have hbOK : IsBoundary src (bl src i) := ⟨i, Nat.le_of_lt hi, rfl⟩
  unfold stepChar
  cases hstate : it.state
  case ReadingContent =>
    simp only []
    split_ifs with h1 h2 h3 h4 h5 h6 h7 h8
    · refine ⟨hi1, hsbl, hch, tokOK_append1 hq (Token.BeginContent (bl src i)) hbOK trivial, Or.inr (Or.inr ⟨i, by omega, rfl⟩), ⟨⟨i, by omega, rfl⟩, ⟨i, by omega, rfl, ?_⟩⟩⟩
      rw [bl_succ src hi, h1]
      rfl
    · refine ⟨hi1, hsbl, hch, hq, Or.inr (Or.inr ⟨i, by omega, rfl⟩), ⟨⟨i, by omega, rfl⟩, ⟨i, by omega, rfl, ?_⟩⟩⟩
      rw [bl_succ src hi, h1]
      rfl
    · refine ⟨hi1, hsbl, hch, hq, Or.inr (Or.inr ⟨i, by omega, rfl⟩), ⟨⟨i, by omega, rfl⟩, ⟨i, by omega, rfl, ?_⟩⟩⟩
      rw [bl_succ src hi, h1]
      rfl
    · exact popScope_invP src _ (by omega) hi1 hsbl hch
        (tokOK_append1 (tokOK_append1 hq (Token.BeginContent (bl src i)) hbOK trivial) (Token.EndContent (bl src i)) hbOK trivial)
        (Or.inr (Or.inr ⟨i, by omega, rfl⟩)) hstk
    · exact popScope_invP src _ (by omega) hi1 hsbl hch
        (tokOK_append1 hq (Token.EndContent (bl src i)) hbOK trivial)
        (Or.inr (Or.inr ⟨i, by omega, rfl⟩)) hstk
    · exact popScope_invP src _ (by omega) hi1 hsbl hch
        (tokOK_append1 hq (Token.EndContent (bl src i)) hbOK trivial)
        (Or.inr (Or.inr ⟨i, by omega, rfl⟩)) hstk
    · exact ⟨hi1, hsbl, hch, tokOK_append1 hq (Token.BeginContent (bl src i)) hbOK trivial,
        Or.inr (Or.inr ⟨i, by omega, rfl⟩), ⟨i, by omega, rfl⟩⟩
    · exact ⟨hi1, hsbl, hch, hq, Or.inr (Or.inr ⟨i, by omega, rfl⟩), ⟨i, by omega, rfl⟩⟩
    · rcases hts with h | h | ⟨j, hj, h⟩
      · exact absurd h h8
      · exact absurd h h7
      · exact ⟨hi1, hsbl, hch, hq, Or.inr (Or.inr ⟨j, by omega, h⟩), ⟨j, by omega, h⟩⟩
  case ReadingContentText =>
    rw [hstate] at hstP
    simp only [stateP] at hstP
    obtain ⟨j, hj, hty⟩ := hstP
    simp only []
    split_ifs with h1 h2
    · refine ⟨hi1, hsbl, hch,
        tokOK_append1 hq (Token.Text ⟨it.token_start, bl src i⟩)
          ⟨j, i, hj, Nat.le_of_lt hi, hty, rfl⟩ trivial,
        Or.inr (Or.inr ⟨i, by omega, rfl⟩),
        ⟨⟨i, by omega, rfl⟩, ⟨i, by omega, rfl, ?_⟩⟩⟩
      rw [bl_succ src hi, h1]
      rfl
    · exact popScope_invP src _ (by omega) hi1 hsbl hch
        (tokOK_append2 hq (Token.Text ⟨it.token_start, bl src i⟩)
          (Token.EndContent (bl src i))
          ⟨j, i, hj, Nat.le_of_lt hi, hty, rfl⟩ trivial hbOK trivial)
        (Or.inr (Or.inr ⟨i, by omega, rfl⟩)) hstk
    · refine ⟨hi1, hsbl, hch, hq, Or.inr (Or.inr ⟨j, by omega, hty⟩), ?_⟩
      simp only [stateP, hstate]
      exact ⟨j, by omega, hty⟩
  case ReadingArgumentValue =>
    simp only []
    split_ifs with h1 h2 h3 h4 h5 h6 h7 h8
    · refine ⟨hi1, hsbl, hch, tokOK_append1 hq (Token.BeginArgValue (bl src i)) hbOK trivial,
        Or.inr (Or.inr ⟨i, by omega, rfl⟩),
        ⟨⟨i, by omega, rfl⟩, ⟨i, by omega, rfl, ?_⟩⟩⟩
      rw [bl_succ src hi, h1]
      rfl
    · refine ⟨hi1, hsbl, hch, hq, Or.inr (Or.inr ⟨i, by omega, rfl⟩),
        ⟨⟨i, by omega, rfl⟩, ⟨i, by omega, rfl, ?_⟩⟩⟩
      rw [bl_succ src hi, h1]
      rfl
    · refine ⟨hi1, hsbl, hch, hq, Or.inr (Or.inr ⟨i, by omega, rfl⟩),
        ⟨⟨i, by omega, rfl⟩, ⟨i, by omega, rfl, ?_⟩⟩⟩
      rw [bl_succ src hi, h1]
      rfl
    · exact popScope_invP src _ (by omega) hi1 hsbl hch
        (tokOK_append1 (tokOK_append1 hq (Token.BeginArgValue (bl src i)) hbOK trivial)
          (Token.EndArgValue (bl src i)) hbOK trivial)
        (Or.inr (Or.inr ⟨i, by omega, rfl⟩)) hstk
    · exact popScope_invP src _ (by omega) hi1 hsbl hch
        (tokOK_append1 hq (Token.EndArgValue (bl src i)) hbOK trivial)
        (Or.inr (Or.inr ⟨i, by omega, rfl⟩)) hstk
    · exact popScope_invP src _ (by omega) hi1 hsbl hch
        (tokOK_append1 hq (Token.EndArgValue (bl src i)) hbOK trivial)
        (Or.inr (Or.inr ⟨i, by omega, rfl⟩)) hstk
    · exact ⟨hi1, hsbl, hch, tokOK_append1 hq (Token.BeginArgValue (bl src i)) hbOK trivial,
        Or.inr (Or.inr ⟨i, by omega, rfl⟩), Or.inr ⟨i, by omega, rfl⟩⟩
    · exact ⟨hi1, hsbl, hch, hq, Or.inr (Or.inr ⟨i, by omega, rfl⟩),
        Or.inr ⟨i, by omega, rfl⟩⟩
    · rcases hts with h | h | ⟨j, hj, h⟩
      · exact absurd h h8
      · exact absurd h h7
      · exact ⟨hi1, hsbl, hch, hq, Or.inr (Or.inr ⟨j, by omega, h⟩),
          Or.inr ⟨j, by omega, h⟩⟩
  case ReadingArgumentValueText =>
    rw [hstate] at hstP
    simp only [stateP] at hstP
    simp only []
    split_ifs with h1 h2 h3 h4 h5
    · rcases hstP with h | ⟨j, hj, hty⟩
      · exact absurd h h2.1
      · refine ⟨hi1, hsbl, hch,
          tokOK_append1 hq (Token.Text ⟨it.token_start, bl src i⟩)
            ⟨j, i, hj, Nat.le_of_lt hi, hty, rfl⟩ trivial,
          Or.inr (Or.inr ⟨i, by omega, rfl⟩),
          ⟨⟨i, by omega, rfl⟩, ⟨i, by omega, rfl, ?_⟩⟩⟩
        rw [bl_succ src hi, h1]
        rfl
    · refine ⟨hi1, hsbl, hch, hq, Or.inr (Or.inr ⟨i, by omega, rfl⟩),
        ⟨⟨i, by omega, rfl⟩, ⟨i, by omega, rfl, ?_⟩⟩⟩
      rw [bl_succ src hi, h1]
      rfl
    · rcases hstP with h | ⟨j, hj, hty⟩
      · exact absurd h h4.1
      · exact popScope_invP src _ (by omega) hi1 hsbl hch
          (tokOK_append1
            (tokOK_append1 hq (Token.Text ⟨it.token_start, bl src i⟩)
              ⟨j, i, hj, Nat.le_of_lt hi, hty, rfl⟩ trivial)
            (Token.EndArgValue (bl src i)) hbOK trivial)
          (Or.inr (Or.inr ⟨i, by omega, rfl⟩)) hstk
    · exact popScope_invP src _ (by omega) hi1 hsbl hch
        (tokOK_append1 hq (Token.EndArgValue (bl src i)) hbOK trivial)
        (Or.inr (Or.inr ⟨i, by omega, rfl⟩)) hstk
    · refine ⟨hi1, hsbl, hch, hq, Or.inr (Or.inr ⟨i, by omega, rfl⟩), ?_⟩
      simp only [stateP, hstate]
      exact Or.inr ⟨i, by omega, rfl⟩
    · refine ⟨hi1, hsbl, hch, hq, ?_, ?_⟩
      · rcases hts with h | h | ⟨j, hj, h⟩
        · exact Or.inl h
        · exact Or.inr (Or.inl h)
        · exact Or.inr (Or.inr ⟨j, by omega, h⟩)
      · simp only [stateP, hstate]
        rcases hstP with h | ⟨j, hj, hty⟩
        · exact Or.inl h
        · exact Or.inr ⟨j, by omega, hty⟩
  case FoundCallOpening =>
    rw [hstate] at hstP
    simp only [stateP] at hstP
    obtain ⟨⟨j0, hj0, hts0⟩, ⟨j, hj1, htfs, hw⟩⟩ := hstP
    simp only []
    split_ifs with h1 h2
    · exact ⟨hi1, hsbl, hch,
        tokOK_append1 hq (Token.BeginFunction it.token_start)
          ⟨j0, by omega, hts0⟩ trivial,
        Or.inr (Or.inr ⟨j0, by omega, hts0⟩), trivial⟩
    · exact ⟨hi1, hsbl, hch, hq, Or.inr (Or.inr ⟨i, by omega, rfl⟩),
        ⟨j, by omega, htfs, hw⟩⟩
    · exact ⟨hi1, hsbl, hch,
        tokOK_append1 hq (Token.BeginFunction it.token_start)
          ⟨j0, by omega, hts0⟩ trivial,
        Or.inr (Or.inr ⟨i, by omega, rfl⟩), ⟨i, by omega, rfl⟩⟩
  case StartRaw =>
    rw [hstate] at hstP
    simp only [stateP] at hstP
    obtain ⟨j, hjlt, htfs, hw⟩ := hstP
    have htsw : it.token_start = S1 ∨ it.token_start = S2 ∨
        ∃ j2, j2 ≤ i + 1 ∧ it.token_start = bl src j2 := by
      rcases hts with h | h | ⟨j2, hj2, h⟩
      · exact Or.inl h
      · exact Or.inr (Or.inl h)
      · exact Or.inr (Or.inr ⟨j2, by omega, h⟩)
    simp only []
    split_ifs with h1 h2 h3
    · exact ⟨hi1, hsbl, hch, hq, htsw, trivial⟩
    · refine ⟨hi1, hsbl, hch, hq, htsw, ?_⟩
      simp only [stateP, hstate]
      exact ⟨j, by omega, htfs, hw⟩
    · refine ⟨hi1, hsbl, hch, ?_, Or.inl rfl, Or.inl rfl⟩
      refine tokOK_append2 hq
        (Token.BeginRaw ⟨it.token_function_start + 1, bl src i⟩)
        (Token.Whitespace (bl src i) (src.get ⟨i, hi⟩))
        ⟨j + 1, i, by omega, Nat.le_of_lt hi, hw.symm, rfl⟩ ?_ hbOK trivial
      show it.token_function_start + 1 < bl src i
      rw [← hw]
      exact bl_lt src hjlt (Nat.le_of_lt hi)
    · exact ⟨hi1, hsbl, hch, hq, htsw, trivial⟩
  case ReadingRaw =>
    rw [hstate] at hstP
    simp only [stateP] at hstP
    simp only []
    split_ifs <;>
      (refine ⟨hi1, hsbl, hch, hq, ?_, ?_⟩ <;>
        first
        | exact Or.inr (Or.inr ⟨i, by omega, rfl⟩)
        | (rcases hts with h | h | ⟨j2, hj2, h⟩
           · exact Or.inl h
           · exact Or.inr (Or.inl h)
           · exact Or.inr (Or.inr ⟨j2, by omega, h⟩))
        | (simp only [stateP, hstate]
           rcases hstP with h | ⟨j1, j2, hj12, hj2i, htrc, hts2⟩
           · first
             | exact Or.inr ⟨i, i, Nat.le_refl i, by omega, rfl, rfl⟩
             | exact ⟨i, i, Nat.le_refl i, by omega, rfl, rfl⟩
             | exact Or.inl h
             | exact absurd h (by assumption)
           · first
             | exact Or.inr ⟨j1, i, by omega, by omega, htrc, rfl⟩
             | exact ⟨j1, i, by omega, by omega, htrc, rfl⟩
             | exact Or.inr ⟨j1, j2, hj12, by omega, htrc, hts2⟩
             | exact ⟨j1, j2, hj12, by omega, htrc, hts2⟩
             | exact Or.inr ⟨i, i, Nat.le_refl i, by omega, rfl, rfl⟩
             | exact ⟨i, i, Nat.le_refl i, by omega, rfl, rfl⟩)
        | (rcases hstP with h | ⟨j1, j2, hj12, hj2i, htrc, hts2⟩
           · first
             | exact ⟨i, i, Nat.le_refl i, by omega, rfl, rfl⟩
             | exact absurd h (by assumption)
           · first
             | exact ⟨j1, i, by omega, by omega, htrc, rfl⟩
             | exact ⟨j1, j2, hj12, by omega, htrc, hts2⟩
             | exact ⟨i, i, Nat.le_refl i, by omega, rfl, rfl⟩))
  case EndRaw =>
    rw [hstate] at hstP
    simp only [stateP] at hstP
    obtain ⟨j1, j2, hj12, hj2i, htrc, hts2⟩ := hstP
    simp only []
    split_ifs with h1
    · exact popScope_invP src _ (by omega) hi1 hsbl hch
        (tokOK_append2 hq
          (Token.Text ⟨it.token_rawcontent_start, it.token_start⟩)
          (Token.EndRaw ⟨it.token_start, bl src i⟩)
          ⟨j1, j2, hj12, by omega, htrc, hts2⟩ trivial
          ⟨j2, i, hj2i, Nat.le_of_lt hi, hts2, rfl⟩ trivial)
        (Or.inl rfl) hstk
    · exact ⟨hi1, hsbl, hch, hq, Or.inr (Or.inr ⟨j2, by omega, hts2⟩), trivial⟩
  case ReadingCallName =>
    rw [hstate] at hstP
    simp only [stateP] at hstP
    obtain ⟨j, hjlt, hty⟩ := hstP
    simp only []
    split_ifs with h1 h2 h3
    · refine popScope_invP src _ (by omega) hi1 hsbl hch
        (tokOK_append2 hq
          (Token.Call ⟨it.token_start, bl src i⟩) (Token.EndFunction (bl src i))
          ⟨j, i, Nat.le_of_lt hjlt, Nat.le_of_lt hi, hty, rfl⟩ ?_ hbOK trivial)
        (Or.inl rfl) hstk
      show it.token_start < bl src i
      rw [hty]
      exact bl_lt src hjlt (Nat.le_of_lt hi)
    · refine ⟨hi1, hsbl, hch, ?_, Or.inr (Or.inl rfl), trivial⟩
      refine tokOK_append2 hq
        (Token.Call ⟨it.token_start, bl src i⟩)
        (Token.Whitespace (bl src i) (src.get ⟨i, hi⟩))
        ⟨j, i, Nat.le_of_lt hjlt, Nat.le_of_lt hi, hty, rfl⟩ ?_ hbOK trivial
      show it.token_start < bl src i
      rw [hty]
      exact bl_lt src hjlt (Nat.le_of_lt hi)
    · refine ⟨hi1, hsbl, hch, ?_, Or.inl rfl, Or.inl rfl⟩
      refine tokOK_append2 hq
        (Token.Call ⟨it.token_start, bl src i⟩) (Token.BeginArgs (bl src i))
        ⟨j, i, Nat.le_of_lt hjlt, Nat.le_of_lt hi, hty, rfl⟩ ?_ hbOK trivial
      show it.token_start < bl src i
      rw [hty]
      exact bl_lt src hjlt (Nat.le_of_lt hi)
    · refine ⟨hi1, hsbl, hch, hq, Or.inr (Or.inr ⟨j, by omega, hty⟩), ?_⟩
      simp only [stateP, hstate]
      exact ⟨j, by omega, hty⟩
  case FoundArgumentOpening =>
    rw [hstate] at hstP
    simp only [stateP] at hstP
    simp only []
    split_ifs with h1 h2 h3
    · exact ⟨hi1, hsbl, hch, hq, Or.inl h2, trivial⟩
    · rcases hstP with h | ⟨j, hj, hty⟩
      · exact absurd h h2
      · exact ⟨hi1, hsbl, hch,
          tokOK_append1 hq (Token.ArgKey ⟨it.token_start, bl src i⟩)
            ⟨j, i, hj, Nat.le_of_lt hi, hty, rfl⟩ trivial,
          Or.inr (Or.inl rfl), trivial⟩
    · refine ⟨hi1, hsbl, hch, hq, Or.inr (Or.inr ⟨i, by omega, rfl⟩), ?_⟩
      simp only [stateP, hstate]
      exact Or.inr ⟨i, by omega, rfl⟩
    · refine ⟨hi1, hsbl, hch, hq, ?_, ?_⟩
      · rcases hts with h | h | ⟨j, hj, h⟩
        · exact Or.inl h
        · exact Or.inr (Or.inl h)
        · exact Or.inr (Or.inr ⟨j, by omega, h⟩)
      · simp only [stateP, hstate]
        rcases hstP with h | ⟨j, hj, hty⟩
        · exact Or.inl h
        · exact Or.inr ⟨j, by omega, hty⟩
  case FoundArgumentClosing =>
    rw [hstate] at hstP
    simp only [stateP] at hstP
    obtain ⟨j, hj, hty⟩ := hstP
    rw [hstate] at htop
    simp only [stateTopOK, decide_eq_true_eq] at htop
    simp only []
    split_ifs with h1 h2 h3
    · exact ⟨hi1, hsbl, hch, hq, Or.inl rfl, Or.inl rfl⟩
    · rcases stack_shape_fun hstk htop with hs | ⟨r, hs⟩ | ⟨r, hs⟩
      · rw [popScope_single _ _ LexingScope.Function (by simp only []; rw [hs])]
        exact ⟨hi1, hsbl, hch,
          tokOK_append1
            (tokOK_append1 hq (Token.EndArgs it.token_start) ⟨j, by omega, hty⟩ trivial)
            (Token.EndFunction (bl src i)) hbOK trivial,
          Or.inl rfl, trivial⟩
      · rw [popScope_fun_content _ _ r (by simp only []; rw [hs])]
        exact ⟨hi1, hsbl, hch,
          tokOK_append1
            (tokOK_append1 hq (Token.EndArgs it.token_start) ⟨j, by omega, hty⟩ trivial)
            (Token.EndFunction (bl src i)) hbOK trivial,
          Or.inl rfl, trivial⟩
      · rw [popScope_fun_av _ _ r (by simp only []; rw [hs])]
        exact ⟨hi1, hsbl, hch,
          tokOK_append1
            (tokOK_append1 hq (Token.EndArgs it.token_start) ⟨j, by omega, hty⟩ trivial)
            (Token.EndFunction (bl src i)) hbOK trivial,
          Or.inl rfl, trivial⟩
    · exact ⟨hi1, hsbl, hch,
        tokOK_append2 hq (Token.EndArgs it.token_start)
          (Token.Whitespace (bl src i) (src.get ⟨i, hi⟩))
          ⟨j, by omega, hty⟩ trivial hbOK trivial,
        Or.inr (Or.inl rfl), trivial⟩
    · exact ⟨hi1, hsbl, hch, hq, Or.inr (Or.inr ⟨j, by omega, hty⟩), trivial⟩
  case Terminated =>
    simp only []
    refine ⟨hi1, hsbl, hch, hq, ?_, ?_⟩
    · rcases hts with h | h | ⟨j, hj, h⟩
      · exact Or.inl h
      · exact Or.inr (Or.inl h)
      · exact Or.inr (Or.inr ⟨j, by omega, h⟩)
    · simp only [stateP, hstate]

end LexingIterator

theorem bl_len (src : List Char) : bl src src.length = byteLen src := by
  unfold bl
  rw [List.take_length]

theorem charIndicesFrom_nil_iff {off : Nat} {l : List Char} :
    charIndicesFrom off l = [] ↔ l = [] := by
  cases l <;> simp [charIndicesFrom]

theorem tokOK_spec {src : List Char} {t : Token} (h : tokOK src t) :
    (∀ r, tokenRange t = some r →
      r.start ≤ r.stop ∧ r.stop ≤ byteLen src ∧
        IsBoundary src r.start ∧ IsBoundary src r.stop) ∧
    (∀ o, tokenOffset t = some o → IsBoundary src o) := by
  cases t <;>
    constructor <;>
    intro x hx <;>
    simp [tokenRange, tokenOffset] at hx <;>
    subst hx <;>
    first
    | exact h
    | (obtain ⟨i, j, hij, hj, e1, e2⟩ := h
       refine ⟨?_, ?_, ⟨i, Nat.le_trans hij hj, e1⟩, ⟨j, hj, e2⟩⟩
       · rw [e1, e2]
         exact bl_mono src hij
       · rw [e2]
         exact bl_le_len src j)

namespace LexingIterator

theorem progress_goodP {src : List Char} {it : LexingIterator}
    (hA : InvA it) (hG : GoodP src it) :
    GoodP src (progress it).2 ∧
      ∀ t, (progress it).1 = some t → tokOK src t ∧ tokStrict t := by
  obtain ⟨heof, herr, hterm, hpan, hstk, htop⟩ := hA
  unfold progress
  rcases hq : it.next_tokens with _ | ⟨t0, rest⟩
  · simp only
    by_cases hst : it.state = .Terminated
    · rw [if_pos hst]
      exact ⟨hG, fun t ht => by simp at ht⟩
    · rw [if_neg hst]
      rcases hc0 : it.chars with _ | ⟨⟨bo, c⟩, rest'⟩
      · -- input exhausted
        simp only
        have hsbl2 : it.source_byte_length = byteLen src := by
          rcases hG with ⟨i, hP⟩ | hPost
          · exact hP.sbl
          · exact hPost.1
        split_ifs with hfl
        · -- flush the final Text token
          refine ⟨Or.inr ⟨hsbl2, rfl, ?_, Or.inl rfl⟩, fun t ht => by simp at ht⟩
          intro t ht
          simp at ht
          subst ht
          rcases hG with ⟨i, hP⟩ | hPost
          · rcases hP.ts_ok with h | h | ⟨j, hj, h⟩
            · exact absurd h hfl.2.1
            · exact absurd h hfl.2.2
            · refine ⟨⟨j, src.length, Nat.le_trans hj hP.hi, Nat.le_refl _, h, ?_⟩, trivial⟩
              rw [hsbl2, bl_len]
          · rcases hPost.2.2.2 with h | h | h
            · exact absurd h hfl.1
            · exact absurd h hfl.2.1
            · exact absurd h hfl.2.2
        · -- EndOfFile
          refine ⟨Or.inr ⟨hsbl2, rfl, ?_, ?_⟩, ?_⟩
          · intro t ht
            simp at ht
          · by_cases h1 : it.token_start = it.source_byte_length
            · exact Or.inl h1
            · by_cases h2 : it.token_start = S1
              · exact Or.inr (Or.inl h2)
              · by_cases h3 : it.token_start = S2
                · exact Or.inr (Or.inr h3)
                · exact absurd ⟨h1, h2, h3⟩ hfl
          · intro t ht
            simp only [Option.some.injEq] at ht
            subst ht
            refine ⟨⟨src.length, Nat.le_refl _, ?_⟩, trivial⟩
            rw [hsbl2, bl_len]
      · -- consume one scalar
        simp only
        rcases hG with ⟨i, hP⟩ | hPost
        · obtain ⟨hi, hsbl, hch, hqok, htsok, hstok⟩ := hP
          have hne : List.drop i src ≠ [] := by
            intro hdp
            rw [hdp] at hch
            simp only [charIndicesFrom] at hch
            rw [hc0] at hch
            simp at hch
          have hilt : i < src.length := by
            rcases Nat.lt_or_ge i src.length with h | h
            · exact h
            · exact absurd (List.drop_eq_nil_of_le h) hne
          have hcons := chars_cons src hilt
          rw [hc0] at hch
          rw [hcons] at hch
          simp only [List.cons.injEq, Prod.mk.injEq] at hch
          obtain ⟨⟨hbo, hcc⟩, hrest⟩ := hch
          subst hbo
          subst hcc
          subst hrest
          have hres := stepChar_invP src { it with chars := charIndicesFrom (bl src (i + 1)) (List.drop (i + 1) src), next_tokens := ([] : List Token) } i hilt hsbl rfl (by intro t ht; simp at ht) htsok hstok hstk htop
          rcases hq1 : (stepChar { it with chars := charIndicesFrom (bl src (i + 1)) (List.drop (i + 1) src), next_tokens := ([] : List Token) } (bl src i) (src.get ⟨i, hilt⟩)).next_tokens with _ | ⟨t1, q1⟩
          · simp only
            exact ⟨Or.inl ⟨i + 1, hres⟩, fun t ht => by simp at ht⟩
          · simp only
            refine ⟨Or.inl ⟨i + 1, hres.hi, hres.sbl, hres.chars_eq, ?_, hres.ts_ok, hres.st_ok⟩, ?_⟩
            · intro t ht
              exact hres.queue_ok t (by rw [hq1]; exact List.mem_cons_of_mem _ ht)
            · intro t ht
              simp only [Option.some.injEq] at ht
              subst ht
              exact hres.queue_ok t1 (by rw [hq1]; exact List.mem_cons_self _ _)
        · -- PostP has no scalars left
          exact absurd hc0 (by rw [hPost.2.1]; simp)
  · simp only
    refine ⟨?_, ?_⟩
    · rcases hG with ⟨i, hP⟩ | hPost
      · refine Or.inl ⟨i, hP.hi, hP.sbl, hP.chars_eq, ?_, hP.ts_ok, hP.st_ok⟩
        intro t ht
        exact hP.queue_ok t (by rw [hq]; exact List.mem_cons_of_mem _ ht)
      · refine Or.inr ⟨hPost.1, hPost.2.1, ?_, hPost.2.2.2⟩
        intro t ht
        exact hPost.2.2.1 t (by rw [hq]; exact List.mem_cons_of_mem _ ht)
    · intro t ht
      simp only [Option.some.injEq] at ht
      subst ht
      rcases hG with ⟨i, hP⟩ | hPost
      · exact hP.queue_ok t0 (by rw [hq]; exact List.mem_cons_self _ _)
      · exact hPost.2.2.1 t0 (by rw [hq]; exact List.mem_cons_self _ _)

theorem lexNextF_goodP (src : List Char) : ∀ (fuel : Nat) (it : LexingIterator),
    InvA it → GoodP src it →
    GoodP src (lexNextF fuel it).2 ∧
      ∀ t, (lexNextF fuel it).1 = some (Except.ok t) → tokOK src t ∧ tokStrict t := by
  intro fuel
  induction fuel with
  | zero =>
    intro it hA hG
    exact ⟨hG, fun t ht => by simp [lexNextF] at ht⟩
  | succ fuel ih =>
    intro it hA hG
    unfold lexNextF
    rcases hp : progress it with ⟨r, it1⟩
    have hgp := progress_goodP hA hG
    rw [hp] at hgp
    have hA1 : InvA it1 := by
      have h0 := progress_invA hA
      rw [hp] at h0
      exact h0
    rcases r with _ | tok
    · simp only
      by_cases hterm : it1.state = .Terminated
      · simp only [if_pos hterm]
        rcases he : it1.occured_error with _ | e
        · simp only
          exact ⟨hgp.1, fun t ht => by simp at ht⟩
        · simp only
          refine ⟨?_, fun t ht => by simp at ht⟩
          rcases hgp.1 with ⟨i, hP⟩ | hPost
          · exact Or.inl ⟨i, hP.hi, hP.sbl, hP.chars_eq, hP.queue_ok, hP.ts_ok, hP.st_ok⟩
          · exact Or.inr ⟨hPost.1, hPost.2.1, hPost.2.2.1, hPost.2.2.2⟩
      · rw [if_neg hterm]
        exact ih it1 hA1 hgp.1
    · simp only
      refine ⟨hgp.1, ?_⟩
      intro t ht
      simp only [Option.some.injEq, Except.ok.injEq] at ht
      subst ht
      exact hgp.2 tok rfl

theorem lexNext_goodP {src : List Char} {it : LexingIterator}
    (hA : InvA it) (hG : GoodP src it) :
    GoodP src (lexNext it).2 ∧
      ∀ t, (lexNext it).1 = some (Except.ok t) → tokOK src t ∧ tokStrict t :=
  lexNextF_goodP src _ it hA hG

/-- The freshly created iterator satisfies the positions invariant at index 0. -/
theorem init_invP (src : List Char) : InvP src (init src) 0 := by
  refine ⟨Nat.zero_le _, rfl, ?_, ?_, Or.inr (Or.inr ⟨0, Nat.le_refl 0, (bl_zero src).symm⟩),
    trivial⟩
  · show charIndices src = charIndicesFrom (bl src 0) (List.drop 0 src)
    rw [bl_zero, List.drop_zero]
    rfl
  · intro t ht
    simp [init] at ht

theorem iterState_goodP (src : List Char) (n : Nat) :
    GoodP src (iterState (init src) n) := by
  induction n with
  | zero => exact Or.inl ⟨0, init_invP src⟩
  | succ n ihn =>
    show GoodP src (lexNext (iterState (init src) n)).2
    exact (lexNext_goodP (iterState_invA _ (init_invA src) n) ihn).1

/-- Every token the lexer ever yields carries sound boundary offsets, and its
`Call`/`BeginRaw` ranges are non-empty. -/
theorem outAt_tok_ok {src : List Char} {n : Nat} {t : Token}
    (h : outAt (init src) n = some (Except.ok t)) : tokOK src t ∧ tokStrict t := by
  have h2 := (lexNext_goodP (iterState_invA _ (init_invA src) n) (iterState_goodP src n)).2
  exact h2 t h

end LexingIterator

namespace Parser

theorem streamNamesOK_tail {src : List Char} {x : Except Error Token} {s : Stream}
    (h : streamNamesOK src (x :: s)) : streamNamesOK src s := by
  intro r hr
  apply h r
  rcases hr with h1 | h1
  · exact Or.inl (List.mem_cons_of_mem _ h1)
  · exact Or.inr (List.mem_cons_of_mem _ h1)

theorem insertArg_ok {args : List (String × List DocumentElement)}
    (h : ∀ p ∈ args, ∀ e ∈ p.2, NamesOK e) {k : String} {v : List DocumentElement}
    (hv : ∀ e ∈ v, NamesOK e) :
    ∀ p ∈ insertArg args k v, ∀ e ∈ p.2, NamesOK e := by
  intro p hp
  unfold insertArg at hp
  split_ifs at hp with h1
  · rw [List.mem_map] at hp
    obtain ⟨q, hq, hpe⟩ := hp
    subst hpe
    split_ifs with h2
    · exact hv
    · exact h q hq
  · rcases List.mem_append.mp hp with h2 | h2
    · exact h p h2
    · simp at h2
      subst h2
      exact hv

theorem acc_append_ok {acc : List DocumentElement} (h : ∀ e ∈ acc, NamesOK e)
    {el : DocumentElement} (he : NamesOK el) :
    ∀ e ∈ acc ++ [el], NamesOK e := by
  intro e hm
  rcases List.mem_append.mp hm with h1 | h1
  · exact h e h1
  · simp at h1
    subst h1
    exact he

theorem parseRaw_namesOK {src : List Char} {s : Stream} {el : DocumentElement}
    {s' : Stream} (hs : streamNamesOK src s) (h : parseRaw src s = .ok (el, s')) :
    NamesOK el ∧ streamNamesOK src s' := by
  unfold parseRaw at h
  rcases s with _ | ⟨x1, s1⟩
  · simp at h
  rcases x1 with e1 | tok1
  · simp at h
  cases tok1 <;> try simp at h
  case BeginRaw range =>
    rcases s1 with _ | ⟨x2, s2⟩
    · simp at h
    rcases x2 with e2 | tok2
    · simp at h
    cases tok2 <;> try simp at h
    case Whitespace o w =>
      rcases s2 with _ | ⟨x3, s3⟩
      · simp at h
      rcases x3 with e3 | tok3
      · simp at h
      cases tok3 <;> try simp at h
      case Text range3 =>
        rcases s3 with _ | ⟨x4, s4⟩
        · simp at h
        rcases x4 with e4 | tok4
        · simp at h
        cases tok4 <;> try simp at h
        case EndRaw range4 =>
          obtain ⟨h1, h2⟩ := h
          subst h1
          subst h2
          refine ⟨?_, ?_⟩
          · refine NamesOK.fn _ _ _ ?_ ?_ ?_
            · exact hs range (Or.inr (List.mem_cons_self _ _))
            · intro p hp e he
              simp at hp
              subst hp
              simp at he
              subst he
              exact NamesOK.text _
            · intro e he
              simp at he
              subst he
              exact NamesOK.text _
          · exact streamNamesOK_tail (streamNamesOK_tail (streamNamesOK_tail
              (streamNamesOK_tail hs)))

theorem parser_namesOK (src : List Char) : ∀ fuel : Nat,
    (∀ s el s', streamNamesOK src s →
      parseFunction src fuel s = .ok (el, s') → NamesOK el ∧ streamNamesOK src s') ∧
    (∀ name args s el s', streamNamesOK src s → name ≠ "" →
      (∀ p ∈ args, ∀ e ∈ p.2, NamesOK e) →
      parseFunctionTail src fuel name args s = .ok (el, s') →
      NamesOK el ∧ streamNamesOK src s') ∧
    (∀ args s args' s', streamNamesOK src s →
      (∀ p ∈ args, ∀ e ∈ p.2, NamesOK e) →
      parseArgsLoop src fuel args s = .ok (args', s') →
      (∀ p ∈ args', ∀ e ∈ p.2, NamesOK e) ∧ streamNamesOK src s') ∧
    (∀ s elems s', streamNamesOK src s →
      parseArgumentValue src fuel s = .ok (elems, s') →
      (∀ e ∈ elems, NamesOK e) ∧ streamNamesOK src s') ∧
    (∀ acc s elems s', streamNamesOK src s → (∀ e ∈ acc, NamesOK e) →
      parseAVLoop src fuel acc s = .ok (elems, s') →
      (∀ e ∈ elems, NamesOK e) ∧ streamNamesOK src s') ∧
    (∀ s elems s', streamNamesOK src s →
      parseContent src fuel s = .ok (elems, s') →
      (∀ e ∈ elems, NamesOK e) ∧ streamNamesOK src s') ∧
    (∀ acc s elems s', streamNamesOK src s → (∀ e ∈ acc, NamesOK e) →
      parseContentLoop src fuel acc s = .ok (elems, s') →
      (∀ e ∈ elems, NamesOK e) ∧ streamNamesOK src s') := by
  intro fuel
  induction fuel with
  | zero =>
    refine ⟨?_, ?_, ?_, ?_, ?_, ?_, ?_⟩
    · intro s el s' hs h
      simp [parseFunction] at h
    · intro name args s el s' hs hn ha h
      simp [parseFunctionTail] at h
    · intro args s args' s' hs ha h
      simp [parseArgsLoop] at h
    · intro s elems s' hs h
      simp [parseArgumentValue] at h
    · intro acc s elems s' hs ha h
      simp [parseAVLoop] at h
    · intro s elems s' hs h
      simp [parseContent] at h
    · intro acc s elems s' hs ha h
      simp [parseContentLoop] at h
  | succ fuel ih =>
    obtain ⟨ihF, ihFT, ihAL, ihAV, ihAVL, ihC, ihCL⟩ := ih
    refine ⟨?_, ?_, ?_, ?_, ?_, ?_, ?_⟩
    · -- parseFunction
      intro s el s' hs h
      simp only [parseFunction] at h
      rcases s with _ | ⟨x1, s1⟩
      · simp at h
      rcases x1 with e1 | tok1
      · simp at h
      cases tok1 <;> try simp at h
      case BeginFunction o1 =>
        rcases s1 with _ | ⟨x2, s2⟩
        · simp at h
        rcases x2 with e2 | tok2
        · simp at h
        cases tok2 <;> try simp at h
        case Call range =>
          have hs2 : streamNamesOK src s2 := streamNamesOK_tail (streamNamesOK_tail hs)
          have hname : sliceStr src range ≠ "" :=
            hs range (Or.inl (List.mem_cons_of_mem _ (List.mem_cons_self _ _)))
          split at h
          · simp at h
          · rename_i args0 s3 heq
            have hws : (∀ p ∈ args0, ∀ e ∈ p.2, NamesOK e) ∧ streamNamesOK src s3 := by
              split at heq
              · rename_i o3 w3 s4
                simp only [Except.ok.injEq, Prod.mk.injEq] at heq
                obtain ⟨hq1, hq2⟩ := heq
                subst hq1
                subst hq2
                refine ⟨?_, ?_⟩
                · intro p hp e he
                  simp at hp
                  subst hp
                  simp at he
                  subst he
                  exact NamesOK.text _
                · exact streamNamesOK_tail hs2
              · simp only [Except.ok.injEq, Prod.mk.injEq] at heq
                obtain ⟨hq1, hq2⟩ := heq
                subst hq1
                subst hq2
                exact ⟨fun p hp => by simp at hp, hs2⟩
            split at h
            · rename_i o4 s4
              split at h
              · simp at h
              · rename_i args1 s5 heq5
                have hal := ihAL args0 s4 args1 s5 (streamNamesOK_tail hws.2) hws.1 heq5
                rcases s5 with _ | ⟨x6, s6⟩
                · simp at h
                rcases x6 with e6 | tok6
                · simp at h
                cases tok6 <;> try simp at h
                case EndArgs o6 =>
                  split at h
                  · rename_i o7 w7 s7
                    refine ihFT _ _ _ _ _ ?_ hname ?_ h
                    · exact streamNamesOK_tail (streamNamesOK_tail hal.2)
                    · exact insertArg_ok hal.1 (by
                        intro e he
                        simp at he
                        subst he
                        exact NamesOK.text _)
                  · refine ihFT _ _ _ _ _ (streamNamesOK_tail hal.2) hname hal.1 h
            · exact ihFT _ _ _ _ _ hws.2 hname hws.1 h
    · -- parseFunctionTail
      intro name args s el s' hs hn ha h
      simp only [parseFunctionTail] at h
      split at h
      · simp at h
      · rename_i content s1 heq
        have hcs : (∀ e ∈ content, NamesOK e) ∧ streamNamesOK src s1 := by
          split at heq
          · rename_i o2 s2
            exact ihC _ _ _ hs heq
          · simp only [Except.ok.injEq, Prod.mk.injEq] at heq
            obtain ⟨hq1, hq2⟩ := heq
            subst hq1
            subst hq2
            exact ⟨fun e he => by simp at he, hs⟩
        rcases s1 with _ | ⟨x2, s2⟩
        · simp at h
        rcases x2 with e2 | tok2
        · simp at h
        cases tok2 <;> try simp at h
        case EndFunction o2 =>
          obtain ⟨h1, h2⟩ := h
          subst h1
          subst h2
          exact ⟨NamesOK.fn _ _ _ hn ha hcs.1, streamNamesOK_tail hcs.2⟩
    · -- parseArgsLoop
      intro args s args' s' hs ha h
      simp only [parseArgsLoop] at h
      split at h
      · rename_i r0 tail
        simp only at h
        split at h
        · simp at h
        · rename_i v s2 heq
          have hav := ihAV _ _ _ (streamNamesOK_tail hs) heq
          exact ihAL _ _ _ _ hav.2 (insertArg_ok ha hav.1) h
      · simp only [Except.ok.injEq, Prod.mk.injEq] at h
        obtain ⟨h1, h2⟩ := h
        subst h1
        subst h2
        exact ⟨ha, hs⟩
    · -- parseArgumentValue
      intro s elems s' hs h
      simp only [parseArgumentValue] at h
      rcases s with _ | ⟨x1, s1⟩
      · simp at h
      rcases x1 with e1 | tok1
      · simp at h
      cases tok1 <;> try simp at h
      case BeginArgValue o1 =>
        split at h
        · simp at h
        · rename_i elems1 s2 heq
          have havl := ihAVL [] s1 elems1 s2 (streamNamesOK_tail hs)
            (fun e he => by simp at he) heq
          rcases s2 with _ | ⟨x3, s3⟩
          · simp at h
          rcases x3 with e3 | tok3
          · simp at h
          cases tok3 <;> try simp at h
          case EndArgValue o3 =>
            obtain ⟨h1, h2⟩ := h
            subst h1
            subst h2
            exact ⟨havl.1, streamNamesOK_tail havl.2⟩
    · -- parseAVLoop
      intro acc s elems s' hs ha h
      simp only [parseAVLoop] at h
      rcases s with _ | ⟨x1, s1⟩
      · simp at h
      rcases x1 with e1 | tok1
      · simp at h
      cases tok1 <;> try simp at h
      case BeginFunction o1 =>
        split at h
        · simp at h
        · rename_i func s2 heq
          have hf := ihF _ _ _ hs heq
          exact ihAVL _ _ _ _ hf.2 (acc_append_ok ha hf.1) h
      case BeginRaw r1 =>
        split at h
        · simp at h
        · rename_i el2 s2 heq
          have hr := parseRaw_namesOK hs heq
          exact ihAVL _ _ _ _ hr.2 (acc_append_ok ha hr.1) h
      case Text r1 =>
        exact ihAVL _ _ _ _ (streamNamesOK_tail hs)
          (acc_append_ok ha (NamesOK.text _)) h
      case EndArgValue o1 =>
        obtain ⟨h1, h2⟩ := h
        subst h1
        subst h2
        exact ⟨ha, hs⟩
    · -- parseContent
      intro s elems s' hs h
      simp only [parseContent] at h
      rcases s with _ | ⟨x1, s1⟩
      · simp at h
      rcases x1 with e1 | tok1
      · simp at h
      cases tok1 <;> try simp at h
      case BeginContent o1 =>
        split at h
        · simp at h
        · rename_i elems1 s2 heq
          have hcl := ihCL [] s1 elems1 s2 (streamNamesOK_tail hs)
            (fun e he => by simp at he) heq
          rcases s2 with _ | ⟨x3, s3⟩
          · simp at h
          rcases x3 with e3 | tok3
          · simp at h
          cases tok3 <;> try simp at h
          case EndContent o3 =>
            obtain ⟨h1, h2⟩ := h
            subst h1
            subst h2
            exact ⟨hcl.1, streamNamesOK_tail hcl.2⟩
    · -- parseContentLoop
      intro acc s elems s' hs ha h
      simp only [parseContentLoop] at h
      rcases s with _ | ⟨x1, s1⟩
      · simp at h
      rcases x1 with e1 | tok1
      · simp at h
      cases tok1 <;> try simp at h
      case BeginFunction o1 =>
        split at h
        · simp at h
        · rename_i func s2 heq
          have hf := ihF _ _ _ hs heq
          exact ihCL _ _ _ _ hf.2 (acc_append_ok ha hf.1) h
      case BeginRaw r1 =>
        split at h
        · simp at h
        · rename_i el2 s2 heq
          have hr := parseRaw_namesOK hs heq
          exact ihCL _ _ _ _ hr.2 (acc_append_ok ha hr.1) h
      case Text r1 =>
        exact ihCL _ _ _ _ (streamNamesOK_tail hs)
          (acc_append_ok ha (NamesOK.text _)) h
      case EndContent o1 =>
        obtain ⟨h1, h2⟩ := h
        subst h1
        subst h2
        exact ⟨ha, hs⟩

end Parser

theorem mem_charIndicesFrom : ∀ (l : List Char) (off k : Nat) (hk : k < l.length),
    (off + bl l k, l.get ⟨k, hk⟩) ∈ charIndicesFrom off l := by
  intro l
  induction l with
  | nil =>
    intro off k hk
    simp at hk
  | cons c rest ih =>
    intro off k hk
    cases k with
    | zero =>
      simp only [charIndicesFrom]
      exact List.mem_cons.mpr (Or.inl (by simp [bl_zero]))
    | succ k =>
      simp only [charIndicesFrom]
      refine List.mem_cons.mpr (Or.inr ?_)
      have hk' : k < rest.length := by simpa using hk
      have hmem := ih (off + utf8Width c) k hk'
      have heq : off + bl (c :: rest) (k + 1) = off + utf8Width c + bl rest k := by
        unfold bl
        rw [List.take_succ_cons, byteLen_cons]
        omega
      rw [heq]
      exact hmem

theorem sliceStr_ne_empty {src : List Char} {r : ByteRange}
    (h1 : rangeOK src r) (h2 : r.start < r.stop) : sliceStr src r ≠ "" := by
  obtain ⟨i, j, hij, hj, e1, e2⟩ := h1
  have hilt : i < j := by
    rcases Nat.lt_or_ge i j with h | h
    · exact h
    · have hie : i = j := by omega
      subst hie
      rw [e1, e2] at h2
      omega
  have hisrc : i < src.length := Nat.lt_of_lt_of_le hilt hj
  have hmem : (bl src i, src.get ⟨i, hisrc⟩) ∈ charIndices src := by
    have hm0 := mem_charIndicesFrom src 0 i hisrc
    simpa [charIndices] using hm0
  intro hcon
  unfold sliceStr at hcon
  have hlist : sliceB src r.start r.stop = [] := by
    have hdata := congrArg String.data hcon
    simpa using hdata
  unfold sliceB at hlist
  rw [List.map_eq_nil] at hlist
  have hin : (bl src i, src.get ⟨i, hisrc⟩) ∈
      (charIndices src).filter (fun p => decide (r.start ≤ p.1 ∧ p.1 < r.stop)) := by
    rw [List.mem_filter]
    refine ⟨hmem, ?_⟩
    have c1 : r.start ≤ bl src i := by rw [e1]
    have c2 : bl src i < r.stop := by
      rw [e2]
      exact bl_lt src hilt hj
    simp [c1, c2]
  rw [hlist] at hin
  simp at hin

namespace LexingIterator

theorem runLexF_tok_ok (src : List Char) : ∀ (fuel : Nat) (it : LexingIterator),
    InvA it → GoodP src it →
    ∀ t ∈ (runLexF fuel it).1, tokOK src t ∧ tokStrict t := by
  intro fuel
  induction fuel with
  | zero =>
    intro it hA hG t ht
    simp [runLexF] at ht
  | succ fuel ih =>
    intro it hA hG t ht
    rw [runLexF] at ht
    rcases hp : lexNext it with ⟨r, it'⟩
    rw [hp] at ht
    have hx := lexNext_goodP hA hG
    rw [hp] at hx
    have hA' : InvA it' := by
      have h0 := lexNext_invA hA
      rw [hp] at h0
      exact h0
    rcases r with _ | (e | t0)
    · simp at ht
    · simp at ht
    · simp at ht
      rcases ht with ht | ht
      · subst ht
        exact hx.2 t rfl
      · exact ih it' hA' hx.1 t ht

end LexingIterator

namespace Parser

theorem consumeLoop_namesOK (src : List Char) :
    ∀ (fuel : Nat) (acc : List DocumentElement) (s : Stream)
      (elems : List DocumentElement),
    streamNamesOK src s → (∀ e ∈ acc, NamesOK e) →
    consumeLoop src fuel acc s = .ok elems →
    ∀ e ∈ elems, NamesOK e := by
  intro fuel
  induction fuel with
  | zero =>
    intro acc s elems hs ha h
    simp [consumeLoop] at h
  | succ fuel ih =>
    intro acc s elems hs ha h
    simp only [consumeLoop] at h
    rcases s with _ | ⟨x1, s1⟩
    · simp at h
    rcases x1 with e1 | tok1
    · simp at h
    cases tok1 <;> try simp at h
    case BeginFunction o1 =>
      split at h
      · simp at h
      · rename_i func s2 heq
        have hf := (parser_namesOK src _).1 _ _ _ hs heq
        exact ih _ _ _ hf.2 (acc_append_ok ha hf.1) h
    case BeginRaw r1 =>
      split at h
      · simp at h
      · rename_i el2 s2 heq
        have hr := parseRaw_namesOK hs heq
        exact ih _ _ _ hr.2 (acc_append_ok ha hr.1) h
    case Text r1 =>
      exact ih _ _ _ (streamNamesOK_tail hs) (acc_append_ok ha (NamesOK.text _)) h
    case EndOfFile o1 =>
      first
      | (simp only [Except.ok.injEq] at h
         subst h
         exact ha)
      | (subst h
         exact ha)
      | (rw [← h]
         exact ha)

/-- C9, parser half: a successful parse only builds functions with non-empty
names, provided the stream's `Call`/`BeginRaw` slices are non-empty. -/
theorem parseDocument_namesOK {src : List Char} {elems : List DocumentElement}
    (hs : streamNamesOK src (streamOf src))
    (h : parseDocument src = .ok elems) : ∀ e ∈ elems, NamesOK e :=
  consumeLoop_namesOK src _ [] _ _ hs (fun e he => by simp at he) h

/-- C9, lexer half transported to the parser's stream. -/
theorem streamOf_namesOK (src : List Char) : streamNamesOK src (streamOf src) := by
  have hmem : ∀ (tk : Token), Except.ok tk ∈ streamOf src →
      tokOK src tk ∧ tokStrict tk := by
    intro tk hm
    unfold streamOf at hm
    simp only [] at hm
    rcases List.mem_append.mp hm with h1 | h1
    · rw [List.mem_map] at h1
      obtain ⟨t0, ht0, he⟩ := h1
      have ht : t0 = tk := by simpa using he
      subst ht
      exact LexingIterator.runLexF_tok_ok src _ _ (LexingIterator.init_invA src)
        (Or.inl ⟨0, LexingIterator.init_invP src⟩) t0 ht0
    · rcases hE : (LexingIterator.runLex (LexingIterator.init src)).2 with _ | e <;>
        rw [hE] at h1 <;> simp at h1
  intro r hr
  rcases hr with h1 | h1
  · have h2 := hmem _ h1
    exact sliceStr_ne_empty h2.1 h2.2
  · have h2 := hmem _ h1
    exact sliceStr_ne_empty h2.1 h2.2

end Parser

open LexingIterator in
/-- C7: every token the lexer emits carries sound positions: a range is
ordered, ends within the source, and both ends are UTF-8 scalar boundaries;
a single offset is a scalar boundary (`|source|` included). -/
theorem C7_token_boundaries (src : List Char) (n : Nat) (t : Token)
    (h : outAt (init src) n = some (Except.ok t)) :
    (∀ r, tokenRange t = some r →
      r.start ≤ r.stop ∧ r.stop ≤ byteLen src ∧
        IsBoundary src r.start ∧ IsBoundary src r.stop) ∧
    (∀ o, tokenOffset t = some o → IsBoundary src o) :=
  tokOK_spec (outAt_tok_ok h).1

open LexingIterator in
/-- Witness for C7: the `Call` token of `"{call[=val]}"` at step 1. -/
theorem C7_token_boundaries_witness :
    (∀ r, tokenRange (Token.Call ⟨1, 5⟩) = some r →
      r.start ≤ r.stop ∧ r.stop ≤ byteLen "{call[=val]}".toList ∧
        IsBoundary "{call[=val]}".toList r.start ∧
        IsBoundary "{call[=val]}".toList r.stop) ∧
    (∀ o, tokenOffset (Token.Call ⟨1, 5⟩) = some o →
      IsBoundary "{call[=val]}".toList o) :=
  C7_token_boundaries "{call[=val]}".toList 1 (Token.Call ⟨1, 5⟩) (by decide)

open LexingIterator Parser in
/-- C9: every `Call` token the lexer emits has a non-empty range, and a
successful parse therefore only contains document functions with non-empty
names (the synthetic root aside). -/
theorem C9_nonempty_call_names (src : List Char) :
    (∀ n r, outAt (init src) n = some (Except.ok (Token.Call r)) →
      r.start < r.stop) ∧
    (∀ elems, parseDocument src = Except.ok elems → ∀ e ∈ elems, NamesOK e) := by
  constructor
  · intro n r h
    exact (outAt_tok_ok h).2
  · intro elems h
    exact parseDocument_namesOK (streamOf_namesOK src) h

open LexingIterator in
/-- C2 fails as stated: lexing `"\x7b<<"` succeeds, but the emitted tokens are
`Text(1..3)` and `EndOfFile` only, so no concatenation of token slices and
announced structural characters can restore the `{` at byte 0; the
specification's reconstruction yields `"<<"`. -/
theorem C2_round_trip_counterexample :
    (runLex (init "\x7b<<".toList)).2 = none ∧
    runLex (init "\x7b<<".toList) = ([Token.Text ⟨1, 3⟩, Token.EndOfFile 3], none) ∧
    specReconstruct "\x7b<<".toList = "<<".toList ∧
    specReconstruct "\x7b<<".toList ≠ "\x7b<<".toList := by
  refine ⟨by decide, by decide, by decide, by decide⟩

theorem charIndicesFrom_fst_ge : ∀ (l : List Char) (off : Nat) (p : Nat × Char),
    p ∈ charIndicesFrom off l → off ≤ p.1 := by
  intro l
  induction l with
  | nil =>
    intro off p hp
    simp [charIndicesFrom] at hp
  | cons c t ih =>
    intro off p hp
    simp only [charIndicesFrom, List.mem_cons] at hp
    rcases hp with hp | hp
    · subst hp
      exact Nat.le_refl _
    · have := ih (off + utf8Width c) p hp
      omega

theorem bl_cons_succ (c : Char) (t : List Char) (k : Nat) :
    bl (c :: t) (k + 1) = utf8Width c + bl t k := by
  unfold bl
  rw [List.take_succ_cons, byteLen_cons]

theorem filter_charIndicesFrom : ∀ (l : List Char) (off a b : Nat), a ≤ b → b ≤ l.length →
    ((charIndicesFrom off l).filter
      (fun p => decide (off + bl l a ≤ p.1 ∧ p.1 < off + bl l b))).map (·.2) =
      (l.take b).drop a := by
  intro l
  induction l with
  | nil =>
    intro off a b hab hb
    simp at hb
    subst hb
    have ha : a = 0 := Nat.le_zero.mp hab
    subst ha
    simp [charIndicesFrom]
  | cons c t ih =>
    intro off a b hab hb
    have hw := utf8Width_pos c
    cases b with
    | zero =>
      have ha : a = 0 := Nat.le_zero.mp hab
      subst ha
      have hf : ∀ p ∈ charIndicesFrom off (c :: t),
          ¬((fun p : Nat × Char =>
            decide (off + bl (c :: t) 0 ≤ p.1 ∧ p.1 < off + bl (c :: t) 0)) p = true) := by
        intro p hp
        simp only [bl_zero, Nat.add_zero, decide_eq_true_eq]
        omega
      rw [List.filter_eq_nil.mpr hf]
      simp
    | succ b' =>
      have hbl : b' ≤ t.length := by simpa using hb
      cases a with
      | zero =>
        simp only [charIndicesFrom, List.filter_cons]
        have hcond : (decide (off + bl (c :: t) 0 ≤ off ∧ off < off + bl (c :: t) (b' + 1)))
            = true := by
          simp only [bl_zero, Nat.add_zero, decide_eq_true_eq, bl_cons_succ]
          omega
        rw [hcond]
        simp only [if_true, List.map_cons]
        have hcongr : ∀ p ∈ charIndicesFrom (off + utf8Width c) t,
            (fun p : Nat × Char =>
              decide (off + bl (c :: t) 0 ≤ p.1 ∧ p.1 < off + bl (c :: t) (b' + 1))) p =
            (fun p : Nat × Char =>
              decide (off + utf8Width c + bl t 0 ≤ p.1 ∧
                p.1 < off + utf8Width c + bl t b')) p := by
          intro p hp
          have hge := charIndicesFrom_fst_ge t (off + utf8Width c) p hp
          simp only [bl_zero, Nat.add_zero, bl_cons_succ]
          rw [decide_eq_decide]
          omega
        rw [List.filter_congr hcongr]
        have hih := ih (off + utf8Width c) 0 b' (Nat.zero_le _) hbl
        simp only [List.drop_zero] at hih ⊢
        rw [hih]
        simp [List.take_succ_cons]
      | succ a' =>
        simp only [charIndicesFrom, List.filter_cons]
        have hcond : (decide (off + bl (c :: t) (a' + 1) ≤ off ∧
            off < off + bl (c :: t) (b' + 1))) = false := by
          simp only [decide_eq_false_iff_not, bl_cons_succ]
          have hblt : 0 ≤ bl t a' := Nat.zero_le _
          omega
        rw [hcond]
        simp only [Bool.false_eq_true, if_false]
        have hcongr : ∀ p ∈ charIndicesFrom (off + utf8Width c) t,
            (fun p : Nat × Char =>
              decide (off + bl (c :: t) (a' + 1) ≤ p.1 ∧
                p.1 < off + bl (c :: t) (b' + 1))) p =
            (fun p : Nat × Char =>
              decide (off + utf8Width c + bl t a' ≤ p.1 ∧
                p.1 < off + utf8Width c + bl t b')) p := by
          intro p hp
          simp only [bl_cons_succ]
          rw [decide_eq_decide]
          omega
        rw [List.filter_congr hcongr]
        have hih := ih (off + utf8Width c) a' b' (by omega) hbl
        rw [hih]
        simp [List.take_succ_cons]

theorem sliceB_take_drop (src : List Char) {a b : Nat} (hab : a ≤ b) (hb : b ≤ src.length) :
    sliceB src (bl src a) (bl src b) = (src.take b).drop a := by
  unfold sliceB charIndices
  have h := filter_charIndicesFrom src 0 a b hab hb
  simpa using h

theorem sliceB_self (src : List Char) (x : Nat) : sliceB src x x = [] := by
  unfold sliceB
  rw [List.filter_eq_nil.mpr]
  · rfl
  · intro p hp
    simp only [decide_eq_true_eq]
    omega

theorem sliceB_extend (src : List Char) {a i : Nat} (ha : a ≤ i) (hi : i < src.length) :
    sliceB src (bl src a) (bl src (i + 1)) =
      sliceB src (bl src a) (bl src i) ++ [src.get ⟨i, hi⟩] := by
  rw [sliceB_take_drop src (by omega) hi, sliceB_take_drop src ha (Nat.le_of_lt hi)]
  rw [List.take_succ, List.getElem?_eq_getElem hi]
  rw [List.drop_append_of_le_length (by rw [List.length_take]; omega)]
  rfl

theorem sliceB_one (src : List Char) {j : Nat} (hj : j < src.length) :
    sliceB src (bl src j) (bl src (j + 1)) = [src.get ⟨j, hj⟩] := by
  rw [sliceB_extend src (Nat.le_refl j) hj, sliceB_self]
  rfl

theorem sliceB_concat (src : List Char) {a b c0 : Nat} (hab : a ≤ b) (hbc : b ≤ c0)
    (hc : c0 ≤ src.length) :
    sliceB src (bl src a) (bl src b) ++ sliceB src (bl src b) (bl src c0) =
      sliceB src (bl src a) (bl src c0) := by
  rw [sliceB_take_drop src hab (Nat.le_trans hbc hc), sliceB_take_drop src hbc hc,
    sliceB_take_drop src (Nat.le_trans hab hbc) hc]
  have h1 : src.take c0 = src.take b ++ (src.take c0).drop b := by
    conv_lhs => rw [← List.take_append_drop b (src.take c0)]
    rw [List.take_take, Nat.min_eq_left hbc]
  conv_rhs => rw [h1]
  rw [List.drop_append_of_le_length (by rw [List.length_take]; omega)]

theorem sliceB_drop (src : List Char) {i : Nat} (hi : i ≤ src.length) :
    sliceB src (bl src i) (bl src src.length) = List.drop i src := by
  rw [sliceB_take_drop src hi (Nat.le_refl _)]
  simp

theorem charIndicesFrom_length : ∀ (l : List Char) (off : Nat),
    (charIndicesFrom off l).length = l.length := by
  intro l
  induction l with
  | nil =>
    intro off
    rfl
  | cons c t ih =>
    intro off
    simp [charIndicesFrom, ih]

namespace LexingIterator

theorem eraseQ_fields {A B : LexingIterator} (h : eraseQ A = eraseQ B) :
    A.state = B.state ∧ A.source_byte_length = B.source_byte_length ∧
    A.token_start = B.token_start ∧ A.token_function_start = B.token_function_start ∧
    A.token_rawcontent_start = B.token_rawcontent_start ∧
    A.raw_delimiter_length = B.raw_delimiter_length ∧
    A.raw_delimiter_read = B.raw_delimiter_read ∧ A.chars = B.chars ∧
    A.stack = B.stack ∧ A.occured_error = B.occured_error ∧ A.panicked = B.panicked := by
  obtain ⟨sA, bA, tA, fA, rA, dA, eA, cA, kA, qA, oA, pA⟩ := A
  obtain ⟨sB, bB, tB, fB, rB, dB, eB, cB, kB, qB, oB, pB⟩ := B
  simp only [eraseQ, LexingIterator.mk.injEq] at h
  obtain ⟨h1, h2, h3, h4, h5, h6, h7, h8, h9, h10, h11, h12⟩ := h
  exact ⟨h1, h2, h3, h4, h5, h6, h7, h8, h9, h11, h12⟩

theorem eraseQ_ext {A B : LexingIterator} (h1 : A.state = B.state)
    (h2 : A.source_byte_length = B.source_byte_length)
    (h3 : A.token_start = B.token_start)
    (h4 : A.token_function_start = B.token_function_start)
    (h5 : A.token_rawcontent_start = B.token_rawcontent_start)
    (h6 : A.raw_delimiter_length = B.raw_delimiter_length)
    (h7 : A.raw_delimiter_read = B.raw_delimiter_read)
    (h8 : A.chars = B.chars) (h9 : A.stack = B.stack)
    (h10 : A.occured_error = B.occured_error) (h11 : A.panicked = B.panicked) :
    eraseQ A = eraseQ B := by
  obtain ⟨sA, bA, tA, fA, rA, dA, eA, cA, kA, qA, oA, pA⟩ := A
  obtain ⟨sB, bB, tB, fB, rB, dB, eB, cB, kB, qB, oB, pB⟩ := B
  simp only at h1 h2 h3 h4 h5 h6 h7 h8 h9 h10 h11
  simp [eraseQ, h1, h2, h3, h4, h5, h6, h7, h8, h9, h10, h11]

theorem popScopeF_eraseQ : ∀ (f : Nat) (X Y : LexingIterator) (bo : Nat),
    eraseQ X = eraseQ Y → eraseQ (popScopeF f X bo) = eraseQ (popScopeF f Y bo) := by
  intro f
  induction f with
  | zero =>
    intro X Y bo h
    exact h
  | succ f ih =>
    intro X Y bo h
    obtain ⟨sX, bX, tX, fX, rX, dX, eX, cX, kX, qX, oX, pX⟩ := X
    obtain ⟨sY, bY, tY, fY, rY, dY, eY, cY, kY, qY, oY, pY⟩ := Y
    simp only [eraseQ, LexingIterator.mk.injEq] at h
    obtain ⟨h1, h2, h3, h4, h5, h6, h7, h8, h9, h10, h11, h12⟩ := h
    subst h1
    subst h2
    subst h3
    subst h4
    subst h5
    subst h6
    subst h7
    subst h8
    subst h9
    subst h11
    subst h12
    unfold popScopeF
    rcases kX with _ | ⟨a, _ | ⟨b, r⟩⟩
    · simp [eraseQ]
    · simp [eraseQ]
    · cases a <;> cases b
      case Content.Function =>
        have h := ih
          { state := sX, source_byte_length := bX, token_start := tX,
            token_function_start := fX, token_rawcontent_start := rX,
            raw_delimiter_length := dX, raw_delimiter_read := eX, chars := cX,
            stack := LexingScope.Function :: r,
            next_tokens := qX ++ [Token.EndFunction bo], occured_error := oX,
            panicked := pX }
          { state := sX, source_byte_length := bX, token_start := tX,
            token_function_start := fX, token_rawcontent_start := rX,
            raw_delimiter_length := dX, raw_delimiter_read := eX, chars := cX,
            stack := LexingScope.Function :: r,
            next_tokens := qY ++ [Token.EndFunction bo], occured_error := oX,
            panicked := pX } bo (by simp [eraseQ])
        obtain ⟨f1, f2, f3, f4, f5, f6, f7, f8, f9, f10, f11⟩ := eraseQ_fields h
        exact eraseQ_ext f1 f2 rfl f4 f5 f6 f7 f8 f9 f10 f11
      all_goals simp [eraseQ]

theorem stepChar_eraseQ : ∀ (X Y : LexingIterator) (bo : Nat) (c : Char),
    eraseQ X = eraseQ Y → eraseQ (stepChar X bo c) = eraseQ (stepChar Y bo c) := by
  intro X Y bo c h
  obtain ⟨sX, bX, tX, fX, rX, dX, eX, cX, kX, qX, oX, pX⟩ := X
  obtain ⟨sY, bY, tY, fY, rY, dY, eY, cY, kY, qY, oY, pY⟩ := Y
  simp only [eraseQ, LexingIterator.mk.injEq] at h
  obtain ⟨h1, h2, h3, h4, h5, h6, h7, h8, h9, h10, h11, h12⟩ := h
  subst h1
  subst h2
  subst h3
  subst h4
  subst h5
  subst h6
  subst h7
  subst h8
  subst h9
  subst h11
  subst h12
  unfold stepChar
  cases sX
  case FoundArgumentClosing =>
    simp only []
    split_ifs
    · simp [eraseQ]
    · have h := popScopeF_eraseQ (kX.length + 1)
        { state := LexingState.FoundArgumentClosing, source_byte_length := bX,
          token_start := tX, token_function_start := fX, token_rawcontent_start := rX,
          raw_delimiter_length := dX, raw_delimiter_read := eX, chars := cX, stack := kX,
          next_tokens := qX ++ [Token.EndArgs tX], occured_error := oX, panicked := pX }
        { state := LexingState.FoundArgumentClosing, source_byte_length := bX,
          token_start := tX, token_function_start := fX, token_rawcontent_start := rX,
          raw_delimiter_length := dX, raw_delimiter_read := eX, chars := cX, stack := kX,
          next_tokens := qY ++ [Token.EndArgs tX], occured_error := oX, panicked := pX }
        bo (by simp [eraseQ])
      obtain ⟨f1, f2, f3, f4, f5, f6, f7, f8, f9, f10, f11⟩ := eraseQ_fields h
      exact eraseQ_ext f1 f2 rfl rfl f5 f6 f7 f8 f9 f10 f11
    · simp [eraseQ, pushScope]
    · simp [eraseQ]
  all_goals
    simp only []
    first
    | (split_ifs <;>
        first
        | (simp [eraseQ, pushScope]; done)
        | exact popScopeF_eraseQ _ _ _ _ (by simp [eraseQ]))
    | simp [eraseQ]

theorem consumeF_eraseQ : ∀ (f : Nat) (X Y : LexingIterator),
    eraseQ X = eraseQ Y → eraseQ (consumeF f X) = eraseQ (consumeF f Y) := by
  intro f
  induction f with
  | zero =>
    intro X Y h
    exact h
  | succ f ih =>
    intro X Y h
    obtain ⟨f1, f2, f3, f4, f5, f6, f7, f8, f9, f10, f11⟩ := eraseQ_fields h
    unfold consumeF
    rw [f1, f8]
    split_ifs
    · exact h
    · rcases hc : Y.chars with _ | ⟨⟨bo, c⟩, rest⟩
      · exact h
      · simp only []
        apply ih
        apply stepChar_eraseQ
        exact eraseQ_ext rfl f2 f3 f4 f5 f6 f7 rfl f9 f10 f11

theorem consumeF_congr : ∀ (f g : Nat) (it : LexingIterator),
    it.chars.length < f → it.chars.length < g → consumeF f it = consumeF g it := by
  intro f
  induction f with
  | zero =>
    intro g it hf hg
    omega
  | succ f ih =>
    intro g it hf hg
    match g, hg with
    | g + 1, hg =>
      unfold consumeF
      split_ifs
      · rfl
      · rcases hc : it.chars with _ | ⟨⟨bo, c⟩, rest⟩
        · rfl
        · simp only []
          apply ih
          · have h2 : (stepChar { it with chars := rest } bo c).chars = rest := by
              rw [stepChar_chars]
            rw [h2]
            rw [hc] at hf
            simp at hf
            omega
          · have h2 : (stepChar { it with chars := rest } bo c).chars = rest := by
              rw [stepChar_chars]
            rw [h2]
            rw [hc] at hg
            simp at hg
            omega

theorem consumeF_step {it : LexingIterator} {bo : Nat} {c : Char}
    {rest : List (Nat × Char)} (hst : it.state ≠ .Terminated)
    (hc : it.chars = (bo, c) :: rest) (f : Nat) :
    consumeF (f + 1) it = consumeF f (stepChar { it with chars := rest } bo c) := by
  conv_lhs => unfold consumeF
  rw [if_neg hst, hc]

theorem consumeF_past {it : LexingIterator} (hc : it.chars = []) :
    ∀ f, consumeF f it = it := by
  intro f
  cases f with
  | zero => rfl
  | succ f =>
    unfold consumeF
    split_ifs
    · rfl
    · rw [hc]

theorem tracksFinal_queue {src : List Char} {it : LexingIterator}
    (h : tracksFinal src it) (q : List Token) :
    tracksFinal src { it with next_tokens := q } := by
  unfold tracksFinal at h ⊢
  rw [← h]
  exact consumeF_eraseQ _ _ _ (by simp [eraseQ])

theorem tracksFinal_step {src : List Char} {it : LexingIterator} {bo : Nat} {c : Char}
    {rest : List (Nat × Char)} (hst : it.state ≠ .Terminated)
    (hc : it.chars = (bo, c) :: rest) (h : tracksFinal src it) :
    tracksFinal src (stepChar { it with chars := rest } bo c) := by
  unfold tracksFinal at h ⊢
  rw [← h]
  have h2 : (stepChar { it with chars := rest } bo c).chars = rest := by
    rw [stepChar_chars]
  rw [h2]
  conv_rhs => rw [hc]
  simp only [List.length_cons]
  rw [consumeF_step hst hc (rest.length + 1)]

theorem tracksFinal_end {src : List Char} {it : LexingIterator} (hc : it.chars = [])
    (h : tracksFinal src it) : eraseQ it = eraseQ (finalIter src) := by
  unfold tracksFinal at h
  rw [consumeF_past hc] at h
  exact h

theorem tracksFinal_init (src : List Char) : tracksFinal src (init src) := by
  unfold tracksFinal finalIter
  have hlen : (init src).chars.length = src.length := by
    show (charIndices src).length = src.length
    unfold charIndices
    exact charIndicesFrom_length src 0
  rw [hlen]

theorem joinR_nil (src : List Char) : joinR src [] = [] := rfl

theorem joinR_append (src : List Char) (a b : List Token) :
    joinR src (a ++ b) = joinR src a ++ joinR src b := by
  simp [joinR]

theorem joinR_one (src : List Char) (t : Token) :
    joinR src [t] = tokContribution src t := by
  simp [joinR]

theorem joinR_cons (src : List Char) (t : Token) (q : List Token) :
    joinR src (t :: q) = tokContribution src t ++ joinR src q := by
  simp [joinR]

/-- `pendingOf` reads only the queue-erased configuration. -/
theorem pendingOf_eraseQ {A B : LexingIterator} (src : List Char) (i : Nat)
    (h : eraseQ A = eraseQ B) : pendingOf src A i = pendingOf src B i := by
  obtain ⟨f1, _, f3, f4, f5, _, _, _, _, _, _⟩ := eraseQ_fields h
  unfold pendingOf
  rw [f1, f3, f4, f5]

theorem popScope_sbl (fuel : Nat) (it : LexingIterator) (bo : Nat) :
    (popScopeF fuel it bo).source_byte_length = it.source_byte_length := by
  induction fuel generalizing it with
  | zero => rfl
  | succ fuel ih =>
    unfold popScopeF
    rcases it.stack with _ | ⟨oldTop, _ | ⟨newTop, rest⟩⟩ <;> try rfl
    cases oldTop <;> cases newTop <;> simp [ih]

theorem stepChar_sbl (it : LexingIterator) (bo : Nat) (c : Char) :
    (stepChar it bo c).source_byte_length = it.source_byte_length := by
  unfold stepChar
  cases it.state <;> simp only [] <;> split_ifs <;>
    simp [popScope, popScope_sbl, pushScope]

/-- `pop_scope` with `Content` on top: an unbalance error, or an appended
`EndFunction` with the machine back in a content/argument state and
`token_start` reset. -/
theorem pop_content (X : LexingIterator) (bo : Nat)
    (hstk : stackOK X.stack = true) (htop : X.stack.head? = some .Content) :
    (popScope X bo).occured_error ≠ none ∨
    ((popScope X bo).next_tokens = X.next_tokens ++ [Token.EndFunction bo] ∧
     (popScope X bo).token_start = S1 ∧
     ((popScope X bo).state = .ReadingContent ∨
      (popScope X bo).state = .ReadingArgumentValue)) := by
  rcases stack_shape_content hstk htop with h | h | ⟨r, h⟩ | ⟨r, h⟩
  · rw [popScope_single X bo _ h]
    simp
  · rw [popScope_content_fun_nil X bo h]
    simp
  · rw [popScope_content_fun_content X bo r h]
    simp
  · rw [popScope_content_fun_av X bo r h]
    simp

/-- `pop_scope` with `Function` on top: an unbalance error, or a return to
the surrounding content/argument-value scope with the queue unchanged. -/
theorem pop_fun (X : LexingIterator) (bo : Nat)
    (hstk : stackOK X.stack = true) (htop : X.stack.head? = some .Function) :
    (popScope X bo).occured_error ≠ none ∨
    ((popScope X bo).next_tokens = X.next_tokens ∧
     ((popScope X bo).state = .ReadingContent ∧
        (popScope X bo).token_start = X.token_start ∨
      (popScope X bo).state = .ReadingArgumentValue ∧
        (popScope X bo).token_start = S1)) := by
  rcases stack_shape_fun hstk htop with h | ⟨r, h⟩ | ⟨r, h⟩
  · rw [popScope_single X bo _ h]
    simp
  · rw [popScope_fun_content X bo r h]
    simp
  · rw [popScope_fun_av X bo r h]
    simp

/-- `pop_scope` with `ArgumentValue` on top: an unbalance error, or the
argument-closing state with the queue unchanged. -/
theorem pop_av (X : LexingIterator) (bo : Nat)
    (hstk : stackOK X.stack = true) (htop : X.stack.head? = some .ArgumentValue) :
    (popScope X bo).occured_error ≠ none ∨
    ((popScope X bo).next_tokens = X.next_tokens ∧
     (popScope X bo).state = .FoundArgumentClosing) := by
  rcases stack_shape_av hstk htop with h | ⟨r, h⟩
  · rw [popScope_single X bo _ h]
    simp
  · rw [popScope_av_fun X bo r h]
    simp

/-- `pop_scope` with `RawString` on top: an unbalance error, or a return to
the surrounding scope with the queue unchanged. -/
theorem pop_raw (X : LexingIterator) (bo : Nat)
    (hstk : stackOK X.stack = true) (htop : X.stack.head? = some .RawString) :
    (popScope X bo).occured_error ≠ none ∨
    ((popScope X bo).next_tokens = X.next_tokens ∧
     ((popScope X bo).state = .ReadingContent ∧
        (popScope X bo).token_start = X.token_start ∨
      (popScope X bo).state = .ReadingArgumentValue ∧
        (popScope X bo).token_start = S1)) := by
  rcases stack_shape_raw hstk htop with h | ⟨r, h⟩ | ⟨r, h⟩
  · rw [popScope_single X bo _ h]
    simp
  · rw [popScope_raw_content X bo r h]
    simp
  · rw [popScope_raw_av X bo r h]
    simp

/-- One consumed scalar preserves the reconstruction ledger: unless the step
records an error, the concatenation of queued contributions and the uncovered
pending stretch grows by exactly the consumed scalar, and the register facts
survive. -/
theorem stepChar_reconstruct (src : List Char) (it : LexingIterator) (i : Nat)
    (hi : i < src.length) (hsm : byteLen src < S2)
    (hreg : regFact src it i)
    (hstk : stackOK it.stack = true)
    (htop : stateTopOK it.state it.stack = true)
    (hT : it.state ≠ LexingState.Terminated) :
    (stepChar it (bl src i) (src.get ⟨i, hi⟩)).occured_error ≠ none ∨
    ((joinR src (stepChar it (bl src i) (src.get ⟨i, hi⟩)).next_tokens ++
        pendingOf src (stepChar it (bl src i) (src.get ⟨i, hi⟩)) (i + 1) =
      joinR src it.next_tokens ++ pendingOf src it i ++ [src.get ⟨i, hi⟩]) ∧
    regFact src (stepChar it (bl src i) (src.get ⟨i, hi⟩)) (i + 1)) := by
  have hS21 : S2 < S1 := by unfold S1 S2; omega
  have hble := bl_le_len src i
  have hbo1 : bl src i ≠ S1 := by omega
  have hbo2 : bl src i ≠ S2 := by omega
  unfold stepChar pendingOf regFact
  cases hstate : it.state
  case Terminated => exact absurd hstate hT
  case ReadingContent =>
    simp only [regFact, hstate, regFactS] at hreg
    rw [hstate] at htop
    simp only [stateTopOK, decide_eq_true_eq] at htop
    simp only []
    split_ifs <;> (try simp only []) <;>
      first
      | -- the two pop-scope leaves wrapped around the consumed brace
        (refine Or.elim (pop_content _ (bl src i) ?_ ?_) (fun herr => Or.inl herr)
          (fun hgood => ?_)
         · exact hstk
         · exact htop
         obtain ⟨hq, hts, hst⟩ := hgood
         refine Or.inr ⟨?_, ?_⟩
         · rw [hq, hts]
           rcases hst with h | h <;> rw [h] <;> rcases hreg with hr | hr | hr <;>
             first
             | simp_all [pendingOfS, joinR, tokContribution, sliceB_self]
             | omega
         · rw [hts]
           rcases hst with h | h <;> rw [h] <;> simp [regFactS])
      | -- call opening
        (refine Or.inr ⟨?_, ?_⟩
         · rcases hreg with hr | hr | hr <;>
             first
             | simp_all [pendingOfS, joinR, tokContribution, sliceB_self]
             | omega
         · simp only [regFactS]
           exact ⟨i, hi, rfl, rfl, by assumption⟩)
      | -- ordinary text scalar
        (refine Or.inr ⟨?_, ?_⟩
         · rcases hreg with hr | hr | hr <;>
             first
             | simp_all [pendingOfS, joinR, tokContribution, sliceB_self, sliceB_one src hi]
             | omega
         · simp only [regFactS]
           first
           | exact ⟨i, by omega, rfl⟩
           | (rcases hreg with hr | hr | hr
              · exact absurd hr (by assumption)
              · exact absurd hr (by assumption)
              · exact ⟨i, by omega, hr⟩))
  case ReadingContentText =>
    simp only [regFact, hstate, regFactS] at hreg
    rw [hstate] at htop
    simp only [stateTopOK, decide_eq_true_eq] at htop
    obtain ⟨j, hj, hts⟩ := hreg
    simp only []
    split_ifs <;> (try simp only []) <;>
      first
      | (refine Or.elim (pop_content _ (bl src i) ?_ ?_) (fun herr => Or.inl herr)
          (fun hgood => ?_)
         · exact hstk
         · exact htop
         obtain ⟨hq, hts2, hst⟩ := hgood
         refine Or.inr ⟨?_, ?_⟩
         · rw [hq, hts2]
           rcases hst with h | h <;> rw [h] <;>
             simp_all [pendingOfS, joinR, tokContribution]
         · rw [hts2]
           rcases hst with h | h <;> rw [h] <;> simp [regFactS])
      | (refine Or.inr ⟨?_, ?_⟩
         · simp_all [pendingOfS, joinR, tokContribution]
         · simp only [regFactS]
           exact ⟨i, hi, rfl, rfl, by assumption⟩)
      | (refine Or.inr ⟨?_, ?_⟩
         · rw [hstate]
           simp only [pendingOfS]
           rw [hts, sliceB_extend src hj hi]
           simp
         · rw [hstate]
           simp only [regFactS]
           exact ⟨j, by omega, hts⟩)
  case FoundCallOpening =>
    simp only [regFact, hstate, regFactS] at hreg
    rw [hstate] at htop
    simp only [stateTopOK, Bool.or_eq_true, decide_eq_true_eq] at htop
    obtain ⟨j, hj, hj1, htfs, hget⟩ := hreg
    subst hj1
    simp only []
    split_ifs <;> (try simp only []) <;>
      first
      | (left; simp; done)
      | -- raw-string opening run starts
        (refine Or.inr ⟨?_, ?_⟩
         · simp only [pendingOfS]
           rw [htfs]
           rw [← sliceB_concat src (Nat.le_succ j) (by omega) (by omega)]
           rw [sliceB_one src hj, hget, sliceB_one src hi]
           simp
         · simp only [regFactS]
           exact ⟨j, hj, by omega, htfs, hget⟩)
      | -- an ordinary call name begins
        (refine Or.inr ⟨?_, ?_⟩
         · simp_all [pendingOfS, joinR, tokContribution, sliceB_one src hi, pushScope]
         · simp only [regFactS]
           exact ⟨j + 1, by omega, rfl⟩)
  case StartRaw =>
    simp only [regFact, hstate, regFactS] at hreg
    rw [hstate] at htop
    simp only [stateTopOK, Bool.or_eq_true, decide_eq_true_eq] at htop
    obtain ⟨j, hj, hj1, htfs, hget⟩ := hreg
    have h1 : bl src (j + 1) = bl src j + 1 := by rw [bl_succ src hj, hget]; rfl
    simp only []
    split_ifs <;> (try simp only []) <;>
      first
      | (left; simp; done)
      | -- the run of opening angle brackets continues
        (refine Or.inr ⟨?_, ?_⟩
         · simp only [pendingOfS]
           rw [htfs, sliceB_extend src (show j ≤ i by omega) hi]
           simp
         · simp only [regFactS]
           exact ⟨j, hj, by omega, htfs, hget⟩)
      | -- the reading of the raw content begins
        (refine Or.inr ⟨?_, ?_⟩
         · simp only [pendingOfS]
           rw [htfs]
           rw [← sliceB_concat src (Nat.le_succ j) (show j + 1 ≤ i by omega) (Nat.le_of_lt hi)]
           rw [sliceB_one src hj, hget, ← h1]
           simp [joinR, tokContribution, pushScope]
         · simp [regFactS, pushScope])
  case ReadingRaw =>
    simp only [regFact, hstate, regFactS] at hreg
    simp only []
    split_ifs <;> (try simp only []) <;>
      first
      | -- the uncovered raw stretch starts at the scalar just consumed
        (refine Or.inr ⟨?_, ?_⟩
         · (try rw [hstate])
           rcases hreg with hr | ⟨j1, j2, hj12, hj2i, htrc, hts⟩
           · simp [pendingOfS, joinR, tokContribution, sliceB_one src hi, hr, hbo1]
             done
           · exfalso; have := bl_le_len src j2; omega
         · (try rw [hstate])
           (try simp only [])
           (try simp only [regFactS])
           first
           | exact Or.inr ⟨i, i, by omega, by omega, rfl, rfl⟩
           | exact ⟨i, i, by omega, by omega, rfl, rfl⟩)
      | -- the scalar extends a stretch that started earlier
        (rcases hreg with hr | ⟨j1, j2, hj12, hj2i, htrc, hts⟩
         · exact absurd hr (by assumption)
         have hts1 : it.token_start ≠ S1 := by have := bl_le_len src j2; omega
         refine Or.inr ⟨?_, ?_⟩
         · (try rw [hstate])
           simp only [pendingOfS]
           rw [htrc, sliceB_extend src (Nat.le_trans hj12 hj2i) hi]
           simp [hts1, hbo1]
           done
         · (try rw [hstate])
           (try simp only [])
           (try simp only [regFactS])
           first
           | exact Or.inr ⟨j1, j2, hj12, by omega, htrc, hts⟩
           | exact Or.inr ⟨j1, i, by omega, by omega, htrc, rfl⟩
           | exact ⟨j1, j2, hj12, by omega, htrc, hts⟩
           | exact ⟨j1, i, by omega, by omega, htrc, rfl⟩)
  case EndRaw =>
    simp only [regFact, hstate, regFactS] at hreg
    rw [hstate] at htop
    simp only [stateTopOK, decide_eq_true_eq] at htop
    obtain ⟨j1, j2, hj12, hj2i, htrc, hts⟩ := hreg
    simp only []
    split_ifs <;> (try simp only []) <;>
      first
      | (left; simp; done)
      | (refine Or.elim (pop_raw _ (bl src i) ?_ ?_) (fun herr => Or.inl herr)
          (fun hgood => ?_)
         · exact hstk
         · exact htop
         obtain ⟨hq, hst⟩ := hgood
         have hc : src.get ⟨i, hi⟩ = '}' := by assumption
         refine Or.inr ⟨?_, ?_⟩
         · rw [hq, hc]
           rcases hst with ⟨h, hts3⟩ | ⟨h, hts3⟩ <;> rw [h, hts3] <;>
             (simp only [pendingOfS]
              rw [htrc, hts, ← sliceB_concat src hj12 hj2i (Nat.le_of_lt hi)]
              simp [joinR, tokContribution])
         · rcases hst with ⟨h, hts3⟩ | ⟨h, hts3⟩ <;> rw [h, hts3] <;> simp [regFactS])
  case ReadingArgumentValue =>
    simp only [regFact, hstate, regFactS] at hreg
    rw [hstate] at htop
    simp only [stateTopOK, decide_eq_true_eq] at htop
    simp only []
    split_ifs <;> (try simp only []) <;>
      first
      | -- the argument value closes
        (refine Or.elim (pop_av _ (bl src i) ?_ ?_) (fun herr => Or.inl herr)
          (fun hgood => ?_)
         · exact hstk
         · exact htop
         obtain ⟨hq, hst⟩ := hgood
         refine Or.inr ⟨?_, ?_⟩
         · rw [hq, hst]
           rcases hreg with hr | hr | hr <;>
             first
             | (simp_all [pendingOfS, joinR, tokContribution, sliceB_self]; done)
             | omega
         · rw [hst]
           simp [regFactS])
      | -- a call opens inside the argument value
        (refine Or.inr ⟨?_, ?_⟩
         · rcases hreg with hr | hr | hr <;>
             first
             | (simp_all [pendingOfS, joinR, tokContribution, sliceB_self]; done)
             | omega
         · simp only [regFactS]
           exact ⟨i, hi, rfl, rfl, by assumption⟩)
      | -- ordinary scalar starts the argument-value text
        (refine Or.inr ⟨?_, ?_⟩
         · rcases hreg with hr | hr | hr <;>
             first
             | (simp_all [pendingOfS, joinR, tokContribution, sliceB_self,
                 sliceB_one src hi, hbo1]; done)
             | omega
         · (try simp only [])
           (try simp only [regFactS])
           first
           | exact Or.inr ⟨i, by omega, rfl⟩
           | (rcases hreg with hr | hr | hr
              · exact absurd hr (by assumption)
              · exact absurd hr (by assumption)
              · exact Or.inr ⟨i, by omega, hr⟩))
  case ReadingArgumentValueText =>
    simp only [regFact, hstate, regFactS] at hreg
    rw [hstate] at htop
    simp only [stateTopOK, decide_eq_true_eq] at htop
    simp only []
    split_ifs <;> (try simp only []) <;>
      first
      | -- a call opens, with the gathered text flushed first
        (refine Or.inr ⟨?_, ?_⟩
         · (simp_all [pendingOfS, joinR, tokContribution]; done)
         · simp only [regFactS]
           exact ⟨i, hi, rfl, rfl, by assumption⟩)
      | -- a call opens with nothing to flush
        (refine Or.inr ⟨?_, ?_⟩
         · by_cases hts1 : it.token_start = S1
           · (simp_all [pendingOfS, joinR, tokContribution]; done)
           · have hbo3 : it.token_start = bl src i := by tauto
             (simp_all [pendingOfS, joinR, tokContribution, sliceB_self]; done)
         · simp only [regFactS]
           exact ⟨i, hi, rfl, rfl, by assumption⟩)
      | -- the argument value closes, with the gathered text flushed first
        (refine Or.elim (pop_av _ (bl src i) ?_ ?_) (fun herr => Or.inl herr)
          (fun hgood => ?_)
         · exact hstk
         · exact htop
         obtain ⟨hq, hst⟩ := hgood
         refine Or.inr ⟨?_, ?_⟩
         · rw [hq, hst]
           by_cases hts1 : it.token_start = S1
           · (simp_all [pendingOfS, joinR, tokContribution]; done)
           · first
             | (simp_all [pendingOfS, joinR, tokContribution]; done)
             | (have hbo3 : it.token_start = bl src i := by tauto
                simp_all [pendingOfS, joinR, tokContribution, sliceB_self]
                done)
         · rw [hst]
           simp [regFactS])
      | -- ordinary scalar right after the value opens
        (refine Or.inr ⟨?_, ?_⟩
         · (try rw [hstate])
           (simp_all [pendingOfS, joinR, tokContribution, sliceB_one src hi, hbo1]; done)
         · (try rw [hstate])
           (try simp only [])
           (try simp only [regFactS])
           exact Or.inr ⟨i, by omega, rfl⟩)
      | -- ordinary scalar extends the value text
        (refine Or.inr ⟨?_, ?_⟩
         · (try rw [hstate])
           rcases hreg with hr | ⟨j, hj, hts⟩
           · exact absurd hr (by assumption)
           have hts1 : ¬it.token_start = S1 := by assumption
           rw [hts] at hts1
           simp only [pendingOfS]
           rw [hts, sliceB_extend src hj hi]
           simp [hts1]
           done
         · (try rw [hstate])
           (try simp only [])
           (try simp only [regFactS])
           rcases hreg with hr | ⟨j, hj, hts⟩
           · exact absurd hr (by assumption)
           exact Or.inr ⟨j, by omega, hts⟩)
  case ReadingCallName =>
    simp only [regFact, hstate, regFactS] at hreg
    rw [hstate] at htop
    simp only [stateTopOK, decide_eq_true_eq] at htop
    obtain ⟨j, hjlt, hts⟩ := hreg
    simp only []
    split_ifs <;> (try simp only []) <;>
      first
      | -- the function closes right after its name
        (refine Or.elim (pop_fun _ (bl src i) ?_ ?_) (fun herr => Or.inl herr)
          (fun hgood => ?_)
         · exact hstk
         · exact htop
         obtain ⟨hq, hst⟩ := hgood
         have hc : src.get ⟨i, hi⟩ = '}' := by assumption
         refine Or.inr ⟨?_, ?_⟩
         · rw [hq, hc]
           rcases hst with ⟨h, hts3⟩ | ⟨h, hts3⟩ <;> rw [h, hts3] <;>
             (simp [pendingOfS, joinR, tokContribution]; done)
         · rcases hst with ⟨h, hts3⟩ | ⟨h, hts3⟩ <;> rw [h, hts3] <;> simp [regFactS])
      | -- whitespace or '[' ends the name and emits the Call token
        (refine Or.inr ⟨?_, ?_⟩
         · (try rw [hstate])
           (simp_all [pendingOfS, joinR, tokContribution, pushScope]; done)
         · (try rw [hstate])
           (try simp only [])
           (try simp only [regFactS])
           simp)
      | -- the name keeps growing
        (refine Or.inr ⟨?_, ?_⟩
         · (try rw [hstate])
           simp only [pendingOfS]
           rw [hts, sliceB_extend src (by omega : j ≤ i) hi]
           simp
           done
         · (try rw [hstate])
           (try simp only [])
           (try simp only [regFactS])
           exact ⟨j, by omega, hts⟩)
  case FoundArgumentOpening =>
    simp only [regFact, hstate, regFactS] at hreg
    rw [hstate] at htop
    simp only [stateTopOK, decide_eq_true_eq] at htop
    simp only []
    split_ifs <;> (try simp only []) <;>
      first
      | (left; simp; done)
      | -- a nonempty argument key is emitted
        (refine Or.inr ⟨?_, ?_⟩
         · rcases hreg with hr | ⟨j, hj, hts⟩
           · exact absurd hr (by assumption)
           (simp_all [pendingOfS, joinR, tokContribution, pushScope]; done)
         · (try simp only [])
           (try simp only [regFactS])
           simp)
      | -- the first scalar of the key
        (refine Or.inr ⟨?_, ?_⟩
         · (try rw [hstate])
           (simp_all [pendingOfS, joinR, tokContribution, sliceB_one src hi, hbo1]; done)
         · (try rw [hstate])
           (try simp only [])
           (try simp only [regFactS])
           exact Or.inr ⟨i, by omega, rfl⟩)
      | -- the key keeps growing
        (refine Or.inr ⟨?_, ?_⟩
         · (try rw [hstate])
           rcases hreg with hr | ⟨j, hj, hts⟩
           · exact absurd hr (by assumption)
           have hts1 : ¬it.token_start = S1 := by assumption
           rw [hts] at hts1
           simp only [pendingOfS]
           rw [hts, sliceB_extend src hj hi]
           simp [hts1]
           done
         · (try rw [hstate])
           (try simp only [])
           (try simp only [regFactS])
           rcases hreg with hr | ⟨j, hj, hts⟩
           · exact absurd hr (by assumption)
           exact Or.inr ⟨j, by omega, hts⟩)
  case FoundArgumentClosing =>
    rw [hstate] at htop
    simp only [stateTopOK, decide_eq_true_eq] at htop
    simp only []
    split_ifs <;> (try simp only []) <;>
      first
      | (left; simp; done)
      | -- the argument list ends and the function closes
        (refine Or.elim (pop_fun _ (bl src i) ?_ ?_) (fun herr => Or.inl herr)
          (fun hgood => ?_)
         · exact hstk
         · exact htop
         obtain ⟨hq, hst⟩ := hgood
         have hc : src.get ⟨i, hi⟩ = '}' := by assumption
         refine Or.inr ⟨?_, ?_⟩
         · rw [hq, hc]
           rcases hst with ⟨h, hts3⟩ | ⟨h, hts3⟩ <;> rw [h] <;>
             (simp [pendingOfS, joinR, tokContribution]; done)
         · rcases hst with ⟨h, hts3⟩ | ⟨h, hts3⟩ <;> rw [h] <;> simp [regFactS])
      | -- '[' opens another argument, or whitespace opens the content
        (refine Or.inr ⟨?_, ?_⟩
         · (simp_all [pendingOfS, joinR, tokContribution, pushScope]; done)
         · (try simp only [])
           (try simp only [regFactS])
           simp)

theorem runLex_error_end : ∀ (q : List Token) (it : LexingIterator) (e : Error),
    it.next_tokens = q → it.state = .Terminated → it.occured_error = some e →
    (runLex it).2 = some e := by
  intro q
  induction q with
  | nil =>
    intro it e hq hterm herr
    have hp : progress it = (none, it) := by simp [progress, hq, hterm]
    have hlex : lexNext it = (some (.error e), { it with occured_error := none }) := by
      rw [lexNext_eq, hp]
      simp [hterm, herr]
    show (runLexF (measure it + 1) it).2 = some e
    unfold runLexF
    rw [hlex]
  | cons t rest ih =>
    intro it e hq hterm herr
    have hp : progress it = (some t, { it with next_tokens := rest }) := by
      simp [progress, hq]
    have hlex : lexNext it = (some (.ok t), { it with next_tokens := rest }) := by
      rw [lexNext_eq, hp]
    have hfl : flushPending { it with next_tokens := rest } = flushPending it := by
      simp [flushPending]
    have hm : measure { it with next_tokens := rest } < measure it := by
      simp only [measure, hfl, hq, List.length_cons]
      omega
    show (runLexF (measure it + 1) it).2 = some e
    unfold runLexF
    rw [hlex]
    simp only []
    rw [runLexF_eq_of_lt _ _ hm]
    exact ih _ e rfl hterm herr

theorem runLex_term_err {it : LexingIterator} {e : Error} (hterm : it.state = .Terminated)
    (herr : it.occured_error = some e) : (runLex it).2 = some e :=
  runLex_error_end it.next_tokens it e rfl hterm herr

theorem runLex_dead {it : LexingIterator} (hterm : it.state = .Terminated)
    (herr : it.occured_error = none) (hq : it.next_tokens = []) :
    runLex it = ([], none) := by
  have hp : progress it = (none, it) := by simp [progress, hq, hterm]
  have hlex : lexNext it = (none, it) := by
    rw [lexNext_eq, hp]
    simp [hterm, herr]
  show runLexF (measure it + 1) it = ([], none)
  unfold runLexF
  rw [hlex]

theorem runLex_term_err_empty {it : LexingIterator} {e : Error}
    (hterm : it.state = .Terminated) (herr : it.occured_error = some e)
    (hq : it.next_tokens = []) : runLex it = ([], some e) := by
  have hp : progress it = (none, it) := by simp [progress, hq, hterm]
  have hlex : lexNext it = (some (.error e), { it with occured_error := none }) := by
    rw [lexNext_eq, hp]
    simp [hterm, herr]
  show runLexF (measure it + 1) it = ([], some e)
  unfold runLexF
  rw [hlex]

theorem runLex_progress_none {it it1 : LexingIterator}
    (hp : progress it = (none, it1)) (hterm : it1.state ≠ .Terminated) :
    runLex it = runLex it1 := by
  have hm : measure it1 < measure it := progress_none_measure hp hterm
  have hlex : lexNext it = lexNext it1 := by
    rw [lexNext_eq it, hp]
    simp [hterm]
  show runLexF (measure it + 1) it = runLexF (measure it1 + 1) it1
  rcases hl : lexNext it1 with ⟨_ | e | t, it2⟩
  · unfold runLexF
    rw [hlex, hl]
  · unfold runLexF
    rw [hlex, hl]
  · have hm2 : measure it2 < measure it1 := lexNext_ok_measure hl
    unfold runLexF
    rw [hlex, hl]
    simp only []
    rw [runLexF_eq_of_lt _ _ (show measure it2 < measure it by omega),
      runLexF_eq_of_lt _ _ hm2]

theorem runLex_queue_pop {it : LexingIterator} {t : Token} {rest : List Token}
    (hq : it.next_tokens = t :: rest) :
    runLex it = (t :: (runLex { it with next_tokens := rest }).1,
      (runLex { it with next_tokens := rest }).2) := by
  have hp : progress it = (some t, { it with next_tokens := rest }) := by
    simp [progress, hq]
  have hlex : lexNext it = (some (.ok t), { it with next_tokens := rest }) := by
    rw [lexNext_eq, hp]
  have hfl : flushPending { it with next_tokens := rest } = flushPending it := by
    simp [flushPending]
  have hm : measure { it with next_tokens := rest } < measure it := by
    simp only [measure, hfl, hq, List.length_cons]
    omega
  show runLexF (measure it + 1) it = _
  unfold runLexF
  rw [hlex]
  simp only []
  rw [runLexF_eq_of_lt _ _ hm]

theorem runLex_stepChar {it : LexingIterator} {bo : Nat} {c : Char}
    {rest : List (Nat × Char)} (hq : it.next_tokens = [])
    (hT : it.state ≠ .Terminated) (hc : it.chars = (bo, c) :: rest) :
    runLex it = runLex (stepChar { it with chars := rest } bo c) := by
  have hit : ({ it with chars := rest } : LexingIterator) =
      { it with chars := rest, next_tokens := ([] : List Token) } := by
    rw [← hq]
  rw [hit]
  rcases hq1 : (stepChar { it with chars := rest, next_tokens := ([] : List Token) } bo c).next_tokens
    with _ | ⟨t, q2⟩
  · have hp : progress it =
        (none, stepChar { it with chars := rest, next_tokens := ([] : List Token) } bo c) := by
      unfold progress
      rw [hq]
      simp only [if_neg hT]
      rw [hc]
      (try simp only [])
      rw [hq1]
    by_cases hterm1 :
        (stepChar { it with chars := rest, next_tokens := ([] : List Token) } bo c).state =
          .Terminated
    · rcases herr1 :
          (stepChar { it with chars := rest, next_tokens := ([] : List Token) } bo c).occured_error
          with _ | e
      · have h1 : runLex it = ([], none) := by
          have hlex : lexNext it =
              (none, stepChar { it with chars := rest, next_tokens := ([] : List Token) } bo c) := by
            rw [lexNext_eq, hp]
            simp [hterm1, herr1]
          show runLexF (measure it + 1) it = ([], none)
          unfold runLexF
          rw [hlex]
        rw [h1, runLex_dead hterm1 herr1 hq1]
      · have h1 : runLex it = ([], some e) := by
          have hlex : lexNext it =
              (some (.error e),
                { stepChar { it with chars := rest, next_tokens := ([] : List Token) } bo c with
                    occured_error := none }) := by
            rw [lexNext_eq, hp]
            simp [hterm1, herr1]
          show runLexF (measure it + 1) it = ([], some e)
          unfold runLexF
          rw [hlex]
        rw [h1, runLex_term_err_empty hterm1 herr1 hq1]
    · exact runLex_progress_none hp hterm1
  · have hp : progress it =
        (some t, { stepChar { it with chars := rest, next_tokens := ([] : List Token) } bo c with
            next_tokens := q2 }) := by
      unfold progress
      rw [hq]
      simp only [if_neg hT]
      rw [hc]
      (try simp only [])
      rw [hq1]
    have hp1 : progress (stepChar { it with chars := rest, next_tokens := ([] : List Token) } bo c) =
        (some t, { stepChar { it with chars := rest, next_tokens := ([] : List Token) } bo c with
            next_tokens := q2 }) := by
      unfold progress
      rw [hq1]
    have hlex : lexNext it =
        (some (.ok t), { stepChar { it with chars := rest, next_tokens := ([] : List Token) } bo c with
            next_tokens := q2 }) := by
      rw [lexNext_eq, hp]
    have hlex1 : lexNext (stepChar { it with chars := rest, next_tokens := ([] : List Token) } bo c) =
        (some (.ok t), { stepChar { it with chars := rest, next_tokens := ([] : List Token) } bo c with
            next_tokens := q2 }) := by
      rw [lexNext_eq, hp1]
    show runLexF (measure it + 1) it = runLexF _ _
    unfold runLexF
    rw [hlex, hlex1]
    simp only []
    rw [runLexF_eq_of_lt _ _ (progress_some_measure hp),
      runLexF_eq_of_lt _ _ (progress_some_measure hp1)]

/-- The final flush: with the input exhausted and a live text stretch, the
rest of the run is exactly a `Text` token followed by `EndOfFile`. -/
theorem runLex_flush {it : LexingIterator} (hq : it.next_tokens = [])
    (hT : it.state ≠ .Terminated) (hch : it.chars = [])
    (hcond : it.token_start ≠ it.source_byte_length ∧ it.token_start ≠ S1 ∧
      it.token_start ≠ S2)
    (herr : it.occured_error = none) :
    runLex it = ([Token.Text ⟨it.token_start, it.source_byte_length⟩,
      Token.EndOfFile it.source_byte_length], none) := by
  have hp : progress it = (none, { it with
      next_tokens := [Token.Text ⟨it.token_start, it.source_byte_length⟩],
      token_start := it.source_byte_length }) := by
    unfold progress
    rw [hq]
    simp only [if_neg hT]
    rw [hch]
    simp only [if_pos hcond]
  have hT1 : ({ it with next_tokens := [Token.Text ⟨it.token_start, it.source_byte_length⟩], token_start := it.source_byte_length } : LexingIterator).state ≠ .Terminated := hT
  rw [runLex_progress_none hp hT1]
  have hq2 : ({ it with next_tokens := [Token.Text ⟨it.token_start, it.source_byte_length⟩], token_start := it.source_byte_length } : LexingIterator).next_tokens =
      Token.Text ⟨it.token_start, it.source_byte_length⟩ :: [] := rfl
  rw [runLex_queue_pop hq2]
  have hp2 : progress { it with next_tokens := ([] : List Token), token_start := it.source_byte_length } =
      (some (Token.EndOfFile it.source_byte_length),
        { it with next_tokens := ([] : List Token), token_start := it.source_byte_length, state := .Terminated }) := by
    unfold progress
    simp only []
    rw [if_neg hT]
    rw [hch]
    simp
  have hlex2 : lexNext { it with next_tokens := ([] : List Token), token_start := it.source_byte_length } =
      (some (.ok (Token.EndOfFile it.source_byte_length)),
        { it with next_tokens := ([] : List Token), token_start := it.source_byte_length, state := .Terminated }) := by
    rw [lexNext_eq, hp2]
  have hdead : runLex { it with next_tokens := ([] : List Token), token_start := it.source_byte_length, state := .Terminated } = ([], none) :=
    runLex_dead rfl herr rfl
  have h3 : runLex { it with next_tokens := ([] : List Token), token_start := it.source_byte_length } =
      ([Token.EndOfFile it.source_byte_length], none) := by
    show runLexF _ _ = _
    unfold runLexF
    rw [hlex2]
    simp only []
    rw [runLexF_eq_of_lt _ _ (progress_some_measure hp2), hdead]
  rw [h3]

/-- With nothing pending at end of input, the rest of the run is exactly
`EndOfFile`. -/
theorem runLex_eof {it : LexingIterator} (hq : it.next_tokens = [])
    (hT : it.state ≠ .Terminated) (hch : it.chars = [])
    (hcond : ¬(it.token_start ≠ it.source_byte_length ∧ it.token_start ≠ S1 ∧
      it.token_start ≠ S2))
    (herr : it.occured_error = none) :
    runLex it = ([Token.EndOfFile it.source_byte_length], none) := by
  have hp : progress it = (some (Token.EndOfFile it.source_byte_length),
      { it with state := .Terminated }) := by
    unfold progress
    rw [hq]
    simp only [if_neg hT]
    rw [hch]
    simp only [if_neg hcond]
  have hlex : lexNext it = (some (.ok (Token.EndOfFile it.source_byte_length)),
      { it with state := .Terminated }) := by
    rw [lexNext_eq, hp]
  have hdead : runLex { it with state := .Terminated } = ([], none) :=
    runLex_dead rfl herr hq
  show runLexF _ _ = _
  unfold runLexF
  rw [hlex]
  simp only []
  rw [runLexF_eq_of_lt _ _ (progress_some_measure hp), hdead]

/-- Erasure-equal iterators with the same remaining input track the same
final configuration. -/
theorem tracksFinal_congr {src : List Char} {A B : LexingIterator}
    (h : eraseQ A = eraseQ B) (htf : tracksFinal src B) : tracksFinal src A := by
  unfold tracksFinal at htf ⊢
  have hch : A.chars = B.chars := (eraseQ_fields h).2.2.2.2.2.2.2.1
  rw [hch, ← htf]
  exact consumeF_eraseQ _ _ _ h

/-- The reconstruction ledger for a whole successful run: the emitted tokens
cover exactly the queued contributions, the uncovered pending stretch and the
unread input. -/
theorem runLex_reconstruct_aux : ∀ (n : Nat) (src : List Char) (it : LexingIterator) (i : Nat),
    measure it ≤ n → byteLen src < S2 → i ≤ src.length →
    InvA it → (it.state = .Terminated → it.occured_error ≠ none) →
    it.source_byte_length = byteLen src →
    it.chars = charIndicesFrom (bl src i) (List.drop i src) →
    regFact src it i → tracksFinal src it → cleanEOF src →
    (runLex it).2 = none →
    joinR src (runLex it).1 =
      joinR src it.next_tokens ++ pendingOf src it i ++ List.drop i src := by
  intro n
  induction n with
  | zero =>
    intro src it i hn hsm hi hA hTE hsbl hch hreg htf hcl hsucc
    exfalso
    by_cases hst : it.state = .Terminated
    · rcases he : it.occured_error with _ | e
      · exact hTE hst he
      · have h2 := runLex_term_err hst he
        rw [hsucc] at h2
        exact Option.noConfusion h2
    · simp only [measure, if_neg hst] at hn
      omega
  | succ n ih =>
    intro src it i hn hsm hi hA hTE hsbl hch hreg htf hcl hsucc
    rcases hq : it.next_tokens with _ | ⟨t, rest⟩
    · -- the queue is empty
      by_cases hst : it.state = .Terminated
      · rcases he : it.occured_error with _ | e
        · exact absurd he (hTE hst)
        · exfalso
          have h2 := runLex_term_err hst he
          rw [hsucc] at h2
          exact Option.noConfusion h2
      · have herr : it.occured_error = none := by
          rcases he : it.occured_error with _ | e
          · rfl
          · exact absurd (hA.err_term (by simp [he])) hst
        rcases hchars : it.chars with _ | ⟨⟨bo, c⟩, restc⟩
        · -- input exhausted
          have hdrop : List.drop i src = [] := by
            rw [hchars] at hch
            exact charIndicesFrom_nil_iff.mp hch.symm
          have hieq : i = src.length := by
            have := drop_len_le hdrop
            omega
          have hfin : eraseQ it = eraseQ (finalIter src) := tracksFinal_end hchars htf
          have hpend : pendingOf src it i = pendingOf src (finalIter src) i :=
            pendingOf_eraseQ src i hfin
          obtain ⟨f1, f2, f3, f4, f5, f6, f7, f8, f9, f10, f11⟩ := eraseQ_fields hfin
          unfold cleanEOF at hcl
          rw [← f3, ← f2] at hcl
          by_cases hcond : it.token_start ≠ it.source_byte_length ∧
              it.token_start ≠ S1 ∧ it.token_start ≠ S2
          · rw [if_pos hcond] at hcl
            rw [runLex_flush hq hst hchars hcond herr]
            rw [hdrop, hpend, hieq, hcl]
            simp [joinR, tokContribution, ← f3, hsbl, bl_len]
          · rw [if_neg hcond] at hcl
            rw [runLex_eof hq hst hchars hcond herr]
            rw [hdrop, hpend, hieq, hcl]
            simp [joinR, tokContribution]
        · -- consume one scalar
          have hlt : i < src.length := by
            by_contra h
            have hd : List.drop i src = [] := List.drop_eq_nil_of_le (by omega)
            rw [hd] at hch
            rw [hchars] at hch
            simp [charIndicesFrom] at hch
          have hcc := hch
          rw [chars_cons src hlt, hchars] at hcc
          simp only [List.cons.injEq, Prod.mk.injEq] at hcc
          obtain ⟨⟨hbo, hcv⟩, hrest⟩ := hcc
          subst hbo
          subst hcv
          subst hrest
          have hrun := runLex_stepChar hq hst hchars
          have hA1 : InvA { it with chars := charIndicesFrom (bl src (i + 1)) (List.drop (i + 1) src) } :=
            ⟨hA.eof_free, hA.err_term, hA.term_ok, hA.no_panic, hA.stack_ok, hA.top_ok⟩
          have hstep := stepChar_inv
            { it with chars := charIndicesFrom (bl src (i + 1)) (List.drop (i + 1) src) }
            (bl src i) (src.get ⟨i, hlt⟩) hA1 hst
          have hrec := stepChar_reconstruct src
            { it with chars := charIndicesFrom (bl src (i + 1)) (List.drop (i + 1) src) }
            i hlt hsm hreg hA.stack_ok hA.top_ok hst
          rcases hrec with herr1 | ⟨heq, hreg1⟩
          · exfalso
            rcases he1 : (stepChar { it with chars := charIndicesFrom (bl src (i + 1)) (List.drop (i + 1) src) } (bl src i) (src.get ⟨i, hlt⟩)).occured_error with _ | e
            · exact herr1 he1
            · have hterm1 := (hstep.1).err_term (by rw [he1]; simp)
              have h2 := runLex_term_err hterm1 he1
              rw [hrun] at hsucc
              rw [hsucc] at h2
              exact Option.noConfusion h2
          · have hch1 := stepChar_chars
              { it with chars := charIndicesFrom (bl src (i + 1)) (List.drop (i + 1) src) }
              (bl src i) (src.get ⟨i, hlt⟩)
            have hqlen := stepChar_queue_len
              { it with chars := charIndicesFrom (bl src (i + 1)) (List.drop (i + 1) src) }
              (bl src i) (src.get ⟨i, hlt⟩)
            have hq0 : ({ it with chars := charIndicesFrom (bl src (i + 1)) (List.drop (i + 1) src) } : LexingIterator).next_tokens.length = 0 := by
              simp [hq]
            have hm2 : measure (stepChar { it with chars := charIndicesFrom (bl src (i + 1)) (List.drop (i + 1) src) } (bl src i) (src.get ⟨i, hlt⟩)) ≤ n := by
              have ha : measure it ≥ 6 * (charIndicesFrom (bl src (i + 1)) (List.drop (i + 1) src)).length + 7 := by
                have hfl : flushPending it = false := by simp [flushPending, hchars]
                simp only [measure, hchars, List.length_cons, if_neg hst, hfl,
                  Bool.false_eq_true, if_false]
                omega
              have hb : measure (stepChar { it with chars := charIndicesFrom (bl src (i + 1)) (List.drop (i + 1) src) } (bl src i) (src.get ⟨i, hlt⟩)) ≤
                  6 * (charIndicesFrom (bl src (i + 1)) (List.drop (i + 1) src)).length + 6 := by
                simp only [measure, hch1]
                split_ifs <;> omega
              omega
            have hsucc1 : (runLex (stepChar { it with chars := charIndicesFrom (bl src (i + 1)) (List.drop (i + 1) src) } (bl src i) (src.get ⟨i, hlt⟩))).2 = none := by
              rw [← hrun]
              exact hsucc
            have htf1 : tracksFinal src (stepChar { it with chars := charIndicesFrom (bl src (i + 1)) (List.drop (i + 1) src) } (bl src i) (src.get ⟨i, hlt⟩)) :=
              tracksFinal_step hst hchars htf
            have hres := ih src
              (stepChar { it with chars := charIndicesFrom (bl src (i + 1)) (List.drop (i + 1) src) } (bl src i) (src.get ⟨i, hlt⟩))
              (i + 1) hm2 hsm (by omega) hstep.1 hstep.2
              (by rw [stepChar_sbl]; exact hsbl) (by rw [hch1]) hreg1 htf1 hcl hsucc1
            rw [hrun, hres, heq]
            rw [List.drop_eq_getElem_cons hlt]
            simp [pendingOf, hq, List.append_assoc]
    · -- emit the queued token first
      have hrun := runLex_queue_pop hq
      have hA1 : InvA { it with next_tokens := rest } := dequeue_inv hA hq
      have hfl : flushPending { it with next_tokens := rest } = flushPending it := by
        simp [flushPending]
      have hm : measure { it with next_tokens := rest } ≤ n := by
        simp only [measure, hfl, hq, List.length_cons] at hn ⊢
        omega
      have htf1 : tracksFinal src { it with next_tokens := rest } :=
        tracksFinal_congr (by simp [eraseQ]) htf
      have hsucc1 : (runLex { it with next_tokens := rest }).2 = none := by
        rw [hrun] at hsucc
        exact hsucc
      have hres := ih src { it with next_tokens := rest } i hm hsm hi hA1 hTE hsbl hch
        hreg htf1 hcl hsucc1
      rw [hrun]
      simp only [joinR_cons]
      rw [hres]
      simp [pendingOf, List.append_assoc]

end LexingIterator

open LexingIterator in
/-- C2, amended: the round-trip holds on every source whose lexing succeeds
*and* ends cleanly, i.e. whatever stretch of input is uncovered when the
scalars run out is exactly what the final flush emits as a `Text` token
(sources such as `"\x7b<<"`, which succeed while dropping the opening
brace, are excluded by `cleanEOF`). -/
theorem C2_round_trip_amended (src : List Char) (hsm : byteLen src < S2)
    (hsucc : (runLex (init src)).2 = none) (hclean : cleanEOF src) :
    specReconstruct src = src := by
  have hTE : (init src).state = .Terminated → (init src).occured_error ≠ none := by
    intro h
    exact absurd h (by simp [init])
  have h01 : ¬((0 : Nat) = S1 ∨ (0 : Nat) = S2) := by unfold S1 S2; omega
  have hpend : pendingOf src (init src) 0 = [] := by
    simp [pendingOf, init, pendingOfS, h01, bl_zero, sliceB_self]
  have h := runLex_reconstruct_aux (measure (init src)) src (init src) 0 (Nat.le_refl _)
    hsm (Nat.zero_le _) (init_invA src) hTE rfl rfl (Or.inr (Or.inr rfl))
    (tracksFinal_init src) hclean hsucc
  unfold specReconstruct
  rw [h, hpend]
  simp [init, joinR]

open LexingIterator in
/-- A concrete clean run: `"\x7ba b\x7d"` lexes successfully, ends cleanly,
and the reconstruction returns the source. -/
theorem C2_round_trip_amended_witness :
    byteLen "{a b}".toList < LexingIterator.S2 ∧
    (runLex (LexingIterator.init "{a b}".toList)).2 = none ∧
    cleanEOF "{a b}".toList ∧
    specReconstruct "{a b}".toList = "{a b}".toList :=
  ⟨by decide, by decide, by unfold LexingIterator.cleanEOF; decide,
    C2_round_trip_amended _ (by decide) (by decide)
      (by unfold LexingIterator.cleanEOF; decide)⟩

end Litua
